import Mathlib

/-!
# Verification of the Adblock Plus core URL filter matching engine

This file is a shallow embedding, in Lean 4, of the URL filter matching
engine of `adblockpluscore`: the `FiltersByDomain` index
(`lib/filtersByDomain.js`), the filter value model (`filterClasses.js`),
and the `Matcher`/`CombinedMatcher` classes (`matcher.js`, in the two
variants present in the repository).

Strings are modelled as `List Char`.  JavaScript `Map`s (which preserve
insertion order) are modelled as ordered association lists.  Code of the
repository that is referenced but whose source is not available
(`url.js`, `common.js`, `contentTypes.js`) is modelled from the
specification; each such definition carries a doc comment starting with
`Modelled from the spec:`.
-/

set_option autoImplicit false
set_option linter.unusedSectionVars false

namespace ABP

/-- Strings as lists of characters. -/
abbrev Str := List Char

/-! ## Character classes and lowercasing -/

/-- Lowercase a string character-wise (`String.prototype.toLowerCase`
restricted to the basic-latin case mapping, as applied by the engine to
URLs and filter patterns). -/
def lower (s : Str) : Str := s.map Char.toLower

/-- The character class `[a-z0-9%]` used both by the keyword-extraction
regular expression of `matcher.js` and by the URL candidate-keyword
regular expression. -/
def kwChar (c : Char) : Bool :=
  ('a' ≤ c && c ≤ 'z') || ('0' ≤ c && c ≤ '9') || c = '%'

/-- The separator character class of `filterClasses.js`
(`separatorRegExp`, the translation of `^` in a filter pattern):
`[\x00-\x24\x26-\x2C\x2F\x3A-\x40\x5B-\x5E\x60\x7B-\x7F]`. -/
def isSep (c : Char) : Bool :=
  let n := c.toNat
  (n ≤ 0x24) || (0x26 ≤ n && n ≤ 0x2C) || n = 0x2F ||
  (0x3A ≤ n && n ≤ 0x40) || (0x5B ≤ n && n ≤ 0x5E) || n = 0x60 ||
  (0x7B ≤ n && n ≤ 0x7F)

/-- The word-character class `[\w\-]` (`\w` plus hyphen) used by the
translation of the extended anchor `||`. -/
def wordChar (c : Char) : Bool :=
  ('a' ≤ c && c ≤ 'z') || ('A' ≤ c && c ≤ 'Z') ||
  ('0' ≤ c && c ≤ '9') || c = '_' || c = '-'

theorem toNat_ofNat_valid {n : Nat} (h : n.isValidChar) :
    (Char.ofNat n).toNat = n := by
  simp [Char.ofNat, dif_pos h, Char.ofNatAux, Char.toNat, UInt32.toNat]

theorem char_eq_iff_toNat {c d : Char} : c = d ↔ c.toNat = d.toNat :=
  ⟨fun h => by rw [h], fun h => Char.eq_of_val_eq (UInt32.toNat.inj h)⟩

theorem char_le_iff_toNat {c d : Char} : c ≤ d ↔ c.toNat ≤ d.toNat := Iff.rfl

theorem toLower_toNat {c : Char} (h : 65 ≤ c.toNat ∧ c.toNat ≤ 90) :
    c.toLower.toNat = c.toNat + 32 := by
  have hv : (c.toNat + 32).isValidChar := Or.inl (by omega)
  simp only [Char.toLower, if_pos h]
  exact toNat_ofNat_valid hv

theorem toLower_eq_self {c : Char} (h : ¬(65 ≤ c.toNat ∧ c.toNat ≤ 90)) :
    c.toLower = c := by
  simp [Char.toLower, h]

/-- `Char.toLower` can only move a character into the range `[a-z]`;
for a target character that is neither a lowercase nor an uppercase
letter, hitting it is the same as being it. -/
theorem toLower_fix {c t : Char} (ht1 : ¬(97 ≤ t.toNat ∧ t.toNat ≤ 122))
    (ht2 : ¬(65 ≤ t.toNat ∧ t.toNat ≤ 90)) :
    c.toLower = t ↔ c = t := by
  by_cases h : 65 ≤ c.toNat ∧ c.toNat ≤ 90
  · have h1 := toLower_toNat h
    constructor
    · intro he
      exfalso
      apply ht1
      rw [← he, h1]
      omega
    · intro he
      exfalso
      rw [he] at h
      exact ht2 h
  · rw [toLower_eq_self h]

theorem toLower_idem (c : Char) : c.toLower.toLower = c.toLower := by
  by_cases h : 65 ≤ c.toNat ∧ c.toNat ≤ 90
  · have h1 := toLower_toNat h
    apply toLower_eq_self
    omega
  · rw [toLower_eq_self h, toLower_eq_self h]

theorem lower_idem (s : Str) : lower (lower s) = lower s := by
  simp only [lower, List.map_map]
  apply List.map_congr_left
  intro c _
  exact toLower_idem c

theorem kwChar_iff_toNat {c : Char} :
    kwChar c = true ↔
      (97 ≤ c.toNat ∧ c.toNat ≤ 122) ∨ (48 ≤ c.toNat ∧ c.toNat ≤ 57) ∨
      c.toNat = 37 := by
  simp only [kwChar, Bool.or_eq_true, Bool.and_eq_true, decide_eq_true_eq,
    char_le_iff_toNat, char_eq_iff_toNat]
  constructor
  · rintro ((⟨h1, h2⟩ | ⟨h1, h2⟩) | h)
    · exact Or.inl ⟨h1, h2⟩
    · exact Or.inr (Or.inl ⟨h1, h2⟩)
    · exact Or.inr (Or.inr h)
  · rintro (⟨h1, h2⟩ | ⟨h1, h2⟩ | h)
    · exact Or.inl (Or.inl ⟨h1, h2⟩)
    · exact Or.inl (Or.inr ⟨h1, h2⟩)
    · exact Or.inr h

/-- A separator character is not a keyword character, even after
lowercasing (the separator class contains no uppercase letters). -/
theorem sep_toLower_not_kw {c : Char} (h : isSep c = true) :
    kwChar c.toLower = false := by
  have hn : ¬(65 ≤ c.toNat ∧ c.toNat ≤ 90) := by
    simp only [isSep, Bool.or_eq_true, Bool.and_eq_true, decide_eq_true_eq] at h
    omega
  rw [toLower_eq_self hn]
  rw [Bool.eq_false_iff]
  intro hk
  rw [kwChar_iff_toNat] at hk
  simp only [isSep, Bool.or_eq_true, Bool.and_eq_true, decide_eq_true_eq] at h
  omega

/-- A keyword character is left unchanged by lowercasing. -/
theorem kwChar_toLower_self {c : Char} (h : kwChar c = true) :
    c.toLower = c := by
  apply toLower_eq_self
  rw [kwChar_iff_toNat] at h
  omega

theorem kwChar_ne_star {c : Char} (h : kwChar c = true) : c ≠ '*' := by
  intro he
  rw [he] at h
  exact absurd h (by decide)

theorem kwChar_ne_caret {c : Char} (h : kwChar c = true) : c ≠ '^' := by
  intro he
  rw [he] at h
  exact absurd h (by decide)

theorem toLower_eq_star {c : Char} : c.toLower = '*' ↔ c = '*' :=
  toLower_fix (by decide) (by decide)

theorem toLower_eq_caret {c : Char} : c.toLower = '^' ↔ c = '^' :=
  toLower_fix (by decide) (by decide)

theorem toLower_eq_bar {c : Char} : c.toLower = '|' ↔ c = '|' :=
  toLower_fix (by decide) (by decide)

/-! ## Ordered association lists: the model of JavaScript `Map`

JavaScript `Map` objects preserve insertion order: `set` on a present
key updates the value in place, `set` on an absent key appends at the
end, and `delete` removes the entry. -/

namespace OMap

variable {κ ν : Type} [DecidableEq κ]

/-- `Map.prototype.get` (first entry with the key; keys are unique in
every map built by the operations below). -/
def get : List (κ × ν) → κ → Option ν
  | [], _ => none
  | (k, v) :: t, a => if k = a then some v else get t a

/-- `Map.prototype.set`: update in place if present, append otherwise. -/
def set : List (κ × ν) → κ → ν → List (κ × ν)
  | [], a, b => [(a, b)]
  | (k, v) :: t, a, b => if k = a then (k, b) :: t else (k, v) :: set t a b

/-- `Map.prototype.delete`. -/
def del : List (κ × ν) → κ → List (κ × ν)
  | [], _ => []
  | (k, v) :: t, a => if k = a then del t a else (k, v) :: del t a

/-- `Map.prototype.keys`. -/
def keys (m : List (κ × ν)) : List κ := m.map Prod.fst

@[simp] theorem get_nil {a : κ} : get ([] : List (κ × ν)) a = none := rfl

theorem get_set_self (m : List (κ × ν)) (a : κ) (b : ν) :
    get (set m a b) a = some b := by
  induction m with
  | nil => simp [set, get]
  | cons p t ih =>
    obtain ⟨k, v⟩ := p
    by_cases h : k = a
    · simp [set, get, h]
    · simp [set, get, h, ih]

theorem get_set_other (m : List (κ × ν)) (a a' : κ) (b : ν) (h : a' ≠ a) :
    get (set m a b) a' = get m a' := by
  induction m with
  | nil =>
    have hne : ¬(a = a') := fun he => h he.symm
    simp [set, get, hne]
  | cons p t ih =>
    obtain ⟨k, v⟩ := p
    by_cases hk : k = a
    · subst hk
      have hne : ¬(k = a') := fun he => h he.symm
      simp [set, get, hne]
    · by_cases hk' : k = a'
      · subst hk'
        simp [set, get, hk]
      · simp [set, get, hk, hk', ih]

theorem get_del_self (m : List (κ × ν)) (a : κ) : get (del m a) a = none := by
  induction m with
  | nil => simp [del]
  | cons p t ih =>
    obtain ⟨k, v⟩ := p
    by_cases h : k = a
    · simp [del, h, ih]
    · simp [del, get, h, ih]

theorem get_del_other (m : List (κ × ν)) (a a' : κ) (h : a' ≠ a) :
    get (del m a) a' = get m a' := by
  induction m with
  | nil => simp [del]
  | cons p t ih =>
    obtain ⟨k, v⟩ := p
    by_cases hk : k = a
    · subst hk
      have hne : ¬(k = a') := fun he => h he.symm
      simp [del, get, hne, ih]
    · simp [del, get, hk, ih]

/-- Deleting an absent key is a no-op. -/
theorem del_of_get_none (m : List (κ × ν)) (a : κ) (h : get m a = none) :
    del m a = m := by
  induction m with
  | nil => rfl
  | cons p t ih =>
    obtain ⟨k, v⟩ := p
    by_cases hk : k = a
    · simp [get, hk] at h
    · simp only [get, if_neg hk] at h
      simp [del, hk, ih h]

/-- Deleting the key just appended by `set` on an absent key restores
the original map. -/
theorem del_set_fresh (m : List (κ × ν)) (a : κ) (b : ν)
    (h : get m a = none) : del (set m a b) a = m := by
  induction m with
  | nil => simp [set, del]
  | cons p t ih =>
    obtain ⟨k, v⟩ := p
    by_cases hk : k = a
    · simp [get, hk] at h
    · simp only [get, if_neg hk] at h
      simp [set, del, hk, ih h]

/-- Setting a present key back to its current value is a no-op. -/
theorem set_get_self (m : List (κ × ν)) (a : κ) (b : ν)
    (h : get m a = some b) : set m a b = m := by
  induction m with
  | nil => simp [get] at h
  | cons p t ih =>
    obtain ⟨k, v⟩ := p
    by_cases hk : k = a
    · subst hk
      simp only [get, if_pos] at h
      rw [Option.some_inj] at h
      simp [set, h]
    · simp only [get, if_neg hk] at h
      simp [set, hk, ih h]

/-- Overwriting a present key twice keeps only the last value. -/
theorem set_set (m : List (κ × ν)) (a : κ) (b b' : ν) :
    set (set m a b) a b' = set m a b' := by
  induction m with
  | nil => simp [set]
  | cons p t ih =>
    obtain ⟨k, v⟩ := p
    by_cases hk : k = a
    · simp [set, hk]
    · simp [set, hk, ih]

/-- A map none of whose keys has a value is empty. -/
theorem eq_nil_of_get_none (m : List (κ × ν))
    (h : ∀ a, get m a = none) : m = [] := by
  cases m with
  | nil => rfl
  | cons p t =>
    obtain ⟨k, v⟩ := p
    have := h k
    simp [get] at this

theorem del_set_comm (m : List (κ × ν)) (a a' : κ) (b : ν) (h : a ≠ a') :
    del (set m a' b) a = set (del m a) a' b := by
  have h' : ¬(a' = a) := fun he => h he.symm
  induction m with
  | nil => simp [set, del, h']
  | cons p t ih =>
    obtain ⟨k, v⟩ := p
    by_cases hk : k = a'
    · subst hk
      simp [set, del, h, h']
    · by_cases hk' : k = a
      · subst hk'
        simp [set, del, h, h', hk, ih]
      · simp [set, del, hk, hk', ih]

theorem del_del_comm (m : List (κ × ν)) (a a' : κ) :
    del (del m a') a = del (del m a) a' := by
  induction m with
  | nil => simp [del]
  | cons p t ih =>
    obtain ⟨k, v⟩ := p
    by_cases hk : k = a'
    · by_cases hk' : k = a
      · subst hk; subst hk'
        simp [del, ih]
      · subst hk
        simp [del, hk', ih]
    · by_cases hk' : k = a
      · subst hk'
        simp [del, hk, ih]
      · simp [del, hk, hk', ih]

/-- Updating a key that is already present commutes with any other
`set` (the in-place update does not disturb the order of entries). -/
theorem set_comm_of_present (m : List (κ × ν)) (a a' : κ) (b b' : ν)
    (hp : (get m a).isSome) (h : a ≠ a') :
    set (set m a' b') a b = set (set m a b) a' b' := by
  induction m with
  | nil => simp [get] at hp
  | cons p t ih =>
    obtain ⟨k, v⟩ := p
    by_cases hk : k = a
    · subst hk
      have hne : ¬(k = a') := h
      simp [set, hne]
    · by_cases hk' : k = a'
      · subst hk'
        simp only [get, if_neg hk] at hp
        simp [set, hk, ih hp]
      · simp only [get, if_neg hk] at hp
        simp [set, hk, hk', ih hp]

end OMap

/-! ## FiltersByDomain (`lib/filtersByDomain.js`)

The index maps a domain either to a bare filter (meaning: sole entry,
include = true) or to a `FilterMap`, an insertion-ordered map from
filters to include flags.  The structure is generic in the filter type
`phi`: `lib/filtersByDomain.js` itself stores filter texts (strings),
while the `matcher.js` variant that uses it stores filter objects. -/

/-- An entry of `FiltersByDomain`: either a bare filter or a
`FilterMap`. -/
inductive Entry (φ : Type) where
  | single (t : φ)
  | fmap (m : List (φ × Bool))
deriving DecidableEq

/-- The `FiltersByDomain` index. -/
structure FBD (φ : Type) where
  map : List (Str × Entry φ)
deriving DecidableEq

namespace FBD

variable {φ : Type} [DecidableEq φ]

/-- `defaultDomains`: used in place of a blank `domains` property. -/
def domainsOrDefault (doms : Option (List (Str × Bool))) :
    List (Str × Bool) :=
  doms.getD [([], true)]

/-- One iteration of the loop in `FiltersByDomain.prototype.add`. -/
def addStep (m : List (Str × Entry φ)) (text : φ) (domain : Str)
    (incl : Bool) : List (Str × Entry φ) :=
  if incl = false ∧ domain = [] then m
  else
    match OMap.get m domain with
    | none =>
        OMap.set m domain
          (if incl then Entry.single text else Entry.fmap [(text, false)])
    | some (Entry.single s) =>
        if text ≠ s then
          OMap.set m domain (Entry.fmap [(s, true), (text, incl)])
        else m
    | some (Entry.fmap fm) =>
        OMap.set m domain (Entry.fmap (OMap.set fm text incl))

/-- The loop of `FiltersByDomain.prototype.add` over the pairs of the
`domains` map. -/
def addPairs (m : List (Str × Entry φ)) (text : φ)
    (ps : List (Str × Bool)) : List (Str × Entry φ) :=
  ps.foldl (fun m p => addStep m text p.1 p.2) m

/-- `FiltersByDomain.prototype.add`. -/
def add (fbd : FBD φ) (text : φ) (doms : Option (List (Str × Bool))) :
    FBD φ :=
  ⟨addPairs fbd.map text (domainsOrDefault doms)⟩

/-- The `FilterMap` sub-case of `FiltersByDomain.prototype.remove`:
`fm2` is the `FilterMap` after `map.delete(text)`; an emptied map drops
the domain, a single remaining `(last, true)` pair collapses to the
bare-filter form. -/
def removeStepFM (m : List (Str × Entry φ)) (domain : Str)
    (fm2 : List (φ × Bool)) : List (Str × Entry φ) :=
  match fm2 with
  | [] => OMap.del m domain
  | [(last, incl)] =>
      if incl then OMap.set m domain (Entry.single last)
      else OMap.set m domain (Entry.fmap fm2)
  | _ => OMap.set m domain (Entry.fmap fm2)

/-- One iteration of the loop in `FiltersByDomain.prototype.remove`. -/
def removeStep (m : List (Str × Entry φ)) (text : φ) (domain : Str) :
    List (Str × Entry φ) :=
  match OMap.get m domain with
  | none => m
  | some (Entry.single s) =>
      if text = s then OMap.del m domain else m
  | some (Entry.fmap fm) => removeStepFM m domain (OMap.del fm text)

/-- The loop of `FiltersByDomain.prototype.remove` over the keys of the
`domains` map. -/
def removePairs (m : List (Str × Entry φ)) (text : φ)
    (ps : List (Str × Bool)) : List (Str × Entry φ) :=
  ps.foldl (fun m p => removeStep m text p.1) m

/-- `FiltersByDomain.prototype.remove` (iterates over the keys of the
`domains` map, or the default). -/
def remove (fbd : FBD φ) (text : φ) (doms : Option (List (Str × Bool))) :
    FBD φ :=
  ⟨removePairs fbd.map text (domainsOrDefault doms)⟩

/-- `FiltersByDomain.prototype.get`. -/
def get (fbd : FBD φ) (domain : Str) : Option (Entry φ) :=
  OMap.get fbd.map domain

/-- `FiltersByDomain.prototype.has`. -/
def hasDomain (fbd : FBD φ) (domain : Str) : Bool :=
  (get fbd domain).isSome

/-- `FiltersByDomain.prototype.size`. -/
def size (fbd : FBD φ) : Nat := fbd.map.length

/-- `FiltersByDomain.prototype.clear` / a fresh `FiltersByDomain`. -/
def empty : FBD φ := ⟨[]⟩

/-- The include flag an entry records for a filter (`none` if the filter
is not in the entry); a bare filter means "include = true". -/
def entryHolds : Entry φ → φ → Option Bool
  | Entry.single s, t => if t = s then some true else none
  | Entry.fmap fm, t => OMap.get fm t

/-- `entryHolds` on a raw map. -/
def holdsM (m : List (Str × Entry φ)) (d : Str) (t : φ) : Option Bool :=
  (OMap.get m d).bind (fun e => entryHolds e t)

/-- The include flag the whole index records for a filter under a
domain. -/
def holds (fbd : FBD φ) (d : Str) (t : φ) : Option Bool :=
  holdsM fbd.map d t

theorem get_addStep_other {m : List (Str × Entry φ)} {t : φ} {d : Str}
    {i : Bool} {d' : Str} (h : d' ≠ d) :
    OMap.get (addStep m t d i) d' = OMap.get m d' := by
  unfold addStep
  by_cases hskip : i = false ∧ d = []
  · rw [if_pos hskip]
  · rw [if_neg hskip]
    cases hg : OMap.get m d with
    | none =>
      dsimp only
      rw [OMap.get_set_other _ _ _ _ h]
    | some e =>
      cases e with
      | single s =>
        dsimp only
        by_cases hts : t ≠ s
        · rw [if_pos hts, OMap.get_set_other _ _ _ _ h]
        · rw [if_neg hts]
      | fmap fm =>
        dsimp only
        rw [OMap.get_set_other _ _ _ _ h]

theorem get_removeStepFM_other {m : List (Str × Entry φ)} {d : Str}
    {fm2 : List (φ × Bool)} {d' : Str} (h : d' ≠ d) :
    OMap.get (removeStepFM m d fm2) d' = OMap.get m d' := by
  unfold removeStepFM
  match fm2 with
  | [] => exact OMap.get_del_other _ _ _ h
  | [(last, incl)] =>
    dsimp only
    cases incl with
    | true => rw [if_pos rfl, OMap.get_set_other _ _ _ _ h]
    | false =>
      rw [if_neg (by simp), OMap.get_set_other _ _ _ _ h]
  | (q1 :: q2 :: r) => exact OMap.get_set_other _ _ _ _ h

theorem get_removeStep_other {m : List (Str × Entry φ)} {t : φ} {d : Str}
    {d' : Str} (h : d' ≠ d) :
    OMap.get (removeStep m t d) d' = OMap.get m d' := by
  unfold removeStep
  cases hg : OMap.get m d with
  | none => rfl
  | some e =>
    cases e with
    | single s =>
      dsimp only
      by_cases hts : t = s
      · rw [if_pos hts, OMap.get_del_other _ _ _ h]
      · rw [if_neg hts]
    | fmap fm => exact get_removeStepFM_other h

theorem holdsM_addStep_other {m : List (Str × Entry φ)} {t : φ} {d : Str}
    {i : Bool} {d' : Str} {t' : φ} (h : ¬(d' = d ∧ t' = t)) :
    holdsM (addStep m t d i) d' t' = holdsM m d' t' := by
  by_cases hd : d' = d
  · subst hd
    have ht : ¬(t' = t) := fun he => h ⟨rfl, he⟩
    have ht2 : ¬(t = t') := fun he => ht he.symm
    unfold holdsM addStep
    by_cases hskip : i = false ∧ d' = []
    · rw [if_pos hskip]
    · rw [if_neg hskip]
      cases hg : OMap.get m d' with
      | none =>
        dsimp only
        rw [OMap.get_set_self]
        cases i <;> simp [entryHolds, OMap.get, ht, ht2]
      | some e =>
        cases e with
        | single s =>
          dsimp only
          by_cases hts : t ≠ s
          · rw [if_pos hts, OMap.get_set_self]
            by_cases hts' : s = t'
            · simp [entryHolds, OMap.get, hts', ht2]
            · have hts2 : ¬(t' = s) := fun he => hts' he.symm
              simp [entryHolds, OMap.get, hts', ht, ht2, hts2]
          · rw [if_neg hts, hg]
        | fmap fm =>
          dsimp only
          rw [OMap.get_set_self]
          simp only [entryHolds, Option.bind_some]
          exact OMap.get_set_other _ _ _ _ ht
  · unfold holdsM
    rw [get_addStep_other hd]

theorem holdsM_removeStep_self {m : List (Str × Entry φ)} {t : φ}
    {d : Str} : holdsM (removeStep m t d) d t = none := by
  unfold holdsM removeStep
  cases hg : OMap.get m d with
  | none => rw [hg]; rfl
  | some e =>
    cases e with
    | single s =>
      dsimp only
      by_cases hts : t = s
      · rw [if_pos hts, OMap.get_del_self]; rfl
      · rw [if_neg hts, hg]
        simp [entryHolds, hts]
    | fmap fm =>
      have hgt : OMap.get (OMap.del fm t) t = none := OMap.get_del_self _ _
      dsimp only
      unfold removeStepFM
      cases hfm : OMap.del fm t with
      | nil => rw [OMap.get_del_self]; rfl
      | cons q r =>
        obtain ⟨last, incl⟩ := q
        rw [hfm] at hgt
        cases r with
        | nil =>
          dsimp only
          cases incl with
          | false =>
            rw [if_neg (by simp), OMap.get_set_self]
            simp only [entryHolds, Option.bind_some]
            exact hgt
          | true =>
            rw [if_pos rfl, OMap.get_set_self]
            simp only [entryHolds, Option.bind_some]
            simp only [OMap.get] at hgt
            by_cases hlt : last = t
            · rw [if_pos hlt] at hgt
              exact absurd hgt (by simp)
            · have hlt2 : ¬(t = last) := fun he => hlt he.symm
              simp [entryHolds, hlt2]
        | cons q2 r2 =>
          dsimp only
          rw [OMap.get_set_self]
          simp only [entryHolds, Option.bind_some]
          exact hgt

theorem holdsM_removeStep_other {m : List (Str × Entry φ)} {t : φ}
    {d : Str} {d' : Str} {t' : φ} (h : ¬(d' = d ∧ t' = t)) :
    holdsM (removeStep m t d) d' t' = holdsM m d' t' := by
  by_cases hd : d' = d
  · subst hd
    have ht : ¬(t' = t) := fun he => h ⟨rfl, he⟩
    unfold holdsM removeStep
    cases hg : OMap.get m d' with
    | none => rw [hg]
    | some e =>
      cases e with
      | single s =>
        dsimp only
        by_cases hts : t = s
        · subst hts
          rw [if_pos rfl, OMap.get_del_self]
          simp [entryHolds, ht]
        · rw [if_neg hts, hg]
      | fmap fm =>
        have hgt' : OMap.get (OMap.del fm t) t' = OMap.get fm t' :=
          OMap.get_del_other _ _ _ ht
        dsimp only
        unfold removeStepFM
        cases hfm : OMap.del fm t with
        | nil =>
          rw [OMap.get_del_self]
          rw [hfm] at hgt'
          simp only [OMap.get_nil] at hgt'
          simp only [entryHolds, Option.bind_some, Option.bind_none]
          exact hgt'
        | cons q r =>
          obtain ⟨last, incl⟩ := q
          rw [hfm] at hgt'
          cases r with
          | nil =>
            dsimp only
            cases incl with
            | false =>
              rw [if_neg (by simp), OMap.get_set_self]
              simp only [entryHolds, Option.bind_some]
              exact hgt'
            | true =>
              rw [if_pos rfl, OMap.get_set_self]
              dsimp only [Option.bind, entryHolds]
              simp only [OMap.get] at hgt'
              by_cases hlt : last = t'
              · rw [if_pos hlt] at hgt'
                have hlt2 : t' = last := hlt.symm
                rw [if_pos hlt2]
                exact hgt'
              · rw [if_neg hlt] at hgt'
                have hlt2 : ¬(t' = last) := fun he => hlt he.symm
                rw [if_neg hlt2]
                exact hgt'
          | cons q2 r2 =>
            dsimp only
            rw [OMap.get_set_self]
            simp only [entryHolds, Option.bind_some]
            exact hgt'
  · unfold holdsM
    rw [get_removeStep_other hd]

theorem holdsM_addStep_isSome {m : List (Str × Entry φ)} {t : φ} {d : Str}
    {i : Bool} {d' : Str} {t' : φ}
    (h : (holdsM (addStep m t d i) d' t').isSome) :
    (d' = d ∧ t' = t) ∨ (holdsM m d' t').isSome := by
  by_cases hc : d' = d ∧ t' = t
  · exact Or.inl hc
  · rw [holdsM_addStep_other hc] at h
    exact Or.inr h

theorem holdsM_removeStep_isSome {m : List (Str × Entry φ)} {t : φ}
    {d : Str} {d' : Str} {t' : φ}
    (h : (holdsM (removeStep m t d) d' t').isSome) :
    (holdsM m d' t').isSome := by
  by_cases hc : d' = d ∧ t' = t
  · obtain ⟨h1, h2⟩ := hc
    subst h1; subst h2
    rw [holdsM_removeStep_self] at h
    exact absurd h (by simp)
  · rw [holdsM_removeStep_other hc] at h
    exact h

theorem holdsM_addPairs_isSome {m : List (Str × Entry φ)} {t : φ}
    {ps : List (Str × Bool)} {d : Str} {t' : φ}
    (h : (holdsM (addPairs m t ps) d t').isSome) :
    (t' = t ∧ d ∈ ps.map Prod.fst) ∨ (holdsM m d t').isSome := by
  induction ps generalizing m with
  | nil => exact Or.inr h
  | cons p rest ih =>
    rcases ih h with ⟨ht, hd⟩ | hs
    · exact Or.inl ⟨ht, by simp [hd]⟩
    · rcases holdsM_addStep_isSome hs with ⟨hd, ht⟩ | hs'
      · exact Or.inl ⟨ht, by simp [hd]⟩
      · exact Or.inr hs'

theorem holdsM_removePairs_isSome {m : List (Str × Entry φ)} {t : φ}
    {ps : List (Str × Bool)} {d : Str} {t' : φ}
    (h : (holdsM (removePairs m t ps) d t').isSome) :
    (holdsM m d t').isSome := by
  induction ps generalizing m with
  | nil => exact h
  | cons p rest ih => exact holdsM_removeStep_isSome (ih h)

theorem holdsM_removePairs_self {m : List (Str × Entry φ)} {t : φ}
    {ps : List (Str × Bool)} {d : Str}
    (hd : d ∈ ps.map Prod.fst) :
    holdsM (removePairs m t ps) d t = none := by
  induction ps generalizing m with
  | nil => simp at hd
  | cons p rest ih =>
    simp only [List.map_cons, List.mem_cons] at hd
    rcases hd with hd | hd
    · by_cases hr : d ∈ rest.map Prod.fst
      · exact ih hr
      · subst hd
        have hnone : holdsM (removeStep m t p.1) p.1 t = none :=
          holdsM_removeStep_self
        rw [Option.eq_none_iff_forall_not_mem]
        intro v hv
        have hsome : (holdsM (removePairs (removeStep m t p.1) t rest)
            p.1 t).isSome := by
          rw [show holdsM (removePairs (removeStep m t p.1) t rest) p.1 t
              = some v from hv]
          rfl
        have := holdsM_removePairs_isSome hsome
        rw [hnone] at this
        simp at this
    · exact ih hd

/-- No `FilterMap` entry of the index is empty (part of the
representation invariant). -/
def MapNE (m : List (Str × Entry φ)) : Prop :=
  ∀ d fm, OMap.get m d = some (Entry.fmap fm) → fm ≠ []

theorem set_ne_nil {κ ν : Type} [DecidableEq κ]
    (m : List (κ × ν)) (a : κ) (b : ν) : OMap.set m a b ≠ [] := by
  cases m with
  | nil => simp [OMap.set]
  | cons p t =>
    obtain ⟨k, v⟩ := p
    by_cases hk : k = a <;> simp [OMap.set, hk]

theorem mapNE_addStep {m : List (Str × Entry φ)} {t : φ} {d : Str}
    {i : Bool} (h : MapNE m) : MapNE (addStep m t d i) := by
  intro d'' fm'' hg''
  by_cases hd : d'' = d
  · subst hd
    unfold addStep at hg''
    by_cases hskip : i = false ∧ d'' = []
    · rw [if_pos hskip] at hg''
      exact h _ _ hg''
    · rw [if_neg hskip] at hg''
      revert hg''
      cases hg : OMap.get m d'' with
      | none =>
        dsimp only
        rw [OMap.get_set_self]
        cases i with
        | true => intro hg''; simp at hg''
        | false =>
          intro hg''
          simp only [Option.some_inj, if_neg (by simp : ¬(false = true)),
            Entry.fmap.injEq] at hg''
          rw [← hg'']
          simp
      | some e =>
        cases e with
        | single sg =>
          dsimp only
          by_cases hts : t ≠ sg
          · rw [if_pos hts, OMap.get_set_self]
            intro hg''
            simp only [Option.some_inj, Entry.fmap.injEq] at hg''
            rw [← hg'']
            simp
          · rw [if_neg hts]
            intro hg''
            exact h _ _ hg''
        | fmap fm =>
          dsimp only
          rw [OMap.get_set_self]
          intro hg''
          simp only [Option.some_inj, Entry.fmap.injEq] at hg''
          rw [← hg'']
          exact set_ne_nil _ _ _
  · rw [get_addStep_other hd] at hg''
    exact h _ _ hg''

theorem mapNE_removeStep {m : List (Str × Entry φ)} {t : φ} {d : Str}
    (h : MapNE m) : MapNE (removeStep m t d) := by
  intro d'' fm'' hg''
  by_cases hd : d'' = d
  · subst hd
    unfold removeStep at hg''
    revert hg''
    cases hg : OMap.get m d'' with
    | none =>
      intro hg''
      exact h _ _ hg''
    | some e =>
      cases e with
      | single sg =>
        dsimp only
        by_cases hts : t = sg
        · rw [if_pos hts, OMap.get_del_self]
          intro hg''
          exact absurd hg'' (by simp)
        · rw [if_neg hts]
          intro hg''
          exact h _ _ hg''
      | fmap fm =>
        dsimp only
        unfold removeStepFM
        cases hfm : OMap.del fm t with
        | nil =>
          rw [OMap.get_del_self]
          intro hg''
          exact absurd hg'' (by simp)
        | cons q r =>
          obtain ⟨last, incl⟩ := q
          cases r with
          | nil =>
            dsimp only
            cases incl with
            | true =>
              rw [if_pos rfl, OMap.get_set_self]
              intro hg''
              simp at hg''
            | false =>
              rw [if_neg (by simp), OMap.get_set_self]
              intro hg''
              simp only [Option.some_inj, Entry.fmap.injEq] at hg''
              rw [← hg'']
              simp
          | cons q2 r2 =>
            dsimp only
            rw [OMap.get_set_self]
            intro hg''
            simp only [Option.some_inj, Entry.fmap.injEq] at hg''
            rw [← hg'']
            simp
  · rw [get_removeStep_other hd] at hg''
    exact h _ _ hg''

theorem mapNE_addPairs {m : List (Str × Entry φ)} {t : φ}
    {ps : List (Str × Bool)} (h : MapNE m) : MapNE (addPairs m t ps) := by
  induction ps generalizing m with
  | nil => exact h
  | cons p rest ih => exact ih (mapNE_addStep h)

theorem mapNE_removePairs {m : List (Str × Entry φ)} {t : φ}
    {ps : List (Str × Bool)} (h : MapNE m) :
    MapNE (removePairs m t ps) := by
  induction ps generalizing m with
  | nil => exact h
  | cons p rest ih => exact ih (mapNE_removeStep h)

/-- A whole sequence of `add` calls, at the raw-map level. -/
def addSeqM (m : List (Str × Entry φ))
    (l : List (φ × Option (List (Str × Bool)))) : List (Str × Entry φ) :=
  l.foldl (fun m p => addPairs m p.1 (domainsOrDefault p.2)) m

/-- A whole sequence of `remove` calls, at the raw-map level. -/
def removeSeqM (m : List (Str × Entry φ))
    (l : List (φ × Option (List (Str × Bool)))) : List (Str × Entry φ) :=
  l.foldl (fun m p => removePairs m p.1 (domainsOrDefault p.2)) m

theorem holdsM_addSeqM_isSome {m : List (Str × Entry φ)}
    {l : List (φ × Option (List (Str × Bool)))} {d : Str} {t' : φ}
    (h : (holdsM (addSeqM m l) d t').isSome) :
    (∃ p ∈ l, p.1 = t' ∧
      d ∈ (domainsOrDefault p.2).map Prod.fst) ∨
    (holdsM m d t').isSome := by
  induction l generalizing m with
  | nil => exact Or.inr h
  | cons p rest ih =>
    rcases ih h with ⟨q, hq, hq2⟩ | hs
    · exact Or.inl ⟨q, by simp [hq], hq2⟩
    · rcases holdsM_addPairs_isSome hs with ⟨ht, hd⟩ | hs'
      · exact Or.inl ⟨p, by simp, ht.symm, hd⟩
      · exact Or.inr hs'

theorem holdsM_removeSeqM_isSome {m : List (Str × Entry φ)}
    {l : List (φ × Option (List (Str × Bool)))} {d : Str} {t' : φ}
    (h : (holdsM (removeSeqM m l) d t').isSome) :
    (holdsM m d t').isSome := by
  induction l generalizing m with
  | nil => exact h
  | cons p rest ih => exact holdsM_removePairs_isSome (ih h)

theorem holdsM_removeSeqM_none {m : List (Str × Entry φ)}
    {l : List (φ × Option (List (Str × Bool)))}
    {p : φ × Option (List (Str × Bool))} {d : Str}
    (hp : p ∈ l) (hd : d ∈ (domainsOrDefault p.2).map Prod.fst) :
    holdsM (removeSeqM m l) d p.1 = none := by
  induction l generalizing m with
  | nil => simp at hp
  | cons q rest ih =>
    simp only [List.mem_cons] at hp
    rcases hp with hp | hp
    · subst hp
      rw [Option.eq_none_iff_forall_not_mem]
      intro v hv
      have hsome : (holdsM (removeSeqM (removePairs m p.1
          (domainsOrDefault p.2)) rest) d p.1).isSome := by
        rw [show holdsM (removeSeqM (removePairs m p.1
            (domainsOrDefault p.2)) rest) d p.1 = some v from hv]
        rfl
      have := holdsM_removeSeqM_isSome hsome
      rw [holdsM_removePairs_self hd] at this
      simp at this
    · exact ih hp

theorem mapNE_addSeqM {m : List (Str × Entry φ)}
    {l : List (φ × Option (List (Str × Bool)))} (h : MapNE m) :
    MapNE (addSeqM m l) := by
  induction l generalizing m with
  | nil => exact h
  | cons p rest ih => exact ih (mapNE_addPairs h)

theorem mapNE_removeSeqM {m : List (Str × Entry φ)}
    {l : List (φ × Option (List (Str × Bool)))} (h : MapNE m) :
    MapNE (removeSeqM m l) := by
  induction l generalizing m with
  | nil => exact h
  | cons p rest ih => exact ih (mapNE_removePairs h)

/-- No entry of the index is a `FilterMap` whose sole content is a
single `(text, true)` pair (part of the representation invariant: that
shape always collapses to the bare-filter form). -/
def NoTS (m : List (Str × Entry φ)) : Prop :=
  ∀ d x, OMap.get m d ≠ some (Entry.fmap [(x, true)])

theorem single_ne_of_fresh {m : List (Str × Entry φ)} {t : φ} {d : Str}
    {s : φ} (hfresh : holdsM m d t = none)
    (hg : OMap.get m d = some (Entry.single s)) : t ≠ s := by
  intro he
  unfold holdsM at hfresh
  rw [hg] at hfresh
  simp [entryHolds, he] at hfresh

theorem fmget_none_of_fresh {m : List (Str × Entry φ)} {t : φ} {d : Str}
    {fm : List (φ × Bool)} (hfresh : holdsM m d t = none)
    (hg : OMap.get m d = some (Entry.fmap fm)) :
    OMap.get fm t = none := by
  unfold holdsM at hfresh
  rw [hg] at hfresh
  simpa [entryHolds] using hfresh

/-- The action `addStep` performs at its domain: `none` = leave the map
alone, `some e` = `set` the entry to `e`.  The action depends only on
the current entry at that domain. -/
def addAct (g : Option (Entry φ)) (t : φ) (d : Str) (i : Bool) :
    Option (Entry φ) :=
  if i = false ∧ d = [] then none
  else
    match g with
    | none => some (if i then Entry.single t else Entry.fmap [(t, false)])
    | some (Entry.single s) =>
        if t ≠ s then some (Entry.fmap [(s, true), (t, i)]) else none
    | some (Entry.fmap fm) => some (Entry.fmap (OMap.set fm t i))

theorem addStep_eq_act (m : List (Str × Entry φ)) (t : φ) (d : Str)
    (i : Bool) :
    addStep m t d i =
      match addAct (OMap.get m d) t d i with
      | none => m
      | some e => OMap.set m d e := by
  unfold addStep addAct
  by_cases hskip : i = false ∧ d = []
  · rw [if_pos hskip, if_pos hskip]
  · rw [if_neg hskip, if_neg hskip]
    cases OMap.get m d with
    | none => rfl
    | some e =>
      cases e with
      | single s =>
        dsimp only
        by_cases hts : t ≠ s
        · rw [if_pos hts, if_pos hts]
        · rw [if_neg hts, if_neg hts]
      | fmap fm => rfl

theorem addAct_skip {g : Option (Entry φ)} {t : φ} {d : Str} {i : Bool}
    (h : i = false ∧ d = []) : addAct g t d i = none := by
  unfold addAct
  rw [if_pos h]

theorem addAct_none {t : φ} {d : Str} {i : Bool}
    (h : ¬(i = false ∧ d = [])) :
    addAct none t d i =
      some (if i then Entry.single t else Entry.fmap [(t, false)]) := by
  unfold addAct
  rw [if_neg h]

theorem addAct_single {s t : φ} {d : Str} {i : Bool}
    (h : ¬(i = false ∧ d = [])) (hts : t ≠ s) :
    addAct (some (Entry.single s)) t d i =
      some (Entry.fmap [(s, true), (t, i)]) := by
  unfold addAct
  rw [if_neg h]
  exact if_pos hts

theorem addAct_fmap {fm : List (φ × Bool)} {t : φ} {d : Str} {i : Bool}
    (h : ¬(i = false ∧ d = [])) :
    addAct (some (Entry.fmap fm)) t d i =
      some (Entry.fmap (OMap.set fm t i)) := by
  unfold addAct
  rw [if_neg h]

theorem addAct_single_self {s t : φ} {d : Str} {i : Bool}
    (h : ¬(i = false ∧ d = [])) (hts : t = s) :
    addAct (some (Entry.single s)) t d i = none := by
  unfold addAct
  rw [if_neg h]
  dsimp only
  rw [if_neg (by simp [hts])]

/-- The action `removeStep` performs at its domain. -/
inductive RAct (φ : Type) where
  | keep
  | drop
  | put (e : Entry φ)

/-- Interpretation of a `RAct` at a domain. -/
def applyRAct (m : List (Str × Entry φ)) (d : Str) :
    RAct φ → List (Str × Entry φ)
  | RAct.keep => m
  | RAct.drop => OMap.del m d
  | RAct.put e => OMap.set m d e

/-- The `FilterMap` part of the remove action, as a function of the
map after `delete(text)`. -/
def removeActFM : List (φ × Bool) → RAct φ
  | [] => RAct.drop
  | [(last, incl)] =>
      if incl then RAct.put (Entry.single last)
      else RAct.put (Entry.fmap [(last, incl)])
  | l => RAct.put (Entry.fmap l)

/-- The action `removeStep` performs, as a function of the current
entry. -/
def removeAct (g : Option (Entry φ)) (t : φ) : RAct φ :=
  match g with
  | none => RAct.keep
  | some (Entry.single s) => if t = s then RAct.drop else RAct.keep
  | some (Entry.fmap fm) => removeActFM (OMap.del fm t)

theorem removeAct_single {s t : φ} :
    removeAct (some (Entry.single s)) t =
      if t = s then RAct.drop else RAct.keep := rfl

theorem removeAct_fmap {fm : List (φ × Bool)} {t : φ} :
    removeAct (some (Entry.fmap fm)) t = removeActFM (OMap.del fm t) :=
  rfl

theorem removeActFM_one {x : φ} {i : Bool} :
    removeActFM [(x, i)] =
      if i then RAct.put (Entry.single x)
      else RAct.put (Entry.fmap [(x, i)]) := rfl

theorem removeActFM_cons {x : φ} {i : Bool} {q : φ × Bool}
    {r : List (φ × Bool)} :
    removeActFM ((x, i) :: q :: r) =
      RAct.put (Entry.fmap ((x, i) :: q :: r)) := rfl

theorem removeStep_eq_act (m : List (Str × Entry φ)) (t : φ) (d : Str) :
    removeStep m t d = applyRAct m d (removeAct (OMap.get m d) t) := by
  unfold removeStep removeAct
  cases OMap.get m d with
  | none => rfl
  | some e =>
    cases e with
    | single s =>
      dsimp only
      by_cases hts : t = s
      · rw [if_pos hts, if_pos hts]; rfl
      · rw [if_neg hts, if_neg hts]; rfl
    | fmap fm =>
      dsimp only
      unfold removeStepFM removeActFM
      cases OMap.del fm t with
      | nil => rfl
      | cons q r =>
        obtain ⟨last, incl⟩ := q
        cases r with
        | nil =>
          dsimp only
          cases incl with
          | true => rw [if_pos rfl, if_pos rfl]; rfl
          | false =>
            rw [if_neg (by simp), if_neg (by simp)]; rfl
        | cons q2 r2 => rfl

theorem removeAct_put_isSome {g : Option (Entry φ)} {t : φ} {e : Entry φ}
    (h : removeAct g t = RAct.put e) : g.isSome := by
  cases g with
  | none => simp [removeAct] at h
  | some e' => rfl

/-- A remove action at one domain commutes with an add action at a
different domain: the remove action never creates an entry, so the
insertion order of the map is not disturbed. -/
theorem applyRAct_set_comm {m : List (Str × Entry φ)} {d d' : Str}
    {e' : Entry φ} {r : RAct φ} (hdd : d ≠ d')
    (hp : ∀ e, r = RAct.put e → (OMap.get m d).isSome) :
    applyRAct (OMap.set m d' e') d r =
      OMap.set (applyRAct m d r) d' e' := by
  cases r with
  | keep => rfl
  | drop => exact OMap.del_set_comm m d d' e' hdd
  | put e => exact OMap.set_comm_of_present m d d' e e' (hp e rfl) hdd

theorem removeStep_addStep_comm {m : List (Str × Entry φ)} {t t' : φ}
    {d d' : Str} {i' : Bool} (hdd : d ≠ d') :
    removeStep (addStep m t' d' i') t d =
      addStep (removeStep m t d) t' d' i' := by
  have hd' : d' ≠ d := fun he => hdd he.symm
  have hga : OMap.get (addStep m t' d' i') d = OMap.get m d :=
    get_addStep_other hdd
  have hgr : OMap.get (removeStep m t d) d' = OMap.get m d' :=
    get_removeStep_other hd'
  rw [removeStep_eq_act, hga]
  rw [addStep_eq_act m t' d' i']
  rw [addStep_eq_act (removeStep m t d) t' d' i', hgr]
  cases ha : addAct (OMap.get m d') t' d' i' with
  | none => rw [removeStep_eq_act]
  | some e' =>
    rw [applyRAct_set_comm hdd (fun e he => removeAct_put_isSome he),
      removeStep_eq_act]

/-- Removing a filter directly after adding it restores the map
exactly, provided the filter was not present at the domain, no
`FilterMap` entry is empty, and no entry is a singleton-true
`FilterMap`. -/
theorem removeStep_addStep_cancel {m : List (Str × Entry φ)} {t : φ}
    {d : Str} {i : Bool} (hfresh : holdsM m d t = none) (hne : MapNE m)
    (hnts : NoTS m) :
    removeStep (addStep m t d i) t d = m := by
  by_cases hskip : i = false ∧ d = []
  · rw [show addStep m t d i = m by unfold addStep; rw [if_pos hskip]]
    rw [removeStep_eq_act]
    cases hg : OMap.get m d with
    | none => rfl
    | some e =>
      cases e with
      | single s =>
        have hts := single_ne_of_fresh hfresh hg
        rw [removeAct_single, if_neg hts]
        rfl
      | fmap fm =>
        have hfg := fmget_none_of_fresh hfresh hg
        rw [removeAct_fmap, OMap.del_of_get_none fm t hfg]
        cases hq : fm with
        | nil => exact absurd hq (hne _ _ hg)
        | cons q r =>
          obtain ⟨last, incl⟩ := q
          cases r with
          | nil =>
            cases incl with
            | true =>
              rw [hq] at hg
              exact absurd hg (hnts _ _)
            | false =>
              rw [removeActFM_one, if_neg (by simp)]
              show OMap.set m d (Entry.fmap [(last, false)]) = m
              rw [← hq]
              exact OMap.set_get_self m d (Entry.fmap fm) hg
          | cons q2 r2 =>
            rw [removeActFM_cons]
            show OMap.set m d (Entry.fmap ((last, incl) :: q2 :: r2)) = m
            rw [← hq]
            exact OMap.set_get_self m d (Entry.fmap fm) hg
  · rw [addStep_eq_act]
    cases hg : OMap.get m d with
    | none =>
      rw [addAct_none hskip]
      cases i with
      | true =>
        show removeStep (OMap.set m d (Entry.single t)) t d = m
        rw [removeStep_eq_act, OMap.get_set_self, removeAct_single,
          if_pos rfl]
        exact OMap.del_set_fresh m d _ hg
      | false =>
        show removeStep (OMap.set m d (Entry.fmap [(t, false)])) t d = m
        rw [removeStep_eq_act, OMap.get_set_self, removeAct_fmap]
        have hd0 : OMap.del [(t, false)] t = ([] : List (φ × Bool)) := by
          simp [OMap.del]
        rw [hd0]
        exact OMap.del_set_fresh m d _ hg
    | some e =>
      cases e with
      | single s =>
        have hts := single_ne_of_fresh hfresh hg
        rw [addAct_single hskip hts]
        show removeStep (OMap.set m d (Entry.fmap [(s, true), (t, i)]))
          t d = m
        rw [removeStep_eq_act, OMap.get_set_self, removeAct_fmap]
        have hdel : OMap.del [(s, true), (t, i)] t = [(s, true)] := by
          have hst : ¬(s = t) := fun he => hts he.symm
          simp [OMap.del, hst]
        rw [hdel, removeActFM_one, if_pos rfl]
        show OMap.set (OMap.set m d (Entry.fmap [(s, true), (t, i)])) d
          (Entry.single s) = m
        rw [OMap.set_set]
        exact OMap.set_get_self m d (Entry.single s) hg
      | fmap fm =>
        have hfg := fmget_none_of_fresh hfresh hg
        rw [addAct_fmap hskip]
        show removeStep (OMap.set m d (Entry.fmap (OMap.set fm t i)))
          t d = m
        rw [removeStep_eq_act, OMap.get_set_self, removeAct_fmap]
        rw [OMap.del_set_fresh fm t i hfg]
        cases hq : fm with
        | nil => exact absurd hq (hne _ _ hg)
        | cons q r =>
          obtain ⟨last, incl⟩ := q
          cases r with
          | nil =>
            cases incl with
            | true =>
              rw [hq] at hg
              exact absurd hg (hnts _ _)
            | false =>
              rw [removeActFM_one, if_neg (by simp)]
              dsimp only [applyRAct]
              rw [OMap.set_set, ← hq]
              exact OMap.set_get_self m d (Entry.fmap fm) hg
          | cons q2 r2 =>
            rw [removeActFM_cons]
            dsimp only [applyRAct]
            rw [OMap.set_set, ← hq]
            exact OMap.set_get_self m d (Entry.fmap fm) hg

theorem removeStep_addPairs_comm {ps : List (Str × Bool)}
    {m : List (Str × Entry φ)} {t t' : φ} {d : Str}
    (h : ∀ q ∈ ps, q.1 ≠ d) :
    removeStep (addPairs m t' ps) t d = addPairs (removeStep m t d) t' ps := by
  induction ps generalizing m with
  | nil => rfl
  | cons q rest ih =>
    have hq : d ≠ q.1 := fun he => h q (by simp) he.symm
    show removeStep (addPairs (addStep m t' q.1 q.2) t' rest) t d = _
    rw [ih (fun q' hq' => h q' (by simp [hq']))]
    rw [removeStep_addStep_comm hq]
    rfl

theorem removePairs_addPairs_cancel {t : φ} :
    ∀ ps : List (Str × Bool), (ps.map Prod.fst).Nodup →
    ∀ m : List (Str × Entry φ), (∀ p ∈ ps, holdsM m p.1 t = none) →
    MapNE m → NoTS m →
    removePairs (addPairs m t ps) t ps = m := by
  intro ps
  induction ps with
  | nil =>
    intro _ m _ _ _
    rfl
  | cons p rest ih =>
    intro hnodup m hfresh hne hnts
    simp only [List.map_cons, List.nodup_cons] at hnodup
    have hrest : ∀ q ∈ rest, q.1 ≠ p.1 := by
      intro q hq he
      exact hnodup.1 (he ▸ List.mem_map_of_mem Prod.fst hq)
    show removePairs (removeStep (addPairs (addStep m t p.1 p.2) t rest)
      t p.1) t rest = m
    rw [removeStep_addPairs_comm hrest]
    rw [removeStep_addStep_cancel (hfresh p (by simp)) hne hnts]
    exact ih hnodup.2 m (fun q hq => hfresh q (by simp [hq])) hne hnts

/-- A map with nonempty entries and no occupants at all is the empty
list. -/
theorem map_eq_nil_of_no_holds {m : List (Str × Entry φ)} (hne : MapNE m)
    (h : ∀ d t, holdsM m d t = none) : m = [] := by
  apply OMap.eq_nil_of_get_none
  intro d
  cases hg : OMap.get m d with
  | none => rfl
  | some e =>
    exfalso
    cases e with
    | single sg =>
      have := h d sg
      unfold holdsM at this
      rw [hg] at this
      simp [entryHolds] at this
    | fmap fm =>
      have hfm := hne _ _ hg
      cases hq : fm with
      | nil => exact hfm hq
      | cons q r =>
        obtain ⟨x, v⟩ := q
        have := h d x
        unfold holdsM at this
        rw [hg] at this
        simp only [Option.bind_some, entryHolds] at this
        rw [hq] at this
        simp [OMap.get] at this


theorem holdsM_addStep_fresh {m : List (Str × Entry φ)} {t : φ}
    {d : Str} {i : Bool} (hfresh : holdsM m d t = none)
    (hns : ¬(i = false ∧ d = [])) :
    holdsM (addStep m t d i) d t = some i := by
  rw [addStep_eq_act]
  cases hg : OMap.get m d with
  | none =>
    rw [addAct_none hns]
    cases i with
    | true =>
      unfold holdsM
      rw [OMap.get_set_self]
      simp [entryHolds]
    | false =>
      unfold holdsM
      rw [OMap.get_set_self]
      simp [entryHolds, OMap.get]
  | some e =>
    cases e with
    | single s =>
      have hts := single_ne_of_fresh hfresh hg
      rw [addAct_single hns hts]
      unfold holdsM
      rw [OMap.get_set_self]
      have hst : ¬(s = t) := fun he => hts he.symm
      simp [entryHolds, OMap.get, hst]
    | fmap fm =>
      rw [addAct_fmap hns]
      unfold holdsM
      rw [OMap.get_set_self]
      simp only [entryHolds, Option.bind_some]
      exact OMap.get_set_self fm t i

theorem holdsM_addPairs_other {ps : List (Str × Bool)}
    {m : List (Str × Entry φ)} {t t' : φ} {d : Str}
    (h : ∀ q ∈ ps, q.1 ≠ d) :
    holdsM (addPairs m t ps) d t' = holdsM m d t' := by
  induction ps generalizing m with
  | nil => rfl
  | cons q rest ih =>
    show holdsM (addPairs (addStep m t q.1 q.2) t rest) d t' = _
    rw [ih (fun q' hq' => h q' (by simp [hq']))]
    exact holdsM_addStep_other (fun hc => h q (by simp) hc.1.symm)

theorem holdsM_addPairs_get {t : φ} :
    ∀ ps : List (Str × Bool), (ps.map Prod.fst).Nodup →
    ∀ m : List (Str × Entry φ), (∀ p ∈ ps, holdsM m p.1 t = none) →
    ∀ p ∈ ps, ¬(p.2 = false ∧ p.1 = []) →
    holdsM (addPairs m t ps) p.1 t = some p.2 := by
  intro ps
  induction ps with
  | nil =>
    intro _ m _ p hp
    simp at hp
  | cons q rest ih =>
    intro hnodup m hfresh p hp hns
    simp only [List.map_cons, List.nodup_cons] at hnodup
    simp only [List.mem_cons] at hp
    rcases hp with hp | hp
    · subst hp
      show holdsM (addPairs (addStep m t p.1 p.2) t rest) p.1 t = some p.2
      rw [holdsM_addPairs_other (fun q' hq' he => hnodup.1 (by
        rw [← he]
        exact List.mem_map_of_mem Prod.fst hq'))]
      exact holdsM_addStep_fresh (hfresh p (by simp)) hns
    · show holdsM (addPairs (addStep m t q.1 q.2) t rest) p.1 t = some p.2
      refine ih hnodup.2 _ ?_ p hp hns
      intro r hr
      have hrq : ¬(r.1 = q.1 ∧ t = t) := by
        intro hc
        exact hnodup.1 (hc.1 ▸ List.mem_map_of_mem Prod.fst hr)
      rw [holdsM_addStep_other hrq]
      exact hfresh r (by simp [hr])

/-- A whole sequence of `add` calls. -/
def addSeq (fbd : FBD φ) (l : List (φ × Option (List (Str × Bool)))) :
    FBD φ :=
  l.foldl (fun s p => s.add p.1 p.2) fbd

/-- A whole sequence of `remove` calls. -/
def removeSeq (fbd : FBD φ)
    (l : List (φ × Option (List (Str × Bool)))) : FBD φ :=
  l.foldl (fun s p => s.remove p.1 p.2) fbd

theorem addSeq_map (fbd : FBD φ)
    (l : List (φ × Option (List (Str × Bool)))) :
    (addSeq fbd l).map = addSeqM fbd.map l := by
  induction l generalizing fbd with
  | nil => rfl
  | cons p rest ih => exact ih ⟨addPairs fbd.map p.1
      (domainsOrDefault p.2)⟩

theorem removeSeq_map (fbd : FBD φ)
    (l : List (φ × Option (List (Str × Bool)))) :
    (removeSeq fbd l).map = removeSeqM fbd.map l := by
  induction l generalizing fbd with
  | nil => rfl
  | cons p rest ih => exact ih ⟨removePairs fbd.map p.1
      (domainsOrDefault p.2)⟩

/-- Any sequence of adds from empty followed by the matching sequence
of removes leaves the raw map literally empty. -/
theorem removeSeqM_addSeqM_nil
    (l : List (φ × Option (List (Str × Bool)))) :
    removeSeqM (addSeqM ([] : List (Str × Entry φ)) l) l = [] := by
  apply map_eq_nil_of_no_holds
  · apply mapNE_removeSeqM
    apply mapNE_addSeqM
    intro d fm h
    simp [OMap.get] at h
  · intro d t
    rw [Option.eq_none_iff_forall_not_mem]
    intro v hv
    have hsome : (holdsM (removeSeqM (addSeqM ([] : List (Str × Entry φ))
        l) l) d t).isSome := by
      rw [show holdsM (removeSeqM (addSeqM ([] : List (Str × Entry φ)) l)
        l) d t = some v from hv]
      rfl
    have h1 := holdsM_removeSeqM_isSome hsome
    rcases holdsM_addSeqM_isSome h1 with ⟨p, hp, hpt, hpd⟩ | habs
    · have hn := holdsM_removeSeqM_none (m := addSeqM
        ([] : List (Str × Entry φ)) l) hp hpd
      rw [hpt] at hn
      rw [hn] at hv
      simp at hv
    · simp [holdsM, OMap.get] at habs

theorem holdsM_addStep_self (m : List (Str × Entry φ)) (t : φ) (d : Str)
    (i : Bool) (hns : ¬(i = false ∧ d = [])) :
    holdsM (addStep m t d i) d t = some i ∨
      holdsM (addStep m t d i) d t = holdsM m d t := by
  rw [addStep_eq_act]
  cases hg : OMap.get m d with
  | none =>
    left
    rw [addAct_none hns]
    unfold holdsM
    rw [OMap.get_set_self]
    cases i <;> simp [entryHolds, OMap.get]
  | some e =>
    cases e with
    | single s =>
      by_cases hts : t = s
      · right
        rw [addAct_single_self hns hts]
      · left
        rw [addAct_single hns hts]
        unfold holdsM
        rw [OMap.get_set_self]
        have hst : ¬(s = t) := fun he => hts he.symm
        simp [entryHolds, OMap.get, hst]
    | fmap fm =>
      left
      rw [addAct_fmap hns]
      unfold holdsM
      rw [OMap.get_set_self]
      simp only [entryHolds, Option.bind_some]
      exact OMap.get_set_self fm t i

theorem set_of_get_none {κ ν : Type} [DecidableEq κ]
    {m : List (κ × ν)} {a : κ} (b : ν) (h : OMap.get m a = none) :
    OMap.set m a b = m ++ [(a, b)] := by
  induction m with
  | nil => rfl
  | cons p tl ih =>
    obtain ⟨k, v⟩ := p
    by_cases hk : k = a
    · simp [OMap.get, hk] at h
    · simp only [OMap.get, if_neg hk] at h
      simp [OMap.set, hk, ih h]

/-- The empty-string domain never records `include = false` for any
filter. -/
def BlankPos (m : List (Str × Entry φ)) : Prop :=
  ∀ u, holdsM m [] u ≠ some false

/-- Every occupancy of the index is justified by the domains map the
assignment `δ` prescribes for its text. -/
def AgreeAll (δ : φ → Option (List (Str × Bool)))
    (m : List (Str × Entry φ)) : Prop :=
  ∀ u d v, holdsM m d u = some v → (d, v) ∈ domainsOrDefault (δ u)

theorem val_unique_of_nodup {l : List (Str × Bool)} {d : Str}
    {v i : Bool} (hnodup : (l.map Prod.fst).Nodup)
    (h1 : (d, v) ∈ l) (h2 : (d, i) ∈ l) : v = i := by
  induction l with
  | nil => simp at h1
  | cons p rest ih =>
    simp only [List.map_cons, List.nodup_cons] at hnodup
    simp only [List.mem_cons] at h1 h2
    rcases h1 with h1 | h1 <;> rcases h2 with h2 | h2
    · exact congrArg Prod.snd (h1.trans h2.symm)
    · exfalso
      apply hnodup.1
      have hp1 : p.1 = d := by rw [← h1]
      rw [hp1]
      exact List.mem_map_of_mem Prod.fst h2
    · exfalso
      apply hnodup.1
      have hp1 : p.1 = d := by rw [← h2]
      rw [hp1]
      exact List.mem_map_of_mem Prod.fst h1
    · exact ih hnodup.2 h1 h2

theorem noTS_addStep {m : List (Str × Entry φ)} {t : φ} {d : Str}
    {i : Bool} (hne : MapNE m) (hnts : NoTS m)
    (hv : ∀ v, holdsM m d t = some v → v = i) :
    NoTS (addStep m t d i) := by
  intro d'' x
  by_cases hd : d'' = d
  · subst hd
    rw [addStep_eq_act]
    by_cases hns : i = false ∧ d'' = []
    · rw [addAct_skip hns]
      exact hnts _ _
    · cases hg : OMap.get m d'' with
      | none =>
        rw [addAct_none hns]
        dsimp only
        rw [OMap.get_set_self]
        cases i with
        | true => simp
        | false => simp
      | some e =>
        cases e with
        | single s =>
          by_cases hts : t = s
          · rw [addAct_single_self hns hts]
            show OMap.get m d'' ≠ some (Entry.fmap [(x, true)])
            rw [hg]
            simp
          · rw [addAct_single hns hts]
            dsimp only
            rw [OMap.get_set_self]
            simp
        | fmap fm =>
          rw [addAct_fmap hns]
          dsimp only
          rw [OMap.get_set_self]
          intro he
          simp only [Option.some_inj, Entry.fmap.injEq] at he
          cases hget : OMap.get fm t with
          | some v =>
            have hvi : v = i := by
              apply hv
              unfold holdsM
              rw [hg]
              simpa [entryHolds] using hget
            rw [OMap.set_get_self fm t i (hvi ▸ hget)] at he
            exact hnts d'' x (by rw [hg, he])
          | none =>
            rw [set_of_get_none i hget] at he
            have hfm := hne _ _ hg
            cases fm with
            | nil => exact hfm rfl
            | cons q r =>
              cases r with
              | nil => simp at he
              | cons q2 r2 => simp at he
  · rw [get_addStep_other hd]
    exact hnts _ _

theorem noTS_removeStep {m : List (Str × Entry φ)} {t : φ} {d : Str}
    (hnts : NoTS m) : NoTS (removeStep m t d) := by
  intro d'' x
  by_cases hd : d'' = d
  · subst hd
    rw [removeStep_eq_act]
    cases hr : removeAct (OMap.get m d'') t with
    | keep => exact hnts _ _
    | drop =>
      dsimp only [applyRAct]
      rw [OMap.get_del_self]
      simp
    | put e =>
      dsimp only [applyRAct]
      rw [OMap.get_set_self]
      intro he
      simp only [Option.some_inj] at he
      subst he
      revert hr
      unfold removeAct
      cases OMap.get m d'' with
      | none => simp
      | some e' =>
        cases e' with
        | single s =>
          by_cases hts : t = s <;> simp [hts]
        | fmap fm =>
          dsimp only
          unfold removeActFM
          cases OMap.del fm t with
          | nil => simp
          | cons q r =>
            obtain ⟨last, incl⟩ := q
            cases r with
            | nil =>
              dsimp only
              cases incl with
              | true => rw [if_pos rfl]; simp
              | false =>
                rw [if_neg (by simp)]
                intro hput
                simp only [RAct.put.injEq, Entry.fmap.injEq] at hput
                simp at hput
            | cons q2 r2 => simp
  · rw [get_removeStep_other hd]
    exact hnts _ _

theorem blankPos_addStep {m : List (Str × Entry φ)} {t : φ} {d : Str}
    {i : Bool} (hb : BlankPos m) : BlankPos (addStep m t d i) := by
  intro u
  by_cases hc : ([] : Str) = d ∧ u = t
  · obtain ⟨hc1, hc2⟩ := hc
    subst hc2
    by_cases hns : i = false ∧ d = []
    · rw [show addStep m u d i = m by unfold addStep; rw [if_pos hns]]
      exact hb u
    · rw [← hc1] at hns ⊢
      rcases holdsM_addStep_self m u [] i hns with h | h
      · rw [h]
        intro he
        simp only [Option.some_inj] at he
        exact hns ⟨he, rfl⟩
      · rw [h]
        exact hb u
  · rw [holdsM_addStep_other hc]
    exact hb u

theorem blankPos_removeStep {m : List (Str × Entry φ)} {t : φ} {d : Str}
    (hb : BlankPos m) : BlankPos (removeStep m t d) := by
  intro u
  by_cases hc : ([] : Str) = d ∧ u = t
  · obtain ⟨hc1, hc2⟩ := hc
    subst hc2
    subst hc1
    rw [holdsM_removeStep_self]
    simp
  · rw [holdsM_removeStep_other hc]
    exact hb u

theorem agreeAll_addStep {δ : φ → Option (List (Str × Bool))}
    {m : List (Str × Entry φ)} {t : φ} {d : Str} {i : Bool}
    (ha : AgreeAll δ m) (hmem : (d, i) ∈ domainsOrDefault (δ t)) :
    AgreeAll δ (addStep m t d i) := by
  intro u d' v hv
  by_cases hc : d' = d ∧ u = t
  · obtain ⟨hc1, hc2⟩ := hc
    subst hc1
    subst hc2
    by_cases hns : i = false ∧ d' = []
    · rw [show addStep m u d' i = m by unfold addStep; rw [if_pos hns]]
        at hv
      exact ha u d' v hv
    · rcases holdsM_addStep_self m u d' i hns with h | h
      · rw [h] at hv
        simp only [Option.some_inj] at hv
        rw [hv] at hmem
        exact hmem
      · rw [h] at hv
        exact ha u d' v hv
  · rw [holdsM_addStep_other hc] at hv
    exact ha u d' v hv

theorem agreeAll_removeStep {δ : φ → Option (List (Str × Bool))}
    {m : List (Str × Entry φ)} {t : φ} {d : Str}
    (ha : AgreeAll δ m) : AgreeAll δ (removeStep m t d) := by
  intro u d' v hv
  by_cases hc : d' = d ∧ u = t
  · obtain ⟨hc1, hc2⟩ := hc
    subst hc1
    subst hc2
    rw [holdsM_removeStep_self] at hv
    exact absurd hv (by simp)
  · rw [holdsM_removeStep_other hc] at hv
    exact ha u d' v hv

/-- The conjunction of all preserved facts during the C5 induction. -/
def InvAgree (δ : φ → Option (List (Str × Bool)))
    (m : List (Str × Entry φ)) : Prop :=
  MapNE m ∧ NoTS m ∧ BlankPos m ∧ AgreeAll δ m

theorem invAgree_addStep {δ : φ → Option (List (Str × Bool))}
    {m : List (Str × Entry φ)} {t : φ} {d : Str} {i : Bool}
    (hδ : ∀ u, ((domainsOrDefault (δ u)).map Prod.fst).Nodup)
    (h : InvAgree δ m) (hmem : (d, i) ∈ domainsOrDefault (δ t)) :
    InvAgree δ (addStep m t d i) := by
  obtain ⟨hne, hnts, hb, ha⟩ := h
  refine ⟨mapNE_addStep hne, ?_, blankPos_addStep hb,
    agreeAll_addStep ha hmem⟩
  apply noTS_addStep hne hnts
  intro v hv
  exact val_unique_of_nodup (hδ t) (ha t d v hv) hmem

theorem invAgree_removeStep {δ : φ → Option (List (Str × Bool))}
    {m : List (Str × Entry φ)} {t : φ} {d : Str}
    (h : InvAgree δ m) : InvAgree δ (removeStep m t d) := by
  obtain ⟨hne, hnts, hb, ha⟩ := h
  exact ⟨mapNE_removeStep hne, noTS_removeStep hnts,
    blankPos_removeStep hb, agreeAll_removeStep ha⟩

theorem invAgree_addPairs {δ : φ → Option (List (Str × Bool))}
    {t : φ} (hδ : ∀ u, ((domainsOrDefault (δ u)).map Prod.fst).Nodup) :
    ∀ ps : List (Str × Bool), (∀ p ∈ ps, p ∈ domainsOrDefault (δ t)) →
    ∀ m : List (Str × Entry φ), InvAgree δ m →
    InvAgree δ (addPairs m t ps) := by
  intro ps
  induction ps with
  | nil =>
    intro _ m h
    exact h
  | cons p rest ih =>
    intro hsub m h
    refine ih (fun q hq => hsub q (by simp [hq])) _ ?_
    have := invAgree_addStep (d := p.1) (i := p.2) hδ h (hsub p (by simp))
    simpa using this

theorem invAgree_removePairs {δ : φ → Option (List (Str × Bool))}
    {t : φ} :
    ∀ ps : List (Str × Bool), ∀ m : List (Str × Entry φ),
    InvAgree δ m → InvAgree δ (removePairs m t ps) := by
  intro ps
  induction ps with
  | nil =>
    intro m h
    exact h
  | cons p rest ih =>
    intro m h
    exact ih _ (invAgree_removeStep h)

/-- The states reachable from the empty index by sequences of `add`,
`remove` and `clear` operations in which each `add` of a text uses the
domains map `δ` prescribes for that text (this is how the matcher uses
the index: the domains always come from the filter identified by the
text).  `clear` produces the empty index, which is the base case. -/
inductive ReachC (δ : φ → Option (List (Str × Bool))) : FBD φ → Prop
  | empty : ReachC δ FBD.empty
  | add {s : FBD φ} (t : φ) : ReachC δ s → ReachC δ (s.add t (δ t))
  | remove {s : FBD φ} (t : φ) (doms : Option (List (Str × Bool))) :
      ReachC δ s → ReachC δ (s.remove t doms)

theorem invAgree_reachC {δ : φ → Option (List (Str × Bool))}
    {s : FBD φ}
    (hδ : ∀ u, ((domainsOrDefault (δ u)).map Prod.fst).Nodup)
    (hr : ReachC δ s) : InvAgree δ s.map := by
  induction hr with
  | empty =>
    refine ⟨?_, ?_, ?_, ?_⟩
    · intro d fm h
      simp [OMap.get] at h
    · intro d x h
      simp [OMap.get] at h
    · intro u h
      simp [holdsM, OMap.get] at h
    · intro u d v h
      simp [holdsM, OMap.get] at h
  | add t _ ih => exact invAgree_addPairs hδ _ (fun p hp => hp) _ ih
  | remove t doms _ ih => exact invAgree_removePairs _ _ ih

end FBD

theorem fbdExt {φ : Type} [DecidableEq φ] {a b : FBD φ}
    (h : a.map = b.map) : a = b := by
  cases a
  cases b
  cases h
  rfl

/-- C4 (amended): (i) for any sequence of `add(text_i, domains_i)`
calls on an empty `FiltersByDomain` followed by the matching sequence
of `remove(text_i, domains_i)` calls with the same arguments, the index
ends equal to the empty index; (ii) `remove(text, domains)` performed
immediately after `add(text, domains)` returns the structure to its
exact pre-add shape, provided the text was not already present at any
of the given domains, the domains map has no duplicate keys, and the
structure satisfies the representation invariant (no empty `FilterMap`
entry and no singleton-true `FilterMap` entry); (iii) under the same
freshness hypothesis, after `add(text, domains)` the index maps the
text, at every domain of the filter's domains map except the skipped
`("", false)` pair, to the pair's include flag. -/
theorem c4_round_trip {φ : Type} [DecidableEq φ] :
    (∀ l : List (φ × Option (List (Str × Bool))),
      FBD.removeSeq (FBD.addSeq (FBD.empty : FBD φ) l) l = FBD.empty)
    ∧ (∀ (s : FBD φ) (t : φ) (doms : Option (List (Str × Bool))),
      ((FBD.domainsOrDefault doms).map Prod.fst).Nodup →
      (∀ p ∈ FBD.domainsOrDefault doms, FBD.holds s p.1 t = none) →
      FBD.MapNE s.map → FBD.NoTS s.map →
      (s.add t doms).remove t doms = s)
    ∧ (∀ (s : FBD φ) (t : φ) (doms : Option (List (Str × Bool))),
      ((FBD.domainsOrDefault doms).map Prod.fst).Nodup →
      (∀ p ∈ FBD.domainsOrDefault doms, FBD.holds s p.1 t = none) →
      ∀ p ∈ FBD.domainsOrDefault doms, ¬(p.2 = false ∧ p.1 = []) →
      FBD.holds (s.add t doms) p.1 t = some p.2) := by
  refine ⟨?_, ?_, ?_⟩
  · intro l
    apply fbdExt
    rw [FBD.removeSeq_map, FBD.addSeq_map]
    exact FBD.removeSeqM_addSeqM_nil l
  · intro s t doms hnodup hfresh hne hnts
    apply fbdExt
    exact FBD.removePairs_addPairs_cancel _ hnodup _ hfresh hne hnts
  · intro s t doms hnodup hfresh p hp hns
    exact FBD.holdsM_addPairs_get _ hnodup _ hfresh p hp hns

/-- Witness for `c4_round_trip`: a fresh add followed by the matching
remove on the empty index restores the empty index. -/
theorem c4_round_trip_witness :
    (((FBD.empty : FBD String).add "a" (some [(['d'], true)])).remove
      "a" (some [(['d'], true)])) = (FBD.empty : FBD String) :=
  c4_round_trip.2.1 FBD.empty "a" (some [(['d'], true)]) (by decide)
    (by decide)
    (fun d fm h => by simp [FBD.empty, OMap.get] at h)
    (fun d x h => by simp [FBD.empty, OMap.get] at h)

/-- C4 counterexample: as literally stated, "remove performed
immediately after add returns the structure to its exact pre-add
shape" is false: if the text is already present at the domain with a
different include flag, the add overwrites the flag and the remove then
deletes the text entirely, so the pre-add shape (here a `FilterMap`
`{t => false}` at domain `d`) is not restored (the result is empty). -/
theorem c4_counterexample :
    ((((FBD.empty : FBD String).add "t" (some [(['d'], false)])).add "t"
      (some [(['d'], true)])).remove "t" (some [(['d'], true)])) ≠
    ((FBD.empty : FBD String).add "t" (some [(['d'], false)])) := by
  decide

/-- C5 (amended): the representation invariant — every `FilterMap`
entry is non-empty, no entry is a `FilterMap` whose sole content is a
single `(text, true)` pair, and the empty-string domain never records
an `include = false` pair — holds in every state reachable from the
empty index by `add`, `remove` and `clear` operations in which each
`add` of a text passes the domains map prescribed for that text by a
fixed duplicate-free assignment (as the matcher does: the domains
always come from the filter whose text is being added). -/
theorem c5_representation_invariant {φ : Type} [DecidableEq φ]
    {δ : φ → Option (List (Str × Bool))} {s : FBD φ}
    (hδ : ∀ u, ((FBD.domainsOrDefault (δ u)).map Prod.fst).Nodup)
    (hr : FBD.ReachC δ s) :
    (∀ d fm, FBD.get s d = some (Entry.fmap fm) → fm ≠ [])
    ∧ (∀ d x, FBD.get s d ≠ some (Entry.fmap [(x, true)]))
    ∧ (∀ u, FBD.holds s [] u ≠ some false) := by
  obtain ⟨h1, h2, h3, _⟩ := FBD.invAgree_reachC hδ hr
  exact ⟨h1, h2, h3⟩

/-- Witness for `c5_representation_invariant` at a concrete reachable
state. -/
theorem c5_representation_invariant_witness :
    FBD.get ((FBD.empty : FBD String).add "a" none) ['d'] ≠
      some (Entry.fmap [("x", true)]) :=
  (c5_representation_invariant (δ := fun _ => none)
    (fun _ => List.nodup_singleton [])
    (FBD.ReachC.add "a" FBD.ReachC.empty)).2.1 ['d'] "x"

/-- C5 counterexample: for arbitrary operation sequences the invariant
fails: adding the same text at the same domain first with
`include = false` and then with `include = true` leaves a `FilterMap`
whose sole content is a single `(text, true)` pair. -/
theorem c5_counterexample :
    FBD.get (((FBD.empty : FBD String).add "t"
        (some [(['d'], false)])).add "t" (some [(['d'], true)]))
      ['d'] = some (Entry.fmap [("t", true)]) := by
  decide

/-! ## Pattern matching semantics

`common.js` (which holds `filterToRegExp`) is not part of the source
tree, so the semantics of the regular expression derived from a filter
pattern is modelled from the specification: `*` is a wildcard, `^`
matches a separator character or the end of the URL, `|` at either end
is a boundary anchor, `||` at the start anchors at a domain boundary,
and every other character matches itself. -/

/-- The fuel-indexed core of `matchFrom` (the fuel makes the function
computable by the kernel; `matchFromF_congr` shows any sufficient fuel
gives the same answer). -/
def matchFromF : Nat → List Char → List Char → Bool → Bool
  | 0, _, _, _ => false
  | _ + 1, [], loc, mustEnd => !mustEnd || loc.isEmpty
  | n + 1, c :: b, loc, mustEnd =>
    if c = '*' then
      matchFromF n b loc mustEnd ||
        (match loc with
         | [] => false
         | _ :: l => matchFromF n (c :: b) l mustEnd)
    else if c = '^' then
      match loc with
      | [] => matchFromF n b [] mustEnd
      | d :: l => isSep d && matchFromF n b l mustEnd
    else
      match loc with
      | [] => false
      | d :: l => c = d && matchFromF n b l mustEnd

/-- Modelled from the spec: matching of a pattern body (no anchors)
against a location suffix.  `mustEnd` is true when the pattern carried
a trailing `|` anchor; without it the body may match a proper prefix of
the location. -/
def matchFrom (b loc : List Char) (mustEnd : Bool) : Bool :=
  matchFromF (b.length + loc.length + 1) b loc mustEnd

/-- Fuel irrelevance: any fuel above the combined length works. -/
theorem matchFromF_congr :
    ∀ n m (b loc : List Char) (e : Bool), b.length + loc.length < n →
      b.length + loc.length < m → matchFromF n b loc e = matchFromF m b loc e := by
  intro n
  induction n with
  | zero =>
    intro m b loc e hn
    omega
  | succ n ih =>
    intro m b loc e hn hm
    cases m with
    | zero => omega
    | succ m =>
      cases b with
      | nil => rfl
      | cons c b' =>
        simp only [matchFromF]
        by_cases hc : c = '*'
        · subst hc
          rw [if_pos rfl, if_pos rfl]
          simp only [List.length_cons] at hn hm
          rw [ih m b' loc e (by omega) (by omega)]
          cases loc with
          | nil => rfl
          | cons x l =>
            simp only [List.length_cons] at hn hm
            dsimp only
            rw [ih m ('*' :: b') l e (by simp; omega) (by simp; omega)]
        · rw [if_neg hc, if_neg hc]
          by_cases hcar : c = '^'
          · subst hcar
            rw [if_pos rfl, if_pos rfl]
            simp only [List.length_cons] at hn hm
            cases loc with
            | nil =>
              dsimp only
              rw [ih m b' [] e (by simp; omega) (by simp; omega)]
            | cons x l =>
              simp only [List.length_cons] at hn hm
              dsimp only
              rw [ih m b' l e (by omega) (by omega)]
          · rw [if_neg hcar, if_neg hcar]
            cases loc with
            | nil => rfl
            | cons x l =>
              simp only [List.length_cons] at hn hm
              dsimp only
              rw [ih m b' l e (by omega) (by omega)]

/-- Any sufficient fuel computes `matchFrom`. -/
theorem matchFromF_eq_matchFrom {n : Nat} (b loc : List Char) (e : Bool)
    (h : b.length + loc.length < n) :
    matchFromF n b loc e = matchFrom b loc e := by
  rw [matchFrom]
  exact matchFromF_congr n _ b loc e h (by omega)

/-- Modelled from the spec: an unanchored pattern may match at any
start position. -/
def scanFrom (body : List Char) : List Char → Bool → Bool
  | loc, endA =>
    matchFrom body loc endA ||
      (match loc with
       | [] => false
       | _ :: l => scanFrom body l endA)

/-- All splits of a list into a prefix and a suffix. -/
def splits : List Char → List (List Char × List Char)
  | [] => [([], [])]
  | c :: t => ([], c :: t) :: (splits t).map (fun p => (c :: p.1, p.2))

/-- Modelled from the spec: the translation of the extended anchor
`||` is `^[\w\-]+:\/+(?!\/)(?:[^\/]+\.)?` — a scheme, a colon, one
or more slashes, and optionally a host part ending in a dot; when the
optional part is absent, the next character must not be a slash.
`next` is the character following the prefix (`none` at the end of the
string, where the negative lookahead trivially succeeds). -/
def extPreOk (pre : List Char) (next : Option Char) : Bool :=
  let w := pre.takeWhile wordChar
  let r1 := pre.drop w.length
  (!w.isEmpty) &&
    (match r1 with
     | ':' :: r2 =>
       let sl := r2.takeWhile (fun c => c = '/')
       let d := r2.drop sl.length
       (!sl.isEmpty) &&
         (match d with
          | [] => next ≠ some '/'
          | _ :: _ =>
            d.getLast? = some '.' && decide (d.dropLast ≠ []) &&
              decide (∀ c ∈ d.dropLast, c ≠ '/'))
     | _ => false)

/-- Modelled from the spec: `extendedAnchorRegExp.test(prefix)` — the
full prefix matches the `||` translation (the final lookahead is at the
end of the string, where it succeeds). -/
def extTestPre (pre : List Char) : Bool := extPreOk pre none

/-- Modelled from the spec: a `||`-anchored pattern matches if the
location splits into a domain-boundary prefix and a suffix matched by
the body. -/
def extScan (body loc : List Char) (endA : Bool) : Bool :=
  (splits loc).any (fun pr =>
    extPreOk pr.1 pr.2.head? && matchFrom body pr.2 endA)

/-- Strip a trailing `|` anchor. -/
def stripEnd (b : List Char) : Bool × List Char :=
  match b.getLast? with
  | some '|' => (true, b.dropLast)
  | _ => (false, b)

/-- Modelled from the spec: the matching semantics of a whole filter
pattern (the behavior of the regular expression `filterToRegExp`
derives from it), honoring the `|`, `||`, `^` and `*` anchors and
wildcards. -/
def patMatch (p loc : List Char) : Bool :=
  match p with
  | '|' :: '|' :: body0 =>
    extScan (stripEnd body0).2 loc (stripEnd body0).1
  | '|' :: body0 =>
    matchFrom (stripEnd body0).2 loc (stripEnd body0).1
  | body0 =>
    scanFrom (stripEnd body0).2 loc (stripEnd body0).1

/-! ## The literal fast path of `_matchesLocation` (`filterClasses.js`) -/

/-- `String.prototype.indexOf`: index of the first occurrence of
`needle` in `hay`. -/
def firstIndexOf? (needle hay : List Char) : Option Nat :=
  if needle.isPrefixOf hay then some 0
  else
    match hay with
    | [] => none
    | _ :: t => (firstIndexOf? needle t).map (· + 1)

/-- `isLiteralPattern` of `filterClasses.js`: no `*`, `^` or `|` after
removing an optional `|`/`||` prefix and an optional `|` or `^`
suffix. -/
def isLiteralPattern (p : List Char) : Bool :=
  let p1 := match p with
    | '|' :: '|' :: t => t
    | '|' :: t => t
    | t => t
  let p2 := match p1.getLast? with
    | some '|' => p1.dropLast
    | some '^' => p1.dropLast
    | _ => p1
  p2.all (fun c => c ≠ '*' && c ≠ '^' && c ≠ '|')

/-- The literal-pattern fast path of
`URLFilter.prototype._matchesLocation`: find the first occurrence of
the anchor-stripped pattern with `indexOf` and check the anchor
conditions at that single position. -/
def litMatch (p loc : List Char) : Bool :=
  let startsWithAnchor := p.head? = some '|'
  let startsWithExt := startsWithAnchor && (p.drop 1).head? = some '|'
  let endsWithSeparator := p.getLast? = some '^'
  let endsWithAnchor := !endsWithSeparator && p.getLast? = some '|'
  let p1 := if startsWithExt then p.drop 2
    else if startsWithAnchor then p.drop 1 else p
  let body := if endsWithSeparator || endsWithAnchor then p1.dropLast
    else p1
  match firstIndexOf? body loc with
  | none => false
  | some idx =>
    (if startsWithExt then
        decide ((loc.drop idx).head? ≠ some '/') && extTestPre (loc.take idx)
      else if startsWithAnchor then decide (idx = 0) else true) &&
    (if endsWithSeparator then
        match (loc.drop (idx + body.length)).head? with
        | none => true
        | some c => isSep c
      else if endsWithAnchor then decide (idx + body.length = loc.length)
      else true)

/-! ## Keyword extraction -/

/-- The length of a `takeWhile` prefix is bounded by the list length. -/
theorem length_takeWhile_le (p : Char → Bool) (l : List Char) :
    (l.takeWhile p).length ≤ l.length := by
  induction l with
  | nil => simp [List.takeWhile]
  | cons c t ih =>
    simp only [List.takeWhile]
    cases p c
    · simp
    · simp
      omega

/-- A keyword delimiter: not a keyword character and not `*`. -/
def isDelim (c : Char) : Bool := !kwChar c && c ≠ '*'

/-- The matches of `allKeywordsRegExp`
(`/[^a-z0-9%*][a-z0-9%]{2,}(?=[^a-z0-9%*])/g`) on a pattern: a
delimiter character, a full run of at least two keyword characters, and
a following delimiter character (not consumed). -/
def kwCandidatesF : Nat → List Char → List (List Char)
  | 0, _ => []
  | _ + 1, [] => []
  | n + 1, d :: rest =>
    let r := rest.takeWhile kwChar
    let after := rest.drop r.length
    if isDelim d && decide (2 ≤ r.length) &&
        (after.head?.map isDelim).getD false then
      r :: kwCandidatesF n after
    else kwCandidatesF n rest

def kwCandidates (p : List Char) : List (List Char) :=
  kwCandidatesF (p.length + 1) p

theorem kwCandidatesF_congr :
    ∀ n m (p : List Char), p.length < n → p.length < m →
      kwCandidatesF n p = kwCandidatesF m p := by
  intro n
  induction n with
  | zero =>
    intro m p hn
    omega
  | succ n ih =>
    intro m p hn hm
    cases m with
    | zero => omega
    | succ m =>
      cases p with
      | nil => rfl
      | cons d rest =>
        simp only [kwCandidatesF]
        simp only [List.length_cons] at hn hm
        have hal : (rest.drop (rest.takeWhile kwChar).length).length ≤
            rest.length := by
          rw [List.length_drop]
          omega
        split
        · rw [ih m _ (by omega) (by omega)]
        · rw [ih m rest (by omega) (by omega)]

theorem kwCandidates_nil : kwCandidates [] = [] := rfl

theorem kwCandidates_cons (d : Char) (rest : List Char) :
    kwCandidates (d :: rest) =
      (if isDelim d && decide (2 ≤ (rest.takeWhile kwChar).length) &&
          ((((rest.drop (rest.takeWhile kwChar).length)).head?.map
            isDelim).getD false) then
        (rest.takeWhile kwChar) ::
          kwCandidates (rest.drop (rest.takeWhile kwChar).length)
      else kwCandidates rest) := by
  rw [kwCandidates]
  simp only [List.length_cons, kwCandidatesF]
  have hal : (rest.drop (rest.takeWhile kwChar).length).length ≤
      rest.length := by
    rw [List.length_drop]
    omega
  split
  all_goals first
    | (rw [kwCandidates]
       exact congrArg (List.cons _)
         (kwCandidatesF_congr _ _ _ (by omega) (by omega)))
    | (rw [kwCandidates]
       exact kwCandidatesF_congr _ _ _ (by omega) (by omega))
    | rfl

/-- The maximal runs of keyword characters in a string. -/
def allRunsF : Nat → List Char → List (List Char)
  | 0, _ => []
  | _ + 1, [] => []
  | n + 1, c :: t =>
    if kwChar c then
      (c :: t.takeWhile kwChar) ::
        allRunsF n (t.drop (t.takeWhile kwChar).length)
    else allRunsF n t

def allRuns (l : List Char) : List (List Char) :=
  allRunsF (l.length + 1) l

theorem allRunsF_congr :
    ∀ n m (l : List Char), l.length < n → l.length < m →
      allRunsF n l = allRunsF m l := by
  intro n
  induction n with
  | zero =>
    intro m l hn
    omega
  | succ n ih =>
    intro m l hn hm
    cases m with
    | zero => omega
    | succ m =>
      cases l with
      | nil => rfl
      | cons c t =>
        simp only [allRunsF]
        simp only [List.length_cons] at hn hm
        have hal : (t.drop (t.takeWhile kwChar).length).length ≤
            t.length := by
          rw [List.length_drop]
          omega
        split
        · rw [ih m _ (by omega) (by omega)]
        · rw [ih m t (by omega) (by omega)]

/-- The candidate keywords extracted from a URL
(`/[a-z0-9%]{2,}|$/g` on the lowercased URL): all maximal runs of at
least two keyword characters, plus the empty keyword. -/
def urlCandidates (lloc : List Char) : List (List Char) :=
  (allRuns lloc).filter (fun r => 2 ≤ r.length) ++ [[]]

/-! ## Inductive characterization of body matching -/

/-- `PM e body loc`: the pattern body matches a prefix of `loc` (all of
`loc` when `e` is true), character by character. -/
inductive PM : Bool → List Char → List Char → Prop where
  | nil {e : Bool} {loc : List Char} (h : e = true → loc = []) :
      PM e [] loc
  | lit {e : Bool} {c : Char} {b loc : List Char} (h1 : c ≠ '*')
      (h2 : c ≠ '^') (hp : PM e b loc) : PM e (c :: b) (c :: loc)
  | sep {e : Bool} {c : Char} {b loc : List Char} (hs : isSep c = true)
      (hp : PM e b loc) : PM e ('^' :: b) (c :: loc)
  | sepEnd {e : Bool} {b : List Char} (hp : PM e b []) :
      PM e ('^' :: b) []
  | star0 {e : Bool} {b loc : List Char} (hp : PM e b loc) :
      PM e ('*' :: b) loc
  | star1 {e : Bool} {c : Char} {b loc : List Char}
      (hp : PM e ('*' :: b) loc) : PM e ('*' :: b) (c :: loc)


/-- Equation lemma: empty body. -/
theorem mf_nil (loc : List Char) (e : Bool) :
    matchFrom [] loc e = (!e || loc.isEmpty) := by
  rw [matchFrom]
  rw [show ([] : List Char).length + loc.length + 1 = loc.length + 1 from
    by simp]
  rfl

/-- Equation lemma: wildcard head. -/
theorem mf_star (b loc : List Char) (e : Bool) :
    matchFrom ('*' :: b) loc e =
      (matchFrom b loc e ||
        (match loc with
         | [] => false
         | _ :: l => matchFrom ('*' :: b) l e)) := by
  conv_lhs => rw [matchFrom]
  rw [matchFromF.eq_def]
  dsimp only
  rw [if_pos rfl]
  rw [matchFromF_eq_matchFrom b loc e (by simp)]
  cases loc with
  | nil => rfl
  | cons x l =>
    dsimp only
    rw [matchFromF_eq_matchFrom ('*' :: b) l e (by simp <;> omega)]

/-- Equation lemma: separator head. -/
theorem mf_caret (b loc : List Char) (e : Bool) :
    matchFrom ('^' :: b) loc e =
      (match loc with
       | [] => matchFrom b [] e
       | d :: l => isSep d && matchFrom b l e) := by
  conv_lhs => rw [matchFrom]
  rw [matchFromF.eq_def]
  dsimp only
  rw [if_neg (by decide), if_pos rfl]
  cases loc with
  | nil =>
    dsimp only
    rw [matchFromF_eq_matchFrom b [] e (by simp <;> omega)]
  | cons x l =>
    dsimp only
    rw [matchFromF_eq_matchFrom b l e (by simp <;> omega)]

/-- Equation lemma: literal head. -/
theorem mf_lit (c : Char) (b loc : List Char) (e : Bool)
    (h1 : c ≠ '*') (h2 : c ≠ '^') :
    matchFrom (c :: b) loc e =
      (match loc with
       | [] => false
       | d :: l => (decide (c = d)) && matchFrom b l e) := by
  conv_lhs => rw [matchFrom]
  rw [matchFromF.eq_def]
  dsimp only
  rw [if_neg h1, if_neg h2]
  cases loc with
  | nil => rfl
  | cons x l =>
    dsimp only
    rw [matchFromF_eq_matchFrom b l e (by simp <;> omega)]

theorem PM_of_matchFrom_aux :
    ∀ n b loc (e : Bool), b.length + loc.length ≤ n →
      matchFrom b loc e = true → PM e b loc := by
  intro n
  induction n with
  | zero =>
    intro b loc e hle hm
    have hb : b = [] := by
      cases b with
      | nil => rfl
      | cons c t => simp at hle
    subst hb
    rw [mf_nil] at hm
    refine PM.nil ?_
    intro he
    subst he
    simpa using hm
  | succ n ih =>
    intro b loc e hle hm
    cases b with
    | nil =>
      rw [mf_nil] at hm
      refine PM.nil ?_
      intro he
      subst he
      simpa using hm
    | cons c b' =>
      by_cases hstar : c = '*'
      · subst hstar
        rw [mf_star] at hm
        rcases Bool.or_eq_true_iff.mp hm with h | h
        · exact PM.star0 (ih b' loc e (by simp at hle; omega) h)
        · cases loc with
          | nil => simp at h
          | cons x l =>
            refine PM.star1 (ih ('*' :: b') l e ?_ h)
            simp at hle ⊢
            omega
      · by_cases hcar : c = '^'
        · subst hcar
          rw [mf_caret] at hm
          cases loc with
          | nil =>
            exact PM.sepEnd (ih b' [] e (by simp at hle ⊢; omega) hm)
          | cons d l =>
            rcases Bool.and_eq_true_iff.mp hm with ⟨hs, hr⟩
            refine PM.sep hs (ih b' l e ?_ hr)
            simp at hle ⊢
            omega
        · rw [mf_lit c b' loc e hstar hcar] at hm
          cases loc with
          | nil => simp at hm
          | cons d l =>
            rcases Bool.and_eq_true_iff.mp hm with ⟨hd, hr⟩
            have hcd : c = d := of_decide_eq_true hd
            subst hcd
            refine PM.lit hstar hcar (ih b' l e ?_ hr)
            simp at hle ⊢
            omega

theorem matchFrom_of_PM {e : Bool} {b loc : List Char}
    (h : PM e b loc) : matchFrom b loc e = true := by
  induction h with
  | nil h =>
    rw [mf_nil]
    cases e with
    | false => simp
    | true => simp [h rfl]
  | lit h1 h2 hp ih =>
    rw [mf_lit _ _ _ _ h1 h2]
    simp [ih]
  | sep hs hp ih =>
    rw [mf_caret]
    simp [hs, ih]
  | sepEnd hp ih =>
    rw [mf_caret]
    exact ih
  | star0 hp ih =>
    rw [mf_star]
    simp [ih]
  | star1 hp ih =>
    rw [mf_star]
    simp [ih]

/-- The executable matcher agrees with the inductive characterization. -/
theorem matchFrom_iff_PM {e : Bool} {b loc : List Char} :
    matchFrom b loc e = true ↔ PM e b loc :=
  ⟨PM_of_matchFrom_aux (b.length + loc.length) b loc e le_rfl,
   matchFrom_of_PM⟩


/-- A separator character is unchanged by lowercasing. -/
theorem sep_toLower_self {c : Char} (h : isSep c = true) :
    c.toLower = c := by
  apply toLower_eq_self
  simp only [isSep, Bool.or_eq_true, Bool.and_eq_true, decide_eq_true_eq] at h
  omega

/-- Matching is preserved by lowercasing both the pattern body and the
location (wildcards, separators and anchors are fixed points of the
case mapping, and literal matches lower in lockstep). -/
theorem PM_lower {e : Bool} {b loc : List Char} (h : PM e b loc) :
    PM e (lower b) (lower loc) := by
  induction h with
  | nil h =>
    refine PM.nil ?_
    intro he
    simp [lower, h he]
  | lit h1 h2 hp ih =>
    simp only [lower, List.map_cons] at ih ⊢
    refine PM.lit ?_ ?_ ih
    · rw [Ne, toLower_eq_star]
      exact h1
    · rw [Ne, toLower_eq_caret]
      exact h2
  | sep hs hp ih =>
    simp only [lower, List.map_cons] at ih ⊢
    have hc : Char.toLower '^' = '^' := by decide
    rw [hc]
    refine PM.sep ?_ ih
    rw [sep_toLower_self hs]
    exact hs
  | sepEnd hp ih =>
    simp only [lower, List.map_cons, List.map_nil] at ih ⊢
    have hc : Char.toLower '^' = '^' := by decide
    rw [hc]
    exact PM.sepEnd ih
  | star0 hp ih =>
    simp only [lower, List.map_cons] at ih ⊢
    have hc : Char.toLower '*' = '*' := by decide
    rw [hc]
    exact PM.star0 ih
  | star1 hp ih =>
    simp only [lower, List.map_cons] at ih ⊢
    have hc : Char.toLower '*' = '*' := by decide
    rw [hc] at ih ⊢
    exact PM.star1 ih

/-- `scanFrom` succeeds exactly when the body matches at some start
position. -/
theorem scanFrom_iff (body : List Char) (e : Bool) : ∀ loc,
    scanFrom body loc e = true ↔
      ∃ p s, loc = p ++ s ∧ matchFrom body s e = true := by
  intro loc
  induction loc with
  | nil =>
    rw [scanFrom]
    constructor
    · intro h
      simp only [Bool.or_false] at h
      exact ⟨[], [], rfl, h⟩
    · rintro ⟨p, s, hps, hm⟩
      have hp : p = [] := by simpa using (List.append_eq_nil.mp hps.symm).1
      have hs : s = [] := by simpa using (List.append_eq_nil.mp hps.symm).2
      subst hp; subst hs
      simpa using hm
  | cons c l ih =>
    rw [scanFrom]
    constructor
    · intro h
      rcases Bool.or_eq_true_iff.mp h with h | h
      · exact ⟨[], c :: l, rfl, h⟩
      · rcases ih.mp h with ⟨p, s, hps, hm⟩
        exact ⟨c :: p, s, by rw [hps]; rfl, hm⟩
    · rintro ⟨p, s, hps, hm⟩
      cases p with
      | nil =>
        simp only [List.nil_append] at hps
        subst hps
        simp [hm]
      | cons x p' =>
        simp only [List.cons_append, List.cons.injEq] at hps
        refine Bool.or_eq_true_iff.mpr (Or.inr ?_)
        exact ih.mpr ⟨p', s, hps.2, hm⟩

/-- Membership in `splits`. -/
theorem splits_mem : ∀ (l : List Char) (pr : List Char × List Char),
    pr ∈ splits l ↔ l = pr.1 ++ pr.2 := by
  intro l
  induction l with
  | nil =>
    intro pr
    simp only [splits, List.mem_singleton]
    constructor
    · intro h
      subst h
      rfl
    · intro h
      cases pr with
      | mk a b =>
        have ha : a = [] := by simpa using (List.append_eq_nil.mp h.symm).1
        have hb : b = [] := by simpa using (List.append_eq_nil.mp h.symm).2
        simp [ha, hb]
  | cons c t ih =>
    intro pr
    simp only [splits, List.mem_cons, List.mem_map]
    constructor
    · rintro (h | ⟨q, hq, hqe⟩)
      · subst h
        rfl
      · rw [← hqe]
        simp only [List.cons_append, List.cons.injEq, true_and]
        exact (ih q).mp hq
    · intro h
      cases pr with
      | mk a b =>
        cases a with
        | nil => exact Or.inl (by simpa using h.symm)
        | cons x a' =>
          simp only [List.cons_append, List.cons.injEq] at h
          refine Or.inr ⟨(a', b), (ih (a', b)).mpr h.2, ?_⟩
          rw [h.1]

/-- `extScan` succeeds exactly when the location splits into a
domain-boundary prefix and a body-matched suffix. -/
theorem extScan_iff (body loc : List Char) (e : Bool) :
    extScan body loc e = true ↔
      ∃ p s, loc = p ++ s ∧ extPreOk p s.head? = true ∧
        matchFrom body s e = true := by
  rw [extScan, List.any_eq_true]
  constructor
  · rintro ⟨pr, hmem, hb⟩
    rcases Bool.and_eq_true_iff.mp hb with ⟨h1, h2⟩
    exact ⟨pr.1, pr.2, (splits_mem loc pr).mp hmem, h1, h2⟩
  · rintro ⟨p, s, hps, h1, h2⟩
    exact ⟨(p, s), (splits_mem loc (p, s)).mpr hps, by simp [h1, h2]⟩


/-- A separator character is not a keyword character. -/
theorem sep_not_kw {c : Char} (h : isSep c = true) : kwChar c = false := by
  rw [← sep_toLower_self h]
  exact sep_toLower_not_kw h

/-- The last character of `p` (if any) is not a keyword character. -/
def LeftB (p : List Char) : Prop :=
  ∀ c, p.getLast? = some c → kwChar c = false

/-- The first character of `s` (if any) is not a keyword character. -/
def RightB (s : List Char) : Prop :=
  ∀ c, s.head? = some c → kwChar c = false

/-- `k` occurs in `loc` as a maximal keyword run. -/
def RunWin (loc k : List Char) : Prop :=
  ∃ p s, loc = p ++ k ++ s ∧ LeftB p ∧ RightB s

theorem leftB_nil : LeftB [] := by
  intro c hc
  simp at hc

theorem leftB_cons {p : List Char} {c : Char} (hne : p ≠ [])
    (h : LeftB p) : LeftB (c :: p) := by
  cases p with
  | nil => exact absurd rfl hne
  | cons q p' =>
    intro x hx
    rw [List.getLast?_cons_cons] at hx
    exact h x hx

/-- What may legitimately follow a keyword run in a pattern body: an
interior delimiter character, or (with the end anchor set) the end of
the body. -/
def TailOk (e : Bool) (tl : List Char) : Prop :=
  (∃ e' b2, tl = e' :: b2 ∧ kwChar e' = false ∧ e' ≠ '*') ∨
    (tl = [] ∧ e = true)

/-- Keyword characters in the pattern are matched literally: a leading
keyword run of the body is consumed verbatim from the location. -/
theorem PM_kwrun {e : Bool} : ∀ (k : List Char) {rest loc : List Char},
    (∀ c ∈ k, kwChar c = true) → PM e (k ++ rest) loc →
    ∃ loc2, loc = k ++ loc2 ∧ PM e rest loc2 := by
  intro k
  induction k with
  | nil =>
    intro rest loc _ h
    exact ⟨loc, rfl, h⟩
  | cons c k' ih =>
    intro rest loc hall h
    have hc : kwChar c = true := hall c (by simp)
    rw [List.cons_append] at h
    cases h with
    | lit h1 h2 hp =>
      rcases ih (fun x hx => hall x (by simp [hx])) hp with ⟨loc2, he, hr⟩
      exact ⟨loc2, by simp [he], hr⟩
    | sep hs hp => exact absurd hc (by simp [kwChar])
    | sepEnd hp => exact absurd hc (by simp [kwChar])
    | star0 hp => exact absurd hc (by simp [kwChar])
    | star1 hp => exact absurd hc (by simp [kwChar])

/-- After a keyword run, a legitimate tail forces a non-keyword
boundary (or the end of the location) right after the run's image. -/
theorem PM_run_tail {e : Bool} {k tl loc : List Char}
    (hk : ∀ c ∈ k, kwChar c = true) (ht : TailOk e tl)
    (h : PM e (k ++ tl) loc) :
    ∃ s, loc = k ++ s ∧ RightB s := by
  rcases PM_kwrun k hk h with ⟨loc2, he, hr⟩
  subst he
  rcases ht with ⟨e', b2, htl, he1, he2⟩ | ⟨htl, hee⟩
  · subst htl
    cases hr with
    | lit h1 h2 hp =>
      refine ⟨_, rfl, ?_⟩
      intro x hx
      simp only [List.head?_cons, Option.some.injEq] at hx
      rw [← hx]
      exact he1
    | sep hs hp =>
      refine ⟨_, rfl, ?_⟩
      intro x hx
      simp only [List.head?_cons, Option.some.injEq] at hx
      rw [← hx]
      exact sep_not_kw hs
    | sepEnd hp =>
      refine ⟨[], rfl, ?_⟩
      intro x hx
      simp at hx
    | star0 hp => exact absurd rfl he2
    | star1 hp => exact absurd rfl he2
  · subst htl
    subst hee
    cases hr with
    | nil h =>
      refine ⟨loc2, rfl, ?_⟩
      rw [h rfl]
      intro x hx
      simp at hx


/-- Window lemma, head case: the delimiter is the first character of
the body. -/
theorem PM_window_head {e : Bool} {d : Char} {k tl loc : List Char}
    (h : PM e (d :: (k ++ tl)) loc) (hd : kwChar d = false) (hds : d ≠ '*')
    (hk : k ≠ []) (hall : ∀ c ∈ k, kwChar c = true) (ht : TailOk e tl) :
    ∃ p s, loc = p ++ k ++ s ∧ p ≠ [] ∧ LeftB p ∧ RightB s := by
  cases h with
  | lit h1 h2 hp =>
    rcases PM_run_tail hall ht hp with ⟨s, hls, hrb⟩
    refine ⟨[d], s, by simp [hls], by simp, ?_, hrb⟩
    intro c hc
    simp only [List.getLast?_singleton, Option.some.injEq] at hc
    rw [← hc]
    exact hd
  | @sep c b loc hs hp =>
    rcases PM_run_tail hall ht hp with ⟨s, hls, hrb⟩
    refine ⟨[c], s, by simp [hls], by simp, ?_, hrb⟩
    intro x hx
    simp only [List.getLast?_singleton, Option.some.injEq] at hx
    rw [← hx]
    exact sep_not_kw hs
  | sepEnd hp =>
    rcases PM_run_tail hall ht hp with ⟨s, hls, _⟩
    exfalso
    cases k with
    | nil => exact hk rfl
    | cons c k' => simp at hls
  | star0 hp => exact absurd rfl hds
  | star1 hp => exact absurd rfl hds

theorem PM_window_aux :
    ∀ n (a : List Char) (d : Char) (k tl loc : List Char) (e : Bool),
      a.length + loc.length ≤ n →
      PM e (a ++ d :: (k ++ tl)) loc →
      kwChar d = false → d ≠ '*' → k ≠ [] →
      (∀ c ∈ k, kwChar c = true) → TailOk e tl →
      ∃ p s, loc = p ++ k ++ s ∧ p ≠ [] ∧ LeftB p ∧ RightB s := by
  intro n
  induction n with
  | zero =>
    intro a d k tl loc e hle h hd hds hk hall ht
    have ha : a = [] := by
      cases a with
      | nil => rfl
      | cons c t => simp at hle
    subst ha
    exact PM_window_head h hd hds hk hall ht
  | succ n ih =>
    intro a d k tl loc e hle h hd hds hk hall ht
    cases a with
    | nil => exact PM_window_head h hd hds hk hall ht
    | cons c a' =>
      rw [List.cons_append] at h
      cases h with
      | lit h1 h2 hp =>
        rcases ih a' d k tl _ e (by simp at hle ⊢; omega) hp hd hds hk
            hall ht with ⟨p, s, hl, hpne, hlb, hrb⟩
        exact ⟨c :: p, s, by simp [hl], by simp, leftB_cons hpne hlb, hrb⟩
      | @sep x b l hs hp =>
        rcases ih a' d k tl _ e (by simp at hle ⊢; omega) hp hd hds hk
            hall ht with ⟨p, s, hl, hpne, hlb, hrb⟩
        exact ⟨x :: p, s, by simp [hl], by simp, leftB_cons hpne hlb, hrb⟩
      | sepEnd hp =>
        rcases ih a' d k tl _ e (by simp at hle ⊢; omega) hp hd hds hk
            hall ht with ⟨p, s, hl, hpne, hlb, hrb⟩
        exfalso
        cases p with
        | nil => exact hpne rfl
        | cons q p' => simp at hl
      | star0 hp =>
        exact ih a' d k tl _ e (by simp at hle ⊢; omega) hp hd hds hk hall ht
      | @star1 x b l hp =>
        rcases ih ('*' :: a') d k tl l e (by simp at hle ⊢; omega)
            (by rw [List.cons_append]; exact hp) hd hds hk hall ht with
          ⟨p, s, hl, hpne, hlb, hrb⟩
        exact ⟨x :: p, s, by simp [hl], by simp, leftB_cons hpne hlb, hrb⟩

/-- Window lemma: a keyword run bounded by delimiters inside a matched
pattern body appears in the location as a keyword run with a
non-keyword character on its left and a non-keyword boundary on its
right. -/
theorem PM_window {e : Bool} {a : List Char} {d : Char} {k tl loc : List Char}
    (h : PM e (a ++ d :: (k ++ tl)) loc)
    (hd : kwChar d = false) (hds : d ≠ '*') (hk : k ≠ [])
    (hall : ∀ c ∈ k, kwChar c = true) (ht : TailOk e tl) :
    ∃ p s, loc = p ++ k ++ s ∧ p ≠ [] ∧ LeftB p ∧ RightB s :=
  PM_window_aux (a.length + loc.length) a d k tl loc e le_rfl h hd hds hk
    hall ht


theorem drop_takeWhile_length (p : Char → Bool) (l : List Char) :
    l.drop (l.takeWhile p).length = l.dropWhile p := by
  induction l with
  | nil => rfl
  | cons c t ih =>
    by_cases h : p c
    · simp [List.takeWhile_cons, List.dropWhile_cons, h, ih]
    · simp [List.takeWhile_cons, List.dropWhile_cons, h]

theorem head_dropWhile_false {p : Char → Bool} {l : List Char} {a : Char}
    (h : (l.dropWhile p).head? = some a) : p a = false := by
  induction l with
  | nil => simp [List.dropWhile] at h
  | cons c t ih =>
    rw [List.dropWhile_cons] at h
    by_cases hc : p c
    · rw [if_pos hc] at h
      exact ih h
    · rw [if_neg hc] at h
      simp only [List.head?_cons, Option.some.injEq] at h
      rw [← h]
      exact Bool.eq_false_iff.mpr hc

theorem stripEnd_eq_bar {b : List Char} (h : b.getLast? = some '|') :
    stripEnd b = (true, b.dropLast) := by
  unfold stripEnd
  rw [h]
  rfl

theorem stripEnd_eq_other {b : List Char}
    (h : ∀ c, b.getLast? = some c → c ≠ '|') :
    stripEnd b = (false, b) := by
  unfold stripEnd
  split
  next heq => exact absurd rfl (h '|' heq)
  next => rfl

/-- Stripping a trailing `|` anchor preserves a keyword window of the
body: the window survives with a legitimate tail. -/
theorem stripEnd_decomp (pre : List Char) (k : List Char)
    (e' : Char) (b2 : List Char) (he1 : kwChar e' = false)
    (he2 : e' ≠ '*') :
    ∃ tl, (stripEnd (pre ++ (k ++ e' :: b2))).2 = pre ++ (k ++ tl) ∧
      TailOk (stripEnd (pre ++ (k ++ e' :: b2))).1 tl := by
  cases b2 with
  | nil =>
    have hsplit : pre ++ (k ++ [e']) = (pre ++ k) ++ [e'] := by
      simp
    by_cases hbar : e' = '|'
    · subst hbar
      have hlast : (pre ++ (k ++ ['|'])).getLast? = some '|' := by
        rw [hsplit, List.getLast?_append_of_ne_nil _ (by simp)]
        rfl
      rw [stripEnd_eq_bar hlast]
      refine ⟨[], ?_, Or.inr ⟨rfl, rfl⟩⟩
      rw [hsplit, List.dropLast_append_of_ne_nil _ (by simp)]
      simp
    · have hlast : (pre ++ (k ++ [e'])).getLast? = some e' := by
        rw [hsplit, List.getLast?_append_of_ne_nil _ (by simp)]
        rfl
      rw [stripEnd_eq_other (fun c hc => by
        rw [hlast] at hc
        injection hc with hce
        rw [← hce]
        exact hbar)]
      exact ⟨[e'], rfl, Or.inl ⟨e', [], rfl, he1, he2⟩⟩
  | cons x b2' =>
    have hsplit : pre ++ (k ++ e' :: x :: b2') =
        (pre ++ (k ++ [e'])) ++ (x :: b2') := by
      simp
    by_cases hbar : (pre ++ (k ++ e' :: x :: b2')).getLast? = some '|'
    · rw [stripEnd_eq_bar hbar]
      refine ⟨e' :: (x :: b2').dropLast, ?_,
        Or.inl ⟨e', (x :: b2').dropLast, rfl, he1, he2⟩⟩
      rw [hsplit, List.dropLast_append_of_ne_nil _ (by simp)]
      simp
    · rw [stripEnd_eq_other (fun c hc => by
        intro hce
        rw [hce] at hc
        exact hbar hc)]
      exact ⟨e' :: x :: b2', rfl, Or.inl ⟨e', x :: b2', rfl, he1, he2⟩⟩

theorem isDelim_not_kw {c : Char} (h : isDelim c = true) :
    kwChar c = false := by
  simp only [isDelim, Bool.and_eq_true, Bool.not_eq_true'] at h
  exact h.1

theorem isDelim_ne_star {c : Char} (h : isDelim c = true) : c ≠ '*' := by
  simp only [isDelim, Bool.and_eq_true, decide_eq_true_eq] at h
  exact h.2

/-- Soundness of keyword-candidate extraction: every candidate is a
keyword run of length at least two bounded by delimiter characters on
both sides. -/
theorem kwCandidates_sound :
    ∀ n (p k : List Char), p.length ≤ n → k ∈ kwCandidates p →
      ∃ a d e' b2, p = a ++ d :: (k ++ e' :: b2) ∧ isDelim d = true ∧
        isDelim e' = true ∧ (∀ c ∈ k, kwChar c = true) ∧ 2 ≤ k.length := by
  intro n
  induction n with
  | zero =>
    intro p k hle hk
    have hp : p = [] := by
      cases p with
      | nil => rfl
      | cons c t => simp at hle
    subst hp
    simp [kwCandidates, kwCandidatesF] at hk
  | succ n ih =>
    intro p k hle hk
    cases p with
    | nil => simp [kwCandidates, kwCandidatesF] at hk
    | cons d rest =>
      rw [kwCandidates_cons] at hk
      by_cases hc : (isDelim d &&
          decide (2 ≤ (rest.takeWhile kwChar).length) &&
          (((rest.drop (rest.takeWhile kwChar).length).head?).map
            isDelim).getD false) = true
      · rw [if_pos hc] at hk
        simp only [Bool.and_eq_true, decide_eq_true_eq] at hc
        obtain ⟨⟨hd, hlen⟩, hafter⟩ := hc
        have hre : rest = rest.takeWhile kwChar ++
            rest.drop (rest.takeWhile kwChar).length := by
          rw [drop_takeWhile_length]
          exact (List.takeWhile_append_dropWhile ..).symm
        obtain ⟨e', he'⟩ : ∃ e',
            (rest.drop (rest.takeWhile kwChar).length).head? = some e' := by
          cases hh : (rest.drop (rest.takeWhile kwChar).length).head? with
          | none => rw [hh] at hafter; simp at hafter
          | some x => exact ⟨x, rfl⟩
        have he'd : isDelim e' = true := by
          rw [he'] at hafter
          simpa using hafter
        obtain ⟨b2, hb2⟩ : ∃ b2,
            rest.drop (rest.takeWhile kwChar).length = e' :: b2 := by
          cases hh : rest.drop (rest.takeWhile kwChar).length with
          | nil => rw [hh] at he'; simp at he'
          | cons y t =>
            rw [hh] at he'
            simp only [List.head?_cons, Option.some.injEq] at he'
            exact ⟨t, by rw [he']⟩
        rcases List.mem_cons.mp hk with hk1 | hk2
        · subst hk1
          refine ⟨[], d, e', b2, ?_, hd, he'd, ?_, hlen⟩
          · rw [List.nil_append]
            have hres : rest = rest.takeWhile kwChar ++ (e' :: b2) := by
              conv_lhs => rw [hre]
              rw [hb2]
            conv_lhs => rw [hres]
          · intro c hcm
            exact List.mem_takeWhile_imp hcm
        · have hlen2 : (rest.drop (rest.takeWhile kwChar).length).length ≤ n := by
            rw [List.length_drop]
            simp only [List.length_cons] at hle
            omega
          rcases ih _ k hlen2 hk2 with ⟨a, d2, e2, b3, hdec, hd2, he2, hall, hl2⟩
          refine ⟨d :: (rest.takeWhile kwChar ++ a), d2, e2, b3, ?_, hd2, he2,
            hall, hl2⟩
          rw [List.cons_append, List.cons.injEq]
          refine ⟨rfl, ?_⟩
          conv_lhs => rw [hre]
          rw [hdec]
          simp
      · rw [if_neg hc] at hk
        have hlenr : rest.length ≤ n := by
          simp only [List.length_cons] at hle
          omega
        rcases ih rest k hlenr hk with ⟨a, d2, e2, b3, hdec, hd2, he2, hall, hl2⟩
        exact ⟨d :: a, d2, e2, b3, by rw [hdec]; rfl, hd2, he2, hall, hl2⟩


theorem takeWhile_all_of_boundary {p : Char → Bool} :
    ∀ {xs ys : List Char}, (∀ c ∈ xs, p c = true) →
      (∀ c, ys.head? = some c → p c = false) →
      (xs ++ ys).takeWhile p = xs := by
  intro xs
  induction xs with
  | nil =>
    intro ys _ hb
    cases ys with
    | nil => rfl
    | cons y t =>
      simp only [List.nil_append]
      rw [List.takeWhile_cons_of_neg (by simp [hb y rfl])]
  | cons x xs' ih =>
    intro ys hall hb
    rw [List.cons_append, List.takeWhile_cons_of_pos (hall x (by simp)),
      ih (fun c hc => hall c (by simp [hc])) hb]

theorem takeWhile_append_of_proper {p : Char → Bool} :
    ∀ {xs : List Char} (ys : List Char), xs.takeWhile p ≠ xs →
      (xs ++ ys).takeWhile p = xs.takeWhile p := by
  intro xs
  induction xs with
  | nil =>
    intro ys h
    exact absurd rfl h
  | cons x xs' ih =>
    intro ys h
    by_cases hx : p x
    · rw [List.takeWhile_cons_of_pos hx] at h
      rw [List.cons_append, List.takeWhile_cons_of_pos hx,
        List.takeWhile_cons_of_pos hx]
      have h' : xs'.takeWhile p ≠ xs' := by
        intro he
        apply h
        rw [he]
      rw [ih ys h']
    · rw [List.cons_append, List.takeWhile_cons_of_neg hx,
        List.takeWhile_cons_of_neg hx]

theorem allRuns_cons (c : Char) (t : List Char) :
    allRuns (c :: t) =
      if kwChar c then
        (c :: t.takeWhile kwChar) ::
          allRuns (t.drop (t.takeWhile kwChar).length)
      else allRuns t := by
  rw [allRuns]
  simp only [List.length_cons, allRunsF]
  have hal : (t.drop (t.takeWhile kwChar).length).length ≤ t.length := by
    rw [List.length_drop]
    omega
  split
  all_goals first
    | (rw [allRuns]
       exact congrArg (List.cons _)
         (allRunsF_congr _ _ _ (by omega) (by omega)))
    | (rw [allRuns]
       exact allRunsF_congr _ _ _ (by omega) (by omega))
    | rfl

/-- Completeness of maximal-run extraction: a keyword run with
non-keyword boundaries on both sides is listed by `allRuns`. -/
theorem allRuns_complete :
    ∀ n (loc pfx k sfx : List Char), loc.length ≤ n →
      loc = pfx ++ k ++ sfx → k ≠ [] → (∀ c ∈ k, kwChar c = true) →
      LeftB pfx → RightB sfx → k ∈ allRuns loc := by
  intro n
  induction n with
  | zero =>
    intro loc pfx k sfx hle hdec hk hall hlb hrb
    have hl : loc = [] := by
      cases loc with
      | nil => rfl
      | cons c t => simp at hle
    subst hl
    rcases List.append_eq_nil.mp hdec.symm with ⟨h1, h2⟩
    rcases List.append_eq_nil.mp h1 with ⟨h3, h4⟩
    exact absurd h4 hk
  | succ n ih =>
    intro loc pfx k sfx hle hdec hk hall hlb hrb
    cases pfx with
    | nil =>
      rw [List.nil_append] at hdec
      cases k with
      | nil => exact absurd rfl hk
      | cons c k' =>
        subst hdec
        rw [List.cons_append, allRuns_cons]
        have hc : kwChar c = true := hall c (by simp)
        rw [if_pos hc]
        have htw : (k' ++ sfx).takeWhile kwChar = k' :=
          takeWhile_all_of_boundary (fun x hx => hall x (by simp [hx])) hrb
        rw [htw]
        exact List.mem_cons_self _ _
    | cons c pfx' =>
      subst hdec
      rw [show ((c :: pfx') ++ k) ++ sfx = c :: ((pfx' ++ k) ++ sfx) from by
        simp, allRuns_cons]
      by_cases hc : kwChar c = true
      · have hpne : pfx' ≠ [] := by
          intro he
          subst he
          have := hlb c (by simp)
          rw [this] at hc
          exact Bool.false_ne_true hc
        have hlb' : LeftB pfx' := by
          intro x hx
          apply hlb
          cases pfx' with
          | nil => exact absurd rfl hpne
          | cons q t => rw [List.getLast?_cons_cons]; exact hx
        have hproper : pfx'.takeWhile kwChar ≠ pfx' := by
          intro he
          obtain ⟨x, hx⟩ : ∃ x, pfx'.getLast? = some x := by
            cases hgl : pfx'.getLast? with
            | none => exact absurd (List.getLast?_eq_none_iff.mp hgl) hpne
            | some y => exact ⟨y, rfl⟩
          have hxk : kwChar x = true := by
            refine List.mem_takeWhile_imp (l := pfx') (p := kwChar) ?_
            rw [he]
            exact List.mem_of_mem_getLast? hx
          rw [hlb' x hx] at hxk
          exact Bool.false_ne_true hxk
        rw [if_pos hc]
        have htw : (((pfx' ++ k) ++ sfx).takeWhile kwChar) =
            pfx'.takeWhile kwChar := by
          rw [List.append_assoc]
          exact takeWhile_append_of_proper _ hproper
        rw [htw]
        refine List.mem_cons_of_mem _ ?_
        have hsplit : pfx' = pfx'.takeWhile kwChar ++
            pfx'.dropWhile kwChar := (List.takeWhile_append_dropWhile ..).symm
        have hdrop : (((pfx' ++ k) ++ sfx)).drop
            (pfx'.takeWhile kwChar).length =
            (pfx'.dropWhile kwChar ++ k) ++ sfx := by
          have hsplit2 : pfx'.takeWhile kwChar ++
              (pfx'.dropWhile kwChar ++ (k ++ sfx)) =
              pfx' ++ (k ++ sfx) := by
            rw [← List.append_assoc, List.takeWhile_append_dropWhile]
          conv_lhs => rw [List.append_assoc]
          conv_lhs => rw [← hsplit2]
          rw [List.drop_left]
          simp
        rw [hdrop]
        have hdne : pfx'.dropWhile kwChar ≠ [] := by
          intro he
          apply hproper
          conv_rhs => rw [hsplit]
          rw [he, List.append_nil]
        refine ih _ (pfx'.dropWhile kwChar) k sfx ?_ rfl hk hall ?_ hrb
        · have h1 : (pfx'.dropWhile kwChar).length ≤ pfx'.length := by
            rw [← drop_takeWhile_length kwChar pfx', List.length_drop]
            omega
          simp only [List.length_cons, List.length_append] at hle ⊢
          omega
        · intro x hx
          apply hlb'
          conv_lhs => rw [hsplit]
          rw [List.getLast?_append_of_ne_nil _ hdne]
          exact hx
      · rw [if_neg hc]
        have hlb' : LeftB pfx' := by
          intro x hx
          apply hlb
          cases pfx' with
          | nil => simp at hx
          | cons q t => rw [List.getLast?_cons_cons]; exact hx
        refine ih _ pfx' k sfx ?_ rfl hk hall hlb' hrb
        simp only [List.length_cons, List.length_append] at hle ⊢
        omega


/-- `stripEnd` commutes with lowercasing (the anchor `|` is a fixed
point of the case mapping). -/
theorem stripEnd_lower (b : List Char) :
    stripEnd (lower b) = ((stripEnd b).1, lower (stripEnd b).2) := by
  cases hgl : b.getLast? with
  | none =>
    have hb : b = [] := List.getLast?_eq_none_iff.mp hgl
    subst hb
    rfl
  | some c =>
    have hgl2 : (lower b).getLast? = some c.toLower := by
      rw [lower, List.getLast?_map, hgl]
      rfl
    by_cases hc : c = '|'
    · subst hc
      have hgl3 : (lower b).getLast? = some '|' := by
        rw [hgl2]
        rfl
      rw [stripEnd_eq_bar hgl, stripEnd_eq_bar hgl3]
      simp [lower, List.map_dropLast]
    · have h1 : ∀ x, b.getLast? = some x → x ≠ '|' := by
        intro x hx
        rw [hgl] at hx
        injection hx with hxc
        rw [← hxc]
        exact hc
      have h2 : ∀ x, (lower b).getLast? = some x → x ≠ '|' := by
        intro x hx
        rw [hgl2] at hx
        injection hx with hxc
        rw [← hxc]
        intro he
        exact hc (toLower_eq_bar.mp he)
      rw [stripEnd_eq_other h1, stripEnd_eq_other h2]

theorem leftB_append {x p : List Char} (hp : p ≠ []) (h : LeftB p) :
    LeftB (x ++ p) := by
  intro c hc
  rw [List.getLast?_append_of_ne_nil _ hp] at hc
  exact h c hc

/-- The domain-boundary prefix matched by the `||` anchor always ends
in a slash or a dot. -/
theorem extPreOk_last {pre : List Char} {next : Option Char}
    (h : extPreOk pre next = true) :
    pre.getLast? = some '/' ∨ pre.getLast? = some '.' := by
  unfold extPreOk at h
  rcases Bool.and_eq_true_iff.mp h with ⟨hw, hmatch⟩
  have hpre : pre.takeWhile wordChar ++
      pre.drop (pre.takeWhile wordChar).length = pre := by
    rw [drop_takeWhile_length, List.takeWhile_append_dropWhile]
  split at hmatch
  · rename_i r2 heq
    dsimp only at hmatch
    rcases Bool.and_eq_true_iff.mp hmatch with ⟨hsl, hd⟩
    have hr2 : r2.takeWhile (fun c => c = '/') ++
        r2.drop (r2.takeWhile (fun c => c = '/')).length = r2 := by
      rw [drop_takeWhile_length, List.takeWhile_append_dropWhile]
    have hplast : pre.getLast? = (':' :: r2).getLast? := by
      conv_lhs => rw [← hpre, heq]
      rw [List.getLast?_append_of_ne_nil _ (by simp)]
    split at hd
    · rename_i heq2
      left
      have hslne : r2.takeWhile (fun c => c = '/') ≠ [] := by
        intro he
        rw [he] at hsl
        simp at hsl
      have hr2' : r2 = r2.takeWhile (fun c => c = '/') := by
        conv_lhs => rw [← hr2]
        rw [heq2, List.append_nil]
      have hr2ne : r2 ≠ [] := by
        intro he
        apply hslne
        rw [← hr2', he]
      obtain ⟨x, hx⟩ : ∃ x, r2.getLast? = some x := by
        cases hgl : r2.getLast? with
        | none => exact absurd (List.getLast?_eq_none_iff.mp hgl) hr2ne
        | some y => exact ⟨y, rfl⟩
      have hxs : x = '/' := by
        have hmem : x ∈ r2 := List.mem_of_mem_getLast? hx
        rw [hr2'] at hmem
        simpa using List.mem_takeWhile_imp hmem
      subst hxs
      rw [hplast]
      cases r2 with
      | nil => exact absurd rfl hr2ne
      | cons y t =>
        rw [List.getLast?_cons_cons]
        exact hx
    · rename_i z d' heq2
      right
      rcases Bool.and_eq_true_iff.mp hd with ⟨hd1, _⟩
      rcases Bool.and_eq_true_iff.mp hd1 with ⟨hdot, _⟩
      have hdot' : (r2.drop
          (r2.takeWhile (fun c => c = '/')).length).getLast? = some '.' := by
        simpa using hdot
      rw [hplast]
      have hr2d : r2 = r2.takeWhile (fun c => c = '/') ++ (z :: d') := by
        conv_lhs => rw [← hr2]
        rw [heq2]
      have hr2ne : r2 ≠ [] := by
        intro he
        rw [he] at hr2d
        simp at hr2d
      cases hr2c : r2 with
      | nil => exact absurd hr2c hr2ne
      | cons y t =>
        rw [← hr2c, show (':' :: r2).getLast? = r2.getLast? from by
          rw [hr2c, List.getLast?_cons_cons]]
        rw [hr2d, List.getLast?_append_of_ne_nil _ (by simp)]
        rw [heq2] at hdot'
        exact hdot'
  · exact absurd hmatch (by simp)


theorem leftB_lower_slashdot {pre : List Char}
    (h : pre.getLast? = some '/' ∨ pre.getLast? = some '.') :
    LeftB (lower pre) := by
  intro c hc
  rw [lower, List.getLast?_map] at hc
  rcases h with h | h
  · rw [h] at hc
    injection hc with hc2
    rw [← hc2]
    decide
  · rw [h] at hc
    injection hc with hc2
    rw [← hc2]
    decide

/-- Keyword reachability: whenever a pattern matches a location, every
candidate keyword of the lowercased pattern occurs in the lowercased
location as a maximal keyword run of length at least two, and is
therefore among the location's candidate keywords. -/
theorem kwReach {p loc k : List Char}
    (hk : k ∈ kwCandidates (lower p)) (hm : patMatch p loc = true) :
    k ∈ urlCandidates (lower loc) := by
  rcases kwCandidates_sound ((lower p).length) (lower p) k le_rfl hk with
    ⟨a, d, e', b2, hdec, hd, he', hall, hlen⟩
  have hkne : k ≠ [] := by
    intro h
    rw [h] at hlen
    simp at hlen
  have hd1 : kwChar d = false := isDelim_not_kw hd
  have hd2 : d ≠ '*' := isDelim_ne_star hd
  have he1 : kwChar e' = false := isDelim_not_kw he'
  have he2 : e' ≠ '*' := isDelim_ne_star he'
  have hbar : Char.toLower '|' = '|' := by decide
  suffices hrun : ∃ pl sl, lower loc = (pl ++ k) ++ sl ∧ LeftB pl ∧
      RightB sl by
    rcases hrun with ⟨pl, sl, hldec, hlb, hrb⟩
    unfold urlCandidates
    refine List.mem_append.mpr (Or.inl ?_)
    rw [List.mem_filter]
    refine ⟨allRuns_complete ((lower loc).length) (lower loc) pl k sl le_rfl
      hldec hkne hall hlb hrb, by simpa using hlen⟩
  rw [patMatch.eq_def] at hm
  split at hm
  · -- the pattern opens with the extended anchor
    rename_i body0
    have hldec : ('|' : Char) :: '|' :: lower body0 =
        a ++ d :: (k ++ e' :: b2) := by
      simpa [lower, hbar] using hdec
    rcases (extScan_iff _ _ _).mp hm with ⟨pre, sfx, hps, hpok, hmf⟩
    have hpml : PM (stripEnd (lower body0)).1 (stripEnd (lower body0)).2
        (lower sfx) := by
      rw [stripEnd_lower]
      exact PM_lower (matchFrom_iff_PM.mp hmf)
    cases a with
    | nil =>
      rw [List.nil_append] at hldec
      injection hldec with h1 h2
      cases k with
      | nil => exact absurd rfl hkne
      | cons k0 k' =>
        rw [List.cons_append] at h2
        injection h2 with h3 h4
        have hkw := hall k0 (by simp)
        rw [← h3] at hkw
        exact absurd hkw (by decide)
    | cons a1 a' =>
      injection hldec with h1 h2
      cases a' with
      | nil =>
        injection h2 with h3 hb
        rcases stripEnd_decomp [] k e' b2 he1 he2 with ⟨tl, hcore, htail⟩
        simp only [List.nil_append] at hcore htail
        rw [hb, hcore] at hpml
        rcases PM_run_tail hall htail hpml with ⟨s2, hs2, hrb2⟩
        refine ⟨lower pre, s2, ?_, leftB_lower_slashdot (extPreOk_last hpok),
          hrb2⟩
        rw [hps, show lower (pre ++ sfx) = lower pre ++ lower sfx from by
          simp [lower], hs2]
        simp
      | cons a2 a'' =>
        injection h2 with h3 hb
        rcases stripEnd_decomp (a'' ++ [d]) k e' b2 he1 he2 with
          ⟨tl, hcore, htail⟩
        have hb' : lower body0 = (a'' ++ [d]) ++ (k ++ e' :: b2) := by
          rw [hb]
          simp
        rw [hb', hcore] at hpml
        have hpml2 : PM (stripEnd ((a'' ++ [d]) ++ (k ++ e' :: b2))).1
            (a'' ++ d :: (k ++ tl)) (lower sfx) := by
          rw [show a'' ++ d :: (k ++ tl) = (a'' ++ [d]) ++ (k ++ tl) from by
            simp]
          exact hpml
        rcases PM_window hpml2 hd1 hd2 hkne hall htail with
          ⟨pw, sw, hws, hpwne, hlbw, hrbw⟩
        refine ⟨lower pre ++ pw, sw, ?_, leftB_append hpwne hlbw, hrbw⟩
        rw [hps, show lower (pre ++ sfx) = lower pre ++ lower sfx from by
          simp [lower], hws]
        simp
  · -- the pattern opens with a single anchor bar
    rename_i body0 hnot
    have hldec : ('|' : Char) :: lower body0 =
        a ++ d :: (k ++ e' :: b2) := by
      simpa [lower, hbar] using hdec
    have hpml : PM (stripEnd (lower body0)).1 (stripEnd (lower body0)).2
        (lower loc) := by
      rw [stripEnd_lower]
      exact PM_lower (matchFrom_iff_PM.mp hm)
    cases a with
    | nil =>
      rw [List.nil_append] at hldec
      injection hldec with h1 hb
      rcases stripEnd_decomp [] k e' b2 he1 he2 with ⟨tl, hcore, htail⟩
      simp only [List.nil_append] at hcore htail
      rw [hb, hcore] at hpml
      rcases PM_run_tail hall htail hpml with ⟨s2, hs2, hrb2⟩
      exact ⟨[], s2, by simpa using hs2, leftB_nil, hrb2⟩
    | cons a1 a' =>
      injection hldec with h1 hb
      rcases stripEnd_decomp (a' ++ [d]) k e' b2 he1 he2 with
        ⟨tl, hcore, htail⟩
      have hb' : lower body0 = (a' ++ [d]) ++ (k ++ e' :: b2) := by
        rw [hb]
        simp
      rw [hb', hcore] at hpml
      have hpml2 : PM (stripEnd ((a' ++ [d]) ++ (k ++ e' :: b2))).1
          (a' ++ d :: (k ++ tl)) (lower loc) := by
        rw [show a' ++ d :: (k ++ tl) = (a' ++ [d]) ++ (k ++ tl) from by
          simp]
        exact hpml
      rcases PM_window hpml2 hd1 hd2 hkne hall htail with
        ⟨pw, sw, hws, hpwne, hlbw, hrbw⟩
      exact ⟨pw, sw, hws, hlbw, hrbw⟩
  · -- no leading anchor: the body may match anywhere
    rcases (scanFrom_iff _ _ _).mp hm with ⟨pfx, sfx, hps, hmf⟩
    have hpml : PM (stripEnd (lower p)).1 (stripEnd (lower p)).2
        (lower sfx) := by
      rw [stripEnd_lower]
      exact PM_lower (matchFrom_iff_PM.mp hmf)
    rcases stripEnd_decomp (a ++ [d]) k e' b2 he1 he2 with
      ⟨tl, hcore, htail⟩
    have hdec' : lower p = (a ++ [d]) ++ (k ++ e' :: b2) := by
      rw [hdec]
      simp
    rw [hdec', hcore] at hpml
    have hpml2 : PM (stripEnd ((a ++ [d]) ++ (k ++ e' :: b2))).1
        (a ++ d :: (k ++ tl)) (lower sfx) := by
      rw [show a ++ d :: (k ++ tl) = (a ++ [d]) ++ (k ++ tl) from by simp]
      exact hpml
    rcases PM_window hpml2 hd1 hd2 hkne hall htail with
      ⟨pw, sw, hws, hpwne, hlbw, hrbw⟩
    refine ⟨lower pfx ++ pw, sw, ?_, leftB_append hpwne hlbw, hrbw⟩
    rw [hps, show lower (pfx ++ sfx) = lower pfx ++ lower sfx from by
      simp [lower], hws]
    simp


/-! ## Content types (`contentTypes.js` is not in the source tree:
modelled from the spec) -/

/-- Modelled from the spec: the union of all resource-type bits (the
low 24 bits of the mask space). -/
def RESOURCE_TYPES : Nat := 2 ^ 24 - 1

/-- Modelled from the spec: the non-resource (special) type bits. -/
def POPUP_TYPE : Nat := 2 ^ 24

def CSP_TYPE : Nat := 2 ^ 25

def DOCUMENT_TYPE : Nat := 2 ^ 26

def GENERICBLOCK_TYPE : Nat := 2 ^ 27

def ELEMHIDE_TYPE : Nat := 2 ^ 28

def GENERICHIDE_TYPE : Nat := 2 ^ 29

/-- Modelled from the spec: the union of the special type bits. -/
def SPECIAL_TYPES : Nat :=
  POPUP_TYPE + CSP_TYPE + DOCUMENT_TYPE + GENERICBLOCK_TYPE +
    ELEMHIDE_TYPE + GENERICHIDE_TYPE

/-- Modelled from the spec: the special bits that apply only to
whitelist rules. -/
def WHITELISTING_TYPES : Nat :=
  DOCUMENT_TYPE + GENERICBLOCK_TYPE + ELEMHIDE_TYPE + GENERICHIDE_TYPE

/-- A single resource-type bit used by concrete examples. -/
def SCRIPT_TYPE : Nat := 4

/-! ## URL requests and domain suffixes (`url.js` is not in the source
tree: modelled from the spec) -/

/-- Modelled from the spec: a URL request as consumed by the matcher;
`thirdParty` and the document hostname are taken as given. -/
structure Request where
  href : Str
  documentHostname : Option Str
  thirdParty : Bool
deriving DecidableEq

/-- `request.lowerCaseHref`. -/
def Request.lowerCaseHref (r : Request) : Str := lower r.href

/-- Drop everything up to and including the first dot. -/
def dropThroughDot (d : Str) : Str :=
  d.drop ((d.takeWhile (fun c => c ≠ '.')).length + 1)

theorem dropThroughDot_lt (c : Char) (t : List Char) :
    (dropThroughDot (c :: t)).length < (c :: t).length := by
  rw [dropThroughDot, List.length_drop]
  simp only [List.length_cons]
  omega

def suffixChainF : Nat → Str → List Str
  | 0, _ => []
  | _ + 1, [] => []
  | n + 1, c :: t =>
    (c :: t) ::
      suffixChainF n (if '.' ∈ c :: t then dropThroughDot (c :: t) else [])

/-- Modelled from the spec: the proper suffix chain of a domain —
yield the domain, then repeatedly drop through the first dot, stopping
at the empty string. -/
def suffixChain (d : Str) : List Str :=
  suffixChainF (d.length + 1) d

theorem suffixChainF_congr :
    ∀ n m (d : Str), d.length < n → d.length < m →
      suffixChainF n d = suffixChainF m d := by
  intro n
  induction n with
  | zero =>
    intro m d hn
    omega
  | succ n ih =>
    intro m d hn hm
    cases m with
    | zero => omega
    | succ m =>
      cases d with
      | nil => rfl
      | cons c t =>
        simp only [suffixChainF, List.cons.injEq, true_and]
        simp only [List.length_cons] at hn hm
        have h1 := dropThroughDot_lt c t
        simp only [List.length_cons] at h1
        split
        · exact ih m (dropThroughDot (c :: t)) (by omega) (by omega)
        · exact ih m []
            (by simp only [List.length_nil]; omega)
            (by simp only [List.length_nil]; omega)

theorem suffixChain_cons (c : Char) (t : Str) :
    suffixChain (c :: t) =
      (c :: t) ::
        suffixChain (if '.' ∈ c :: t then dropThroughDot (c :: t) else []) := by
  rw [suffixChain]
  simp only [List.length_cons, suffixChainF, List.cons.injEq, true_and]
  have h1 := dropThroughDot_lt c t
  simp only [List.length_cons] at h1
  split
  all_goals first
    | (rw [suffixChain]
       exact suffixChainF_congr _ _ _ (by omega) (by omega))
    | (rw [suffixChain]
       exact suffixChainF_congr _ _ _ (by simp) (by omega))
    | rfl

/-- Modelled from the spec: `domainSuffixes(domain, includeBlank)`. -/
def domainSuffixes (domain : Str) (includeBlank : Bool) : List Str :=
  suffixChain domain ++ (if includeBlank then [[]] else [])

/-! ## URL filters (`filterClasses.js`, `src/unnamed/part_005`)

The engine's regular-expression-literal filters (`/…/`) depend on full
JavaScript regular expression semantics and are outside this model;
`mkURLFilter` returns `none` for them.  The `domains` and `sitekeys`
fields hold the parsed values (the source parses them lazily from the
option strings; the parse is deterministic, so a filter value
determines them). -/

structure Filter where
  text : String
  isWhitelist : Bool
  contentType : Nat
  matchCase : Bool
  thirdParty : Option Bool
  domains : Option (List (Str × Bool))
  sitekeys : Option (List String)
  pattern : Str
deriving DecidableEq

/-- JavaScript string falsiness of an optional sitekey. -/
def skFalsy : Option String → Bool
  | none => true
  | some s => s = ""

/-- `String.prototype.toUpperCase` restricted to basic latin. -/
def upperStr (s : String) : String := String.map Char.toUpper s

/-- The suffix-walk loop of `ActiveFilter.prototype.isActiveOnDomain`:
the first domain suffix present in the map decides; otherwise the
empty-domain entry does. -/
def domWalk (doms : List (Str × Bool)) : List Str → Bool
  | [] => (OMap.get doms []).getD false
  | s :: rest =>
    match OMap.get doms s with
    | some b => b
    | none => domWalk doms rest

/-- `ActiveFilter.prototype.isActiveOnDomain`. -/
def Filter.isActiveOnDomain (f : Filter) (docDomain : Option Str)
    (sitekey : Option String) : Bool :=
  if (match f.sitekeys with
      | some sks =>
        skFalsy sitekey || !(sks.contains (upperStr (sitekey.getD "")))
      | none => false) then
    false
  else
    match f.domains with
    | none => true
    | some doms =>
      let dd := match docDomain with
        | none => []
        | some d => if d.getLast? = some '.' then d.dropLast else d
      if dd = [] then (OMap.get doms []).getD false
      else domWalk doms (domainSuffixes dd false)

/-- `ActiveFilter.prototype.isGeneric`. -/
def Filter.isGeneric (f : Filter) : Bool :=
  (match f.sitekeys with
   | some (_ :: _) => false
   | _ => true) &&
  (match f.domains with
   | none => true
   | some doms => (OMap.get doms []).getD false)

/-- `URLFilter.prototype._matchesLocation` (for filters with a
pattern; the derived regular expression's behavior is `patMatch`, the
literal fast path is `litMatch`). -/
def Filter.matchesLocation (f : Filter) (req : Request) : Bool :=
  let location := if f.matchCase then req.href else req.lowerCaseHref
  if isLiteralPattern f.pattern then litMatch f.pattern location
  else patMatch f.pattern location

/-- `URLFilter.prototype.matches`. -/
def Filter.matches (f : Filter) (req : Request) (typeMask : Nat)
    (sitekey : Option String) : Bool :=
  ((f.contentType &&& typeMask) ≠ 0) &&
  (match f.thirdParty with
   | none => true
   | some b => b == req.thirdParty) &&
  f.matchesLocation req &&
  f.isActiveOnDomain req.documentHostname sitekey

/-- `/^\*+/` stripping. -/
def stripLeadStars (p : Str) : Str := p.dropWhile (fun c => c = '*')

/-- The constructor's `replace(/^\*+/, "").replace(/\*+$/, "")`. -/
def stripStars (p : Str) : Str :=
  ((stripLeadStars p).reverse.dropWhile (fun c => c = '*')).reverse

/-- A regular-expression-literal source: `/…/`. -/
def isRegexLiteralSource (s : Str) : Bool :=
  2 ≤ s.length && s.head? = some '/' && s.getLast? = some '/'

/-- The `URLFilter` constructor for pattern sources: lowercase the
source unless `matchCase`, refuse regular-expression literals, strip
leading and trailing wildcards, store the rest as the pattern. -/
def mkURLFilter (text : String) (regexpSource : Str)
    (contentType : Option Nat) (matchCase : Option Bool)
    (domains : Option (List (Str × Bool))) (thirdParty : Option Bool)
    (sitekeys : Option (List String)) (isWhitelist : Bool) :
    Option Filter :=
  let mc := matchCase.getD false
  let src := if mc then regexpSource else lower regexpSource
  if isRegexLiteralSource src then none
  else some
    { text := text
      isWhitelist := isWhitelist
      contentType := contentType.getD RESOURCE_TYPES
      matchCase := mc
      thirdParty := thirdParty
      domains := domains
      sitekeys := sitekeys
      pattern := stripStars src }


/-! ## The matcher of `src/unnamed/part_002`

Besides the two core maps `_keywordByFilter` and
`_filterCountByKeyword`, the source keeps four derived lookup tables
that are cleared on every mutation and rebuilt deterministically from
the core on demand.  The model therefore carries the core maps as
state and computes each query's view of the derived tables as a pure
function of the core; observable behavior is unchanged.  The source's
`_keywordByFilter` maps a filter's text to its keyword and recovers
the filter from the text with `Filter.fromText`; since the text
determines the filter, the model stores the filter value alongside.
The `rxOk` parameter models the `try`/`catch` around the construction
of the two alternation regular expressions in `compilePatterns` (a
failure yields `null`). -/

def isBadKeyword (k : Str) : Bool :=
  k = "https".toList || k = "http".toList || k = "com".toList ||
    k = "js".toList

/-- The candidate loop of `Matcher.prototype.findKeyword`. -/
def findKeywordLoop (counts : List (Str × Nat)) :
    List Str → Str → Nat → Nat → Str
  | [], result, _, _ => result
  | c :: rest, result, rc, rl =>
    if isBadKeyword c then findKeywordLoop counts rest result rc rl
    else
      let count := (OMap.get counts c).getD 0
      if count < rc || (count = rc && rl < c.length) then
        findKeywordLoop counts rest c count c.length
      else
        findKeywordLoop counts rest result rc rl

/-- `Matcher.prototype.findKeyword`: the rarest (then longest) non-bad
candidate keyword of the lowercased pattern. -/
def findKeyword (counts : List (Str × Nat)) (pat : Str) : Str :=
  findKeywordLoop counts (kwCandidates (lower pat)) [] 0xFFFFFF 0

/-- A `FiltersForKeyword` bucket: a single filter or an array. -/
inductive FK where
  | one : Filter → FK
  | many : List Filter → FK
deriving DecidableEq

def FK.toList : FK → List Filter
  | .one f => [f]
  | .many l => l

/-- `addFilterByKeyword`. -/
def addFK (f : Filter) (kw : Str) (m : List (Str × FK)) :
    List (Str × FK) :=
  match OMap.get m kw with
  | none => OMap.set m kw (FK.one f)
  | some (FK.one g) => OMap.set m kw (FK.many [g, f])
  | some (FK.many l) => OMap.set m kw (FK.many (l ++ [f]))

/-- The derived `_filtersByKeyword` table, rebuilt from
`_keywordByFilter` in insertion order. -/
def filtersByKeyword (core : List (Filter × Str)) : List (Str × FK) :=
  core.foldl (fun acc p => addFK p.1 p.2 acc) []

/-- The compiled alternation patterns for a keyword bucket: the
branches of the case-sensitive and case-insensitive regular
expressions. -/
structure CompiledPatterns where
  caseSensitive : List Str
  caseInsensitive : List Str
deriving DecidableEq

/-- `CompiledPatterns.prototype.test`. -/
def CompiledPatterns.test (cp : CompiledPatterns) (req : Request) :
    Bool :=
  cp.caseSensitive.any (fun p => patMatch p req.href) ||
    cp.caseInsensitive.any (fun p => patMatch p req.lowerCaseHref)

/-- `compilePatterns`: refuses more than `COMPILE_PATTERNS_MAX` (100)
filters, and returns `null` when a regular expression fails to build
(`rxOk = false`). -/
def compilePatterns (rxOk : Bool) (filters : List Filter) :
    Option CompiledPatterns :=
  if 100 < filters.length then none
  else if !rxOk then none
  else some
    { caseSensitive :=
        (filters.filter (fun f => f.matchCase)).map Filter.pattern
      caseInsensitive :=
        (filters.filter (fun f => !f.matchCase)).map Filter.pattern }

/-- The first filter in the list that passes the specific-only gate
and matches (`matchFilter` without a collection). -/
def firstMatch (req : Request) (typeMask : Nat) (sitekey : Option String)
    (specificOnly : Bool) : List Filter → Option Filter
  | [] => none
  | f :: rest =>
    if specificOnly && f.isGeneric then
      firstMatch req typeMask sitekey specificOnly rest
    else if f.matches req typeMask sitekey then some f
    else firstMatch req typeMask sitekey specificOnly rest

/-- All filters in the list that pass the specific-only gate and match
(`matchFilter` with a collection). -/
def allMatches (req : Request) (typeMask : Nat) (sitekey : Option String)
    (specificOnly : Bool) (l : List Filter) : List Filter :=
  l.filter (fun f =>
    !(specificOnly && f.isGeneric) && f.matches req typeMask sitekey)

/-- `Matcher.prototype._checkEntryMatchForType` (first match). -/
def cemForType (core : List (Filter × Str)) (kw : Str) (req : Request)
    (typeMask : Nat) (sitekey : Option String) (specificOnly : Bool) :
    Option Filter :=
  match OMap.get (filtersByKeyword core) kw with
  | none => none
  | some fk =>
    firstMatch req typeMask sitekey specificOnly
      (fk.toList.filter (fun f => (f.contentType &&& typeMask) ≠ 0))

/-- `Matcher.prototype._checkEntryMatchForType` (collection). -/
def cemForTypeAll (core : List (Filter × Str)) (kw : Str) (req : Request)
    (typeMask : Nat) (sitekey : Option String) (specificOnly : Bool) :
    List Filter :=
  match OMap.get (filtersByKeyword core) kw with
  | none => []
  | some fk =>
    allMatches req typeMask sitekey specificOnly
      (fk.toList.filter (fun f => (f.contentType &&& typeMask) ≠ 0))

/-- The `FiltersByDomain` index of a keyword bucket. -/
def buildFBD (fk : FK) : FBD Filter :=
  fk.toList.foldl (fun acc f => acc.add f f.domains) FBD.empty

def entryPairs : Entry Filter → List (Filter × Bool)
  | .single f => [(f, true)]
  | .fmap l => l

/-- The inner loop of `_checkEntryMatchByDomain` over one domain
entry, threading the excluded set (first match). -/
def walkEntry (req : Request) (typeMask : Nat) (sitekey : Option String) :
    List (Filter × Bool) → List Filter → Option Filter × List Filter
  | [], excluded => (none, excluded)
  | (f, inc) :: rest, excluded =>
    if !inc then walkEntry req typeMask sitekey rest (f :: excluded)
    else if excluded.contains f then
      walkEntry req typeMask sitekey rest excluded
    else if f.matches req typeMask sitekey then (some f, excluded)
    else walkEntry req typeMask sitekey rest excluded

/-- The suffix loop of `_checkEntryMatchByDomain` (first match). -/
def walkSuffixes (fbd : FBD Filter) (req : Request) (typeMask : Nat)
    (sitekey : Option String) : List Str → List Filter → Option Filter
  | [], _ => none
  | s :: rest, excluded =>
    match fbd.get s with
    | none => walkSuffixes fbd req typeMask sitekey rest excluded
    | some e =>
      match walkEntry req typeMask sitekey (entryPairs e) excluded with
      | (some f, _) => some f
      | (none, excluded2) =>
        walkSuffixes fbd req typeMask sitekey rest excluded2

/-- The inner loop over one domain entry (collection). -/
def walkEntryAll (req : Request) (typeMask : Nat)
    (sitekey : Option String) :
    List (Filter × Bool) → List Filter → List Filter × List Filter
  | [], excluded => ([], excluded)
  | (f, inc) :: rest, excluded =>
    if !inc then walkEntryAll req typeMask sitekey rest (f :: excluded)
    else if excluded.contains f then
      walkEntryAll req typeMask sitekey rest excluded
    else if f.matches req typeMask sitekey then
      let r := walkEntryAll req typeMask sitekey rest excluded
      (f :: r.1, r.2)
    else walkEntryAll req typeMask sitekey rest excluded

/-- The suffix loop of `_checkEntryMatchByDomain` (collection). -/
def walkSuffixesAll (fbd : FBD Filter) (req : Request) (typeMask : Nat)
    (sitekey : Option String) : List Str → List Filter → List Filter
  | [], _ => []
  | s :: rest, excluded =>
    match fbd.get s with
    | none => walkSuffixesAll fbd req typeMask sitekey rest excluded
    | some e =>
      let r := walkEntryAll req typeMask sitekey (entryPairs e) excluded
      r.1 ++ walkSuffixesAll fbd req typeMask sitekey rest r.2

/-- The `CompiledPatterns` pre-check of `_checkEntryMatchByDomain`:
applied only to array buckets of at most 100 filters; a missing
compiled object disables it. -/
def preCheck (rxOk : Bool) (fk : FK) (req : Request) : Bool :=
  match fk with
  | FK.one _ => true
  | FK.many l =>
    if l.length ≤ 100 then
      match compilePatterns rxOk l with
      | some cp => cp.test req
      | none => true
    else true

/-- `Matcher.prototype._checkEntryMatchByDomain` (first match). -/
def cemByDomain (rxOk : Bool) (core : List (Filter × Str)) (kw : Str)
    (req : Request) (typeMask : Nat) (sitekey : Option String)
    (specificOnly : Bool) : Option Filter :=
  match OMap.get (filtersByKeyword core) kw with
  | none => none
  | some fk =>
    if !preCheck rxOk fk req then none
    else
      walkSuffixes (buildFBD fk) req typeMask sitekey
        (domainSuffixes ((req.documentHostname).getD []) (!specificOnly)) []

/-- `Matcher.prototype._checkEntryMatchByDomain` (collection). -/
def cemByDomainAll (rxOk : Bool) (core : List (Filter × Str)) (kw : Str)
    (req : Request) (typeMask : Nat) (sitekey : Option String)
    (specificOnly : Bool) : List Filter :=
  match OMap.get (filtersByKeyword core) kw with
  | none => []
  | some fk =>
    if !preCheck rxOk fk req then []
    else
      walkSuffixesAll (buildFBD fk) req typeMask sitekey
        (domainSuffixes ((req.documentHostname).getD []) (!specificOnly)) []

/-- `Matcher.prototype.checkEntryMatch` (first match): dispatch to the
type-specific path for a single special type, else the by-domain
path. -/
def checkEntryMatch (rxOk : Bool) (core : List (Filter × Str)) (kw : Str)
    (req : Request) (typeMask : Nat) (sitekey : Option String)
    (specificOnly : Bool) : Option Filter :=
  if (typeMask &&& SPECIAL_TYPES) ≠ 0 && (typeMask &&& (typeMask - 1)) = 0
  then cemForType core kw req typeMask sitekey specificOnly
  else cemByDomain rxOk core kw req typeMask sitekey specificOnly

/-- `Matcher.prototype.checkEntryMatch` (collection). -/
def checkEntryMatchAll (rxOk : Bool) (core : List (Filter × Str))
    (kw : Str) (req : Request) (typeMask : Nat) (sitekey : Option String)
    (specificOnly : Bool) : List Filter :=
  if (typeMask &&& SPECIAL_TYPES) ≠ 0 && (typeMask &&& (typeMask - 1)) = 0
  then cemForTypeAll core kw req typeMask sitekey specificOnly
  else cemByDomainAll rxOk core kw req typeMask sitekey specificOnly

/-- The candidate loop of `Matcher.prototype.match`. -/
def matchLoop (rxOk : Bool) (core : List (Filter × Str)) (req : Request)
    (typeMask : Nat) (sitekey : Option String) (specificOnly : Bool) :
    List Str → Option Filter
  | [] => none
  | c :: rest =>
    if isBadKeyword c then
      matchLoop rxOk core req typeMask sitekey specificOnly rest
    else
      match checkEntryMatch rxOk core c req typeMask sitekey specificOnly
      with
      | some f => some f
      | none => matchLoop rxOk core req typeMask sitekey specificOnly rest

/-- The candidate loop of a search over one matcher. -/
def searchLoop (rxOk : Bool) (core : List (Filter × Str)) (req : Request)
    (typeMask : Nat) (sitekey : Option String) (specificOnly : Bool) :
    List Str → List Filter
  | [] => []
  | c :: rest =>
    if isBadKeyword c then
      searchLoop rxOk core req typeMask sitekey specificOnly rest
    else
      checkEntryMatchAll rxOk core c req typeMask sitekey specificOnly ++
        searchLoop rxOk core req typeMask sitekey specificOnly rest

/-- The matcher state: the two core maps. -/
structure Matcher2 where
  keywordByFilter : List (Filter × Str)
  filterCountByKeyword : List (Str × Nat)
deriving DecidableEq

namespace Matcher2

def empty : Matcher2 := ⟨[], []⟩

def getKw : List (Filter × Str) → String → Option Str
  | [], _ => none
  | (f, kw) :: rest, text =>
    if f.text = text then some kw else getKw rest text

def delText : List (Filter × Str) → String → List (Filter × Str)
  | [], _ => []
  | (f, kw) :: rest, text =>
    if f.text = text then rest else (f, kw) :: delText rest text

/-- `Matcher.prototype.has`. -/
def has (m : Matcher2) (f : Filter) : Bool :=
  (getKw m.keywordByFilter f.text).isSome

/-- `Matcher.prototype.add`. -/
def add (m : Matcher2) (f : Filter) : Matcher2 :=
  if (getKw m.keywordByFilter f.text).isSome then m
  else
    let kw := findKeyword m.filterCountByKeyword f.pattern
    { keywordByFilter := m.keywordByFilter ++ [(f, kw)]
      filterCountByKeyword :=
        OMap.set m.filterCountByKeyword kw
          (((OMap.get m.filterCountByKeyword kw).getD 0) + 1) }

/-- `Matcher.prototype.remove`. -/
def remove (m : Matcher2) (f : Filter) : Matcher2 :=
  match getKw m.keywordByFilter f.text with
  | none => m
  | some kw =>
    { keywordByFilter := delText m.keywordByFilter f.text
      filterCountByKeyword :=
        match OMap.get m.filterCountByKeyword kw with
        | some c =>
          if 1 < c then OMap.set m.filterCountByKeyword kw (c - 1)
          else OMap.del m.filterCountByKeyword kw
        | none => OMap.del m.filterCountByKeyword kw }

/-- `Matcher.prototype.clear`. -/
def clear (_ : Matcher2) : Matcher2 := empty

/-- `Matcher.prototype.match` (`matchesAny`). -/
def matchQ (m : Matcher2) (rxOk : Bool) (req : Request) (typeMask : Nat)
    (sitekey : Option String) (specificOnly : Bool) : Option Filter :=
  matchLoop rxOk m.keywordByFilter req typeMask sitekey specificOnly
    (urlCandidates req.lowerCaseHref)

/-- A search over one matcher (the per-matcher part of
`CombinedMatcher.prototype._searchInternal`). -/
def searchQ (m : Matcher2) (rxOk : Bool) (req : Request) (typeMask : Nat)
    (sitekey : Option String) (specificOnly : Bool) : List Filter :=
  searchLoop rxOk m.keywordByFilter req typeMask sitekey specificOnly
    (urlCandidates req.lowerCaseHref)

end Matcher2


/-! ## `CombinedMatcher` (`src/unnamed/part_002`)

The source keys the result cache by a string concatenation of
`url.href`, `typeMask`, `docDomain`, `sitekey` and `specificOnly`
(plus a sentinel and the filter type for `search`).  In the source the
document hostname and the third-party flag are derived from the URL
and `docDomain`, so that tuple determines the request; the model keys
the caches on the structured tuple directly and keeps match and search
results in separate tables (the sentinel segregates the two key
spaces).  `caching.js` is not in the source tree; per the spec the
cache is capacity-bounded (10 000) and flushed wholesale on every
`add`/`remove`/`clear`; eviction only forgets entries and never
affects result correctness, so the model omits it. -/

/-- The bits of the 32-bit mask space outside `WHITELISTING_TYPES`
(the source computes `~WHITELISTING_TYPES` on 32-bit integers). -/
def NON_WHITELISTING_MASK : Nat := 2 ^ 32 - 1 - WHITELISTING_TYPES

structure CombinedM where
  blocking : Matcher2
  whitelist : Matcher2
  matchCache :
    List ((Request × Nat × Option String × Bool) × Option Filter)
  searchCache :
    List ((Request × Nat × Option String × Bool × String) ×
      (Option (List Filter) × Option (List Filter)))

namespace CombinedM

def empty : CombinedM := ⟨Matcher2.empty, Matcher2.empty, [], []⟩

/-- `CombinedMatcher.prototype.add`. -/
def add (m : CombinedM) (f : Filter) : CombinedM :=
  if f.isWhitelist then
    { m with whitelist := m.whitelist.add f, matchCache := [],
             searchCache := [] }
  else
    { m with blocking := m.blocking.add f, matchCache := [],
             searchCache := [] }

/-- `CombinedMatcher.prototype.remove`. -/
def remove (m : CombinedM) (f : Filter) : CombinedM :=
  if f.isWhitelist then
    { m with whitelist := m.whitelist.remove f, matchCache := [],
             searchCache := [] }
  else
    { m with blocking := m.blocking.remove f, matchCache := [],
             searchCache := [] }

/-- `CombinedMatcher.prototype.clear`. -/
def clear (_ : CombinedM) : CombinedM := empty

/-- `CombinedMatcher.prototype.has`. -/
def has (m : CombinedM) (f : Filter) : Bool :=
  if f.isWhitelist then m.whitelist.has f else m.blocking.has f

/-- `CombinedMatcher.prototype._matchInternal`: the blocking scan runs
only when the type mask has non-whitelisting bits; the whitelist scan
runs when a blocking hit was found or the mask has whitelisting bits,
and always passes `specificOnly = false`; the result is
`whitelistHit || blockingHit`. -/
def matchInternal (m : CombinedM) (rxOk : Bool) (req : Request)
    (typeMask : Nat) (sitekey : Option String) (specificOnly : Bool) :
    Option Filter :=
  let blockingHit :=
    if (typeMask &&& NON_WHITELISTING_MASK) ≠ 0 then
      m.blocking.matchQ rxOk req typeMask sitekey specificOnly
    else none
  let whitelistHit :=
    if blockingHit.isSome || (typeMask &&& WHITELISTING_TYPES) ≠ 0 then
      m.whitelist.matchQ rxOk req typeMask sitekey false
    else none
  match whitelistHit with
  | some w => some w
  | none => blockingHit

/-- `CombinedMatcher.prototype.match`: consult the result cache, else
compute `_matchInternal` and cache it. -/
def matchC (m : CombinedM) (rxOk : Bool) (req : Request) (typeMask : Nat)
    (sitekey : Option String) (specificOnly : Bool) :
    Option Filter × CombinedM :=
  let key := (req, typeMask, sitekey, specificOnly)
  match OMap.get m.matchCache key with
  | some r => (r, m)
  | none =>
    let r := matchInternal m rxOk req typeMask sitekey specificOnly
    (r, { m with matchCache := OMap.set m.matchCache key r })

/-- `CombinedMatcher.prototype._searchInternal`: the blocking list is
collected with the caller's `specificOnly`, the whitelist list always
with `specificOnly = false`; the blocking scan is skipped when the
mask has only whitelisting bits. -/
def searchInternal (m : CombinedM) (rxOk : Bool) (req : Request)
    (typeMask : Nat) (sitekey : Option String) (specificOnly : Bool)
    (fType : String) : Option (List Filter) × Option (List Filter) :=
  let blockingHits :=
    if fType = "blocking" || fType = "all" then
      some (if (typeMask &&& NON_WHITELISTING_MASK) ≠ 0 then
        m.blocking.searchQ rxOk req typeMask sitekey specificOnly
      else [])
    else none
  let whitelistHits :=
    if fType = "whitelist" || fType = "all" then
      some (m.whitelist.searchQ rxOk req typeMask sitekey false)
    else none
  (blockingHits, whitelistHits)

/-- `CombinedMatcher.prototype.search` with its cache. -/
def searchC (m : CombinedM) (rxOk : Bool) (req : Request) (typeMask : Nat)
    (sitekey : Option String) (specificOnly : Bool) (fType : String) :
    (Option (List Filter) × Option (List Filter)) × CombinedM :=
  let key := (req, typeMask, sitekey, specificOnly, fType)
  match OMap.get m.searchCache key with
  | some r => (r, m)
  | none =>
    let r := searchInternal m rxOk req typeMask sitekey specificOnly fType
    (r, { m with searchCache := OMap.set m.searchCache key r })

end CombinedM



/-! ## Star stripping (C9) -/

theorem dropWhile_getLast?_of_ne_nil {q : Char → Bool} {l : List Char}
    (h : l.dropWhile q ≠ []) : (l.dropWhile q).getLast? = l.getLast? := by
  conv_rhs => rw [← List.takeWhile_append_dropWhile (p := q) (l := l)]
  rw [List.getLast?_append_of_ne_nil _ h]

theorem stripLeadStars_head {p : Str} {c : Char}
    (h : (stripLeadStars p).head? = some c) : c ≠ '*' := by
  have := head_dropWhile_false (p := fun c => c = '*') h
  simpa using this

/-- The stored pattern never starts with a wildcard. -/
theorem stripStars_head {p : Str} {c : Char}
    (h : (stripStars p).head? = some c) : c ≠ '*' := by
  rw [stripStars, List.head?_reverse] at h
  have hne : (stripLeadStars p).reverse.dropWhile (fun c => c = '*') ≠
      [] := by
    intro he
    rw [he] at h
    simp at h
  rw [dropWhile_getLast?_of_ne_nil hne, List.getLast?_reverse] at h
  exact stripLeadStars_head h

/-- The stored pattern never ends with a wildcard. -/
theorem stripStars_getLast {p : Str} {c : Char}
    (h : (stripStars p).getLast? = some c) : c ≠ '*' := by
  rw [stripStars, List.getLast?_reverse] at h
  have := head_dropWhile_false (p := fun c => c = '*') h
  simpa using this

theorem dropWhile_idem (q : Char → Bool) (l : List Char) :
    (l.dropWhile q).dropWhile q = l.dropWhile q := by
  induction l with
  | nil => rfl
  | cons c t ih =>
    rw [List.dropWhile_cons]
    by_cases hc : q c
    · rw [if_pos hc]
      exact ih
    · rw [if_neg hc, List.dropWhile_cons, if_neg hc]

theorem stripLeadStars_idem (p : Str) :
    stripLeadStars (stripLeadStars p) = stripLeadStars p :=
  dropWhile_idem ..

theorem stripLeadStars_stripStars (p : Str) :
    stripLeadStars (stripStars p) = stripStars p := by
  rw [stripStars]
  cases hh : ((stripLeadStars p).reverse.dropWhile
      (fun c => c = '*')).reverse with
  | nil => rfl
  | cons c t =>
    rw [stripLeadStars, List.dropWhile_cons, if_neg]
    have hc : c ≠ '*' := by
      apply stripStars_head (p := p)
      rw [stripStars, hh]
      rfl
    simpa using hc

/-- Stripping is idempotent. -/
theorem stripStars_idem (p : Str) :
    stripStars (stripStars p) = stripStars p := by
  rw [stripStars, stripLeadStars_stripStars]
  cases hh : (stripStars p).reverse with
  | nil =>
    have h0 : stripStars p = [] := List.reverse_eq_nil_iff.mp hh
    rw [h0]
    rfl
  | cons c t =>
    have hc : c ≠ '*' := by
      apply stripStars_getLast (p := p)
      rw [← List.head?_reverse, hh]
      rfl
    rw [List.dropWhile_cons, if_neg (by simpa using hc), ← hh]
    simp

theorem dropWhile_map_lower_star (l : List Char) :
    (lower l).dropWhile (fun c => c = '*') =
      lower (l.dropWhile (fun c => c = '*')) := by
  induction l with
  | nil => rfl
  | cons c t ih =>
    simp only [lower, List.map_cons, List.dropWhile_cons]
    by_cases hc : c = '*'
    · subst hc
      rw [if_pos (by decide), if_pos (by simp)]
      exact ih
    · rw [if_neg (by simpa using fun he => hc (toLower_eq_star.mp he)),
        if_neg (by simpa using hc)]
      rfl

/-- Lowercasing commutes with star stripping. -/
theorem stripStars_lower (p : Str) :
    stripStars (lower p) = lower (stripStars p) := by
  rw [stripStars, stripStars, stripLeadStars, stripLeadStars,
    dropWhile_map_lower_star]
  rw [show (lower (p.dropWhile (fun c => c = '*'))).reverse =
    lower ((p.dropWhile (fun c => c = '*')).reverse) from by
      simp [lower]]
  rw [dropWhile_map_lower_star]
  simp [lower]


theorem stripLeadStars_of_head_ne {s : Str} (h : ∀ c, s.head? = some c → c ≠ '*') :
    stripLeadStars s = s := by
  cases s with
  | nil => rfl
  | cons c t =>
    rw [stripLeadStars, List.dropWhile_cons, if_neg]
    simpa using h c rfl

/-- A regular-expression-literal source is untouched by star
stripping. -/
theorem stripStars_of_regexShape {s : Str}
    (h : isRegexLiteralSource s = true) : stripStars s = s := by
  simp only [isRegexLiteralSource, Bool.and_eq_true, decide_eq_true_eq] at h
  obtain ⟨⟨hlen, hhead⟩, hlast⟩ := h
  rw [stripStars, stripLeadStars_of_head_ne (fun c hc => by
    rw [hhead] at hc
    injection hc with hc
    rw [← hc]
    decide)]
  cases hr : s.reverse with
  | nil =>
    rw [List.reverse_eq_nil_iff] at hr
    rw [hr]
    rfl
  | cons c t =>
    have hc : c = '/' := by
      have : s.reverse.head? = some c := by rw [hr]; rfl
      rw [List.head?_reverse, hlast] at this
      injection this with h2
      rw [h2]
    rw [List.dropWhile_cons, if_neg (by rw [hc]; decide), ← hr]
    simp

/-- C9: a URL filter built from a non-regular-expression pattern
source stores the source (lowercased unless `matchCase`) with all
leading and trailing `*` wildcards stripped; the stored pattern never
starts or ends with a wildcard; and, provided the stripped source is
not itself a regular-expression literal, the constructor produces
exactly the same filter as the constructor applied to the pre-stripped
source, so its URL matching behavior and its keyword selection are
those of the filter with the stripped pattern. -/
theorem c9_star_stripping :
    (∀ (text : String) (src : Str) (ct : Option Nat) (mc : Option Bool)
       (doms : Option (List (Str × Bool))) (tp : Option Bool)
       (sks : Option (List String)) (wl : Bool) (f : Filter),
       mkURLFilter text src ct mc doms tp sks wl = some f →
       f.pattern =
         stripStars (if mc.getD false then src else lower src) ∧
       (∀ c, f.pattern.head? = some c → c ≠ '*') ∧
       (∀ c, f.pattern.getLast? = some c → c ≠ '*')) ∧
    (∀ (text : String) (src : Str) (ct : Option Nat) (mc : Option Bool)
       (doms : Option (List (Str × Bool))) (tp : Option Bool)
       (sks : Option (List String)) (wl : Bool),
       isRegexLiteralSource
         (stripStars (if mc.getD false then src else lower src)) = false →
       mkURLFilter text src ct mc doms tp sks wl =
         mkURLFilter text
           (stripStars (if mc.getD false then src else lower src)) ct mc
           doms tp sks wl) := by
  constructor
  · intro text src ct mc doms tp sks wl f h
    rw [mkURLFilter] at h
    split at h
    · rename_i hmc
      split at h
      · exact absurd h (by simp)
      · rw [Option.some_inj] at h
        subst h
        rw [if_pos hmc]
        exact ⟨rfl, fun c hc => stripStars_head hc,
          fun c hc => stripStars_getLast hc⟩
    · rename_i hmc
      split at h
      · exact absurd h (by simp)
      · rw [Option.some_inj] at h
        subst h
        rw [if_neg hmc]
        exact ⟨rfl, fun c hc => stripStars_head hc,
          fun c hc => stripStars_getLast hc⟩
  · intro text src ct mc doms tp sks wl h
    have hsrc1 : (if mc.getD false then
        stripStars (if mc.getD false then src else lower src)
      else lower (stripStars (if mc.getD false then src else lower src))) =
        stripStars (if mc.getD false then src else lower src) := by
      cases hmc : mc.getD false with
      | true => rw [if_pos rfl, if_pos rfl]
      | false =>
        rw [if_neg (by simp), if_neg (by simp)]
        rw [← stripStars_lower, lower_idem]
    have hnr : isRegexLiteralSource
        (if mc.getD false then src else lower src) = false := by
      cases hx : isRegexLiteralSource
          (if mc.getD false then src else lower src) with
      | false => rfl
      | true =>
        rw [stripStars_of_regexShape hx] at h
        rw [hx] at h
        exact h
    rw [mkURLFilter, mkURLFilter]
    simp only [hsrc1]
    simp [hnr, h, stripStars_idem]

/-- Witness for C9 at the pattern source `*foo*`. -/
theorem c9_star_stripping_witness :
    (∃ f, mkURLFilter "*foo*" ("*foo*".toList) none none none none none
        false = some f ∧
      f.pattern = stripStars (lower "*foo*".toList)) ∧
    mkURLFilter "*foo*" ("*foo*".toList) none none none none none false =
      mkURLFilter "*foo*" (stripStars (lower "*foo*".toList)) none none
        none none none false := by
  constructor
  · exact ⟨_, rfl,
      (c9_star_stripping.1 "*foo*" ("*foo*".toList) none none none none
        none false _ rfl).1⟩
  · exact c9_star_stripping.2 "*foo*" ("*foo*".toList) none none none
      none none false (by decide)


/-! ## C2: the literal fast path of `_matchesLocation` -/

def c2req : Request :=
  { href := "http://example.com/afooz/foo/".toList,
    documentHostname := none, thirdParty := false }

/-- C2: `URLFilter.matches` is claimed to return true exactly when the
four conjuncts hold — in particular when the regular expression derived
from the pattern (honoring the `^` separator) matches the location.
For the filter `foo^` and the location
`http://example.com/afooz/foo/` every conjunct of the claim holds —
the derived pattern semantics matches at `/foo/` — yet `matches`
returns false: the literal fast path finds only the first `indexOf`
occurrence of `foo` (inside `afooz`) and checks the separator anchor
only there. -/
theorem c2_literal_single_indexof_bug :
    ∃ f, mkURLFilter "foo^" ("foo^".toList) none none none none none
        false = some f ∧
      isLiteralPattern f.pattern = true ∧
      patMatch f.pattern c2req.lowerCaseHref = true ∧
      ((f.contentType &&& SCRIPT_TYPE) ≠ 0) ∧
      f.isActiveOnDomain c2req.documentHostname none = true ∧
      f.matchesLocation c2req = false ∧
      f.matches c2req SCRIPT_TYPE none = false :=
  ⟨_, rfl, by decide, by decide, by decide, by decide, by decide,
    by decide⟩


/-! ## Concrete counterexample fixtures -/

/-- A generic blocking filter matching `ads`. -/
def cxBlockGen : Filter :=
  { text := "ads", isWhitelist := false, contentType := RESOURCE_TYPES,
    matchCase := false, thirdParty := none, domains := none,
    sitekeys := none, pattern := "ads".toList }

/-- A generic whitelist filter matching `ads`. -/
def cxWlGen : Filter :=
  { text := "@@ads", isWhitelist := true, contentType := RESOURCE_TYPES,
    matchCase := false, thirdParty := none, domains := none,
    sitekeys := none, pattern := "ads".toList }

/-- A domain-specific blocking filter matching `ads` on
`example.com`. -/
def cxBlockSpec : Filter :=
  { text := "ads$domain=example.com", isWhitelist := false,
    contentType := RESOURCE_TYPES, matchCase := false, thirdParty := none,
    domains := some [("example.com".toList, true), ([], false)],
    sitekeys := none, pattern := "ads".toList }

def cxReq : Request :=
  { href := "http://example.com/ads".toList,
    documentHostname := some "example.com".toList, thirdParty := false }

/-- C1 counterexample: a generic blocking filter and a generic
whitelist filter both match the request, yet with
`specificOnly = true` and a resource-type mask `CombinedMatcher.match`
returns `null` — not a whitelist filter: the blocking scan skips the
generic blocking filter, and with no blocking hit and no whitelisting
bits in the mask the whitelist scan never runs. -/
theorem c1_counterexample :
    cxBlockGen.matches cxReq SCRIPT_TYPE none = true ∧
    cxWlGen.matches cxReq SCRIPT_TYPE none = true ∧
    (((CombinedM.empty.add cxBlockGen).add cxWlGen).matchC true cxReq
      SCRIPT_TYPE none true).1 = none := by
  refine ⟨by decide, by decide, by decide⟩

/-- C3 counterexample: with `specificOnly = true`,
`CombinedMatcher.match` returns a filter whose `isGeneric()` is true —
the whitelist scan of `_matchInternal` drops the `specificOnly`
argument. -/
theorem c3_counterexample :
    ∃ f, (((CombinedM.empty.add cxBlockSpec).add cxWlGen).matchC true
        cxReq SCRIPT_TYPE none true).1 = some f ∧
      f.isGeneric = true := by
  refine ⟨cxWlGen, by decide, by decide⟩

/-- Two filters sharing the keyword `ads`. -/
def cxA : Filter :=
  { text := "/ads/aa", isWhitelist := false, contentType := RESOURCE_TYPES,
    matchCase := false, thirdParty := none, domains := none,
    sitekeys := none, pattern := "/ads/aa".toList }

def cxB : Filter :=
  { text := "/ads/", isWhitelist := false, contentType := RESOURCE_TYPES,
    matchCase := false, thirdParty := none, domains := none,
    sitekeys := none, pattern := "/ads/".toList }

def cxReqO : Request :=
  { href := "http://x.com/ads/aa".toList, documentHostname := none,
    thirdParty := false }

/-- C7 counterexample: adding the same two filters in the two possible
orders yields matchers whose `match` returns different filters for the
same query. -/
theorem c7_counterexample :
    ((Matcher2.empty.add cxA).add cxB).matchQ true cxReqO SCRIPT_TYPE
        none false = some cxA ∧
    ((Matcher2.empty.add cxB).add cxA).matchQ true cxReqO SCRIPT_TYPE
        none false = some cxB := by
  refine ⟨by decide, by decide⟩


/-! ## Reachable matcher states and the count invariant (C10) -/

/-- The number of filter texts that `_keywordByFilter` maps to a
keyword. -/
def kwCount (core : List (Filter × Str)) (kw : Str) : Nat :=
  (core.filter (fun p => p.2 = kw)).length

/-- No two entries of `_keywordByFilter` share a filter text. -/
def TextsUnique (core : List (Filter × Str)) : Prop :=
  (core.map (fun p => p.1.text)).Nodup

/-- The states reachable by `add`, `remove` and `clear`. -/
inductive Reach2 : Matcher2 → Prop where
  | empty : Reach2 Matcher2.empty
  | add {m : Matcher2} (f : Filter) : Reach2 m → Reach2 (m.add f)
  | remove {m : Matcher2} (f : Filter) : Reach2 m → Reach2 (m.remove f)
  | clear {m : Matcher2} : Reach2 m → Reach2 m.clear

theorem getKw_none_iff (core : List (Filter × Str)) (text : String) :
    Matcher2.getKw core text = none ↔
      ∀ p ∈ core, p.1.text ≠ text := by
  induction core with
  | nil => simp [Matcher2.getKw]
  | cons q rest ih =>
    rcases q with ⟨g, k⟩
    rw [Matcher2.getKw]
    by_cases hg : g.text = text
    · rw [if_pos hg]
      simp only [List.mem_cons]
      constructor
      · intro h
        exact absurd h (by simp)
      · intro h
        exact absurd hg (h (g, k) (Or.inl rfl))
    · rw [if_neg hg]
      rw [ih]
      constructor
      · intro h p hp
        rcases List.mem_cons.mp hp with he | hm
        · rw [he]
          exact hg
        · exact h p hm
      · intro h p hp
        exact h p (List.mem_cons_of_mem _ hp)

theorem kwCount_append (core : List (Filter × Str)) (f : Filter)
    (kw0 kw : Str) :
    kwCount (core ++ [(f, kw0)]) kw =
      kwCount core kw + (if kw0 = kw then 1 else 0) := by
  rw [kwCount, kwCount, List.filter_append]
  simp only [List.length_append]
  by_cases h : kw0 = kw
  · rw [if_pos h]
    simp [h]
  · rw [if_neg h]
    simp [h]

theorem getKw_kwCount_pos {core : List (Filter × Str)} {text : String}
    {kw : Str} (h : Matcher2.getKw core text = some kw) :
    1 ≤ kwCount core kw := by
  induction core with
  | nil => simp [Matcher2.getKw] at h
  | cons q rest ih =>
    rcases q with ⟨g, k⟩
    rw [Matcher2.getKw] at h
    by_cases hg : g.text = text
    · rw [if_pos hg] at h
      injection h with h
      rw [kwCount, List.filter_cons]
      simp [h]
    · rw [if_neg hg] at h
      have := ih h
      rw [kwCount, List.filter_cons]
      split
      · simp only [List.length_cons]
        rw [kwCount] at this
        omega
      · exact this

theorem delText_kwCount {core : List (Filter × Str)} {text : String}
    {kw : Str} (h : Matcher2.getKw core text = some kw) :
    ∀ kw', kwCount (Matcher2.delText core text) kw' =
      kwCount core kw' - (if kw = kw' then 1 else 0) := by
  induction core with
  | nil => simp [Matcher2.getKw] at h
  | cons q rest ih =>
    rcases q with ⟨g, k⟩
    rw [Matcher2.getKw] at h
    intro kw'
    by_cases hg : g.text = text
    · rw [if_pos hg] at h
      injection h with h
      rw [Matcher2.delText, if_pos hg, kwCount, kwCount,
        List.filter_cons]
      subst h
      split
      · rename_i hk
        simp only [decide_eq_true_eq] at hk
        rw [if_pos hk]
        simp [kwCount]
      · rename_i hk
        simp only [decide_eq_true_eq] at hk
        rw [if_neg hk]
        simp [kwCount]
    · rw [if_neg hg] at h
      rw [Matcher2.delText, if_neg hg, kwCount, List.filter_cons,
        kwCount, List.filter_cons]
      have hrec := ih h kw'
      rw [kwCount, kwCount] at hrec
      have hge := getKw_kwCount_pos h
      rw [kwCount] at hge
      split
      · simp only [List.length_cons]
        by_cases hkk : kw = kw'
        · rw [if_pos hkk] at hrec ⊢
          rw [hkk] at hge
          omega
        · rw [if_neg hkk] at hrec ⊢
          omega
      · exact hrec

theorem delText_sublist (core : List (Filter × Str)) (text : String) :
    (Matcher2.delText core text).Sublist core := by
  induction core with
  | nil => simp [Matcher2.delText]
  | cons q rest ih =>
    rcases q with ⟨g, k⟩
    rw [Matcher2.delText]
    split
    · exact List.sublist_cons_self ..
    · exact List.Sublist.cons₂ _ ih

/-- The core invariant of reachable part-002 matcher states: exact
counts and no duplicate filter text. -/
theorem reach2_invariant {m : Matcher2} (hr : Reach2 m) :
    TextsUnique m.keywordByFilter ∧
    ∀ kw, OMap.get m.filterCountByKeyword kw =
      (if kwCount m.keywordByFilter kw = 0 then none
       else some (kwCount m.keywordByFilter kw)) := by
  induction hr with
  | empty =>
    refine ⟨by simp [Matcher2.empty, TextsUnique], ?_⟩
    intro kw
    simp [Matcher2.empty, OMap.get, kwCount]
  | @add mm f hr ih =>
    rcases ih with ⟨hu, hc⟩
    rw [Matcher2.add]
    split
    · exact ⟨hu, hc⟩
    · rename_i hnone
      have hn2 : Matcher2.getKw mm.keywordByFilter f.text = none := by
        cases hgk : Matcher2.getKw mm.keywordByFilter f.text with
        | none => rfl
        | some k =>
          rw [hgk] at hnone
          simp at hnone
      constructor
      · rw [TextsUnique, List.map_append, List.nodup_append]
        refine ⟨hu, by simp, ?_⟩
        intro t ht
        simp only [List.map_cons, List.map_nil, List.mem_singleton]
        intro he
        rw [List.mem_map] at ht
        rcases ht with ⟨p, hp, hpt⟩
        rw [getKw_none_iff] at hn2
        exact hn2 p hp (by rw [hpt, he])
      · intro kw
        dsimp only
        rw [kwCount_append]
        by_cases hk : findKeyword mm.filterCountByKeyword f.pattern = kw
        · rw [if_pos hk, hk, OMap.get_set_self, hc kw]
          split
          · rename_i h0
            rw [h0]
            simp
          · rename_i h0
            simp only [Option.getD_some]
            rw [if_neg (by omega)]
        · rw [if_neg hk, OMap.get_set_other _ _ _ _ (Ne.symm hk), hc kw]
          simp
  | @remove mm f hr ih =>
    rcases ih with ⟨hu, hc⟩
    rw [Matcher2.remove]
    split
    · exact ⟨hu, hc⟩
    · rename_i kw hkw
      constructor
      · rw [TextsUnique]
        exact hu.sublist ((delText_sublist ..).map _)
      · intro kw'
        dsimp only
        rw [delText_kwCount hkw kw']
        have hge := getKw_kwCount_pos hkw
        have hckw := hc kw
        rw [if_neg (by omega)] at hckw
        rw [hckw]
        dsimp only
        by_cases hkk : kw = kw'
        · subst hkk
          rw [if_pos rfl]
          by_cases h1 : 1 < kwCount mm.keywordByFilter kw
          · rw [if_pos h1, OMap.get_set_self]
            rw [if_neg (by omega)]
          · rw [if_neg h1, OMap.get_del_self]
            rw [if_pos (by omega)]
        · rw [if_neg hkk]
          have hck' := hc kw'
          by_cases h1 : 1 < kwCount mm.keywordByFilter kw
          · rw [if_pos h1, OMap.get_set_other _ _ _ _ (Ne.symm hkk), hck']
            simp
          · rw [if_neg h1, OMap.get_del_other _ _ _ (Ne.symm hkk), hck']
            simp
  | clear hr ih =>
    refine ⟨by simp [Matcher2.clear, Matcher2.empty, TextsUnique], ?_⟩
    intro kw
    simp [Matcher2.clear, Matcher2.empty, OMap.get, kwCount]

/-- C10: in the matcher that maintains `_filterCountByKeyword`, after
every sequence of `add`, `remove` and `clear` operations the count map
holds, for every keyword, exactly the number of filter texts that
`_keywordByFilter` maps to that keyword, and a keyword is absent from
the count map exactly when that number is zero (so `findKeyword`'s
rarity comparison always reads exact bucket sizes); moreover no filter
text occurs twice. -/
theorem c10_count_invariant {m : Matcher2} (hr : Reach2 m) :
    TextsUnique m.keywordByFilter ∧
    ∀ kw, OMap.get m.filterCountByKeyword kw =
      (if kwCount m.keywordByFilter kw = 0 then none
       else some (kwCount m.keywordByFilter kw)) :=
  reach2_invariant hr

/-- Witness for C10 at the state `empty.add cxA`. -/
theorem c10_count_invariant_witness :
    OMap.get (Matcher2.empty.add cxA).filterCountByKeyword
        ("ads".toList) = some 1 := by
  have h := (c10_count_invariant (Reach2.add cxA Reach2.empty)).2
    ("ads".toList)
  rw [h]
  decide


/-! ## The matcher of `src/unnamed/part_003`

This variant splits filters into a simple set (resource-type-complete
and generic) and a complex set per keyword, and maintains per-type
maps incrementally.  Its buckets store filter texts and recover the
filter with `Filter.fromText` (text interning: one filter value per
text); the model stores the filter value and compares by text exactly
as the source compares the stored strings.  The per-keyword compiled
patterns table is a memo that the source deletes for a keyword
whenever that keyword's simple bucket changes, so each query sees the
value that `compilePatterns` returns for the current bucket; the model
computes it directly.  The source never deletes a per-type map that
has become empty, so states are compared through `typeLookup`. -/

/-- Modelled from the spec: the special type bits, ascending. -/
def specialTypesList : List Nat :=
  [POPUP_TYPE, CSP_TYPE, DOCUMENT_TYPE, GENERICBLOCK_TYPE,
   ELEMHIDE_TYPE, GENERICHIDE_TYPE]

/-- Modelled from the spec: `enumerateTypes(contentType,
SPECIAL_TYPES)`. -/
def enumerateTypes (contentType : Nat) : List Nat :=
  specialTypesList.filter (fun t => (contentType &&& t) ≠ 0)

/-- A simple filter: resource-type-complete and generic. -/
def isSimpleF (f : Filter) : Bool :=
  f.contentType = RESOURCE_TYPES && f.isGeneric

/-- A part-003 bucket: a single text or a set. -/
inductive FK3 where
  | one : Filter → FK3
  | many : List Filter → FK3
deriving DecidableEq

def FK3.toList : FK3 → List Filter
  | .one f => [f]
  | .many l => l

/-- `addFilterByKeyword` of part 003 (set semantics, text
comparison). -/
def addFK3 (f : Filter) (kw : Str) (m : List (Str × FK3)) :
    List (Str × FK3) :=
  match OMap.get m kw with
  | none => OMap.set m kw (FK3.one f)
  | some (FK3.one g) =>
    if f.text = g.text then m else OMap.set m kw (FK3.many [g, f])
  | some (FK3.many l) =>
    OMap.set m kw
      (FK3.many (if l.any (fun g => g.text = f.text) then l
                 else l ++ [f]))

/-- `Set.prototype.delete` on a text-keyed set. -/
def eraseText : List Filter → String → List Filter
  | [], _ => []
  | g :: rest, text =>
    if g.text = text then rest else g :: eraseText rest text

/-- `removeFilterByKeyword` of part 003. -/
def removeFK3 (f : Filter) (kw : Str) (m : List (Str × FK3)) :
    List (Str × FK3) :=
  match OMap.get m kw with
  | none => m
  | some (FK3.one g) =>
    if f.text = g.text then OMap.del m kw else m
  | some (FK3.many l) =>
    match eraseText l f.text with
    | [x] => OMap.set m kw (FK3.one x)
    | l2 => OMap.set m kw (FK3.many l2)

structure Matcher3 where
  keywordByFilter : List (Filter × Str)
  simpleFiltersByKeyword : List (Str × FK3)
  complexFiltersByKeyword : List (Str × FK3)
  filterMapsByType : List (Nat × List (Str × FK3))
deriving DecidableEq

namespace Matcher3

def empty : Matcher3 := ⟨[], [], [], []⟩

/-- The loop of part 003's `add` over the filter's special types. -/
def addTypes (f : Filter) (kw : Str)
    (mt : List (Nat × List (Str × FK3))) :
    List (Nat × List (Str × FK3)) :=
  (enumerateTypes f.contentType).foldl (fun acc t =>
    OMap.set acc t (addFK3 f kw ((OMap.get acc t).getD []))) mt

/-- The loop of part 003's `remove` over the filter's special
types. -/
def removeTypes (f : Filter) (kw : Str)
    (mt : List (Nat × List (Str × FK3))) :
    List (Nat × List (Str × FK3)) :=
  (enumerateTypes f.contentType).foldl (fun acc t =>
    match OMap.get acc t with
    | none => acc
    | some mp => OMap.set acc t (removeFK3 f kw mp)) mt

/-- Bucket sizes as counted by part 003's `findKeyword`. -/
def fk3size : Option FK3 → Nat
  | none => 0
  | some (.one _) => 1
  | some (.many l) => l.length

def findKeywordLoop3 (m : Matcher3) :
    List Str → Str → Nat → Nat → Str
  | [], result, _, _ => result
  | c :: rest, result, rc, rl =>
    if isBadKeyword c then findKeywordLoop3 m rest result rc rl
    else
      let count := fk3size (OMap.get m.simpleFiltersByKeyword c) +
        fk3size (OMap.get m.complexFiltersByKeyword c)
      if count < rc || (count = rc && rl < c.length) then
        findKeywordLoop3 m rest c count c.length
      else
        findKeywordLoop3 m rest result rc rl

/-- Part 003's `findKeyword`. -/
def findKw (m : Matcher3) (pat : Str) : Str :=
  findKeywordLoop3 m (kwCandidates (lower pat)) [] 0xFFFFFF 0

/-- Part 003's `Matcher.prototype.add`. -/
def add (m : Matcher3) (f : Filter) : Matcher3 :=
  if (Matcher2.getKw m.keywordByFilter f.text).isSome then m
  else
    let kw := findKw m f.pattern
    if isSimpleF f then
      { m with
        simpleFiltersByKeyword := addFK3 f kw m.simpleFiltersByKeyword,
        keywordByFilter := m.keywordByFilter ++ [(f, kw)] }
    else
      { m with
        complexFiltersByKeyword :=
          addFK3 f kw m.complexFiltersByKeyword,
        keywordByFilter := m.keywordByFilter ++ [(f, kw)],
        filterMapsByType := addTypes f kw m.filterMapsByType }

/-- Part 003's `Matcher.prototype.remove`. -/
def remove (m : Matcher3) (f : Filter) : Matcher3 :=
  match Matcher2.getKw m.keywordByFilter f.text with
  | none => m
  | some kw =>
    if isSimpleF f then
      { m with
        simpleFiltersByKeyword :=
          removeFK3 f kw m.simpleFiltersByKeyword,
        keywordByFilter := Matcher2.delText m.keywordByFilter f.text }
    else
      { m with
        complexFiltersByKeyword :=
          removeFK3 f kw m.complexFiltersByKeyword,
        keywordByFilter := Matcher2.delText m.keywordByFilter f.text,
        filterMapsByType := removeTypes f kw m.filterMapsByType }

/-- Part 003's `Matcher.prototype.clear`. -/
def clear (_ : Matcher3) : Matcher3 := empty

/-- Part 003's `Matcher.prototype.has`. -/
def has (m : Matcher3) (f : Filter) : Bool :=
  (Matcher2.getKw m.keywordByFilter f.text).isSome

/-- Part 003's `compilePatterns` (single texts are never refused for
size; a set of more than 100 is). -/
def compilePatterns3 (rxOk : Bool) (fk : FK3) :
    Option CompiledPatterns :=
  match fk with
  | FK3.one f =>
    if !rxOk then none
    else some
      { caseSensitive := if f.matchCase then [f.pattern] else []
        caseInsensitive := if f.matchCase then [] else [f.pattern] }
  | FK3.many l =>
    if 100 < l.length then none
    else if !rxOk then none
    else some
      { caseSensitive :=
          (l.filter (fun f => f.matchCase)).map Filter.pattern
        caseInsensitive :=
          (l.filter (fun f => !f.matchCase)).map Filter.pattern }

/-- `_checkEntryMatchSimple` with its quick check. -/
def cemSimple (rxOk : Bool) (m : Matcher3) (kw : Str) (req : Request) :
    Option Filter :=
  match OMap.get m.simpleFiltersByKeyword kw with
  | none => none
  | some fk =>
    if (match compilePatterns3 rxOk fk with
        | none => true
        | some cp => cp.test req) then
      firstMatch req RESOURCE_TYPES none false fk.toList
    else none

/-- Reading a per-type bucket (an empty per-type map behaves like a
missing one). -/
def typeLookup (m : Matcher3) (t : Nat) (kw : Str) : Option FK3 :=
  (OMap.get m.filterMapsByType t).bind (fun mp => OMap.get mp kw)

/-- `_checkEntryMatchForType`. -/
def cemForType3 (m : Matcher3) (kw : Str) (req : Request)
    (typeMask : Nat) (sitekey : Option String) (specificOnly : Bool) :
    Option Filter :=
  match typeLookup m typeMask kw with
  | none => none
  | some fk => firstMatch req typeMask sitekey specificOnly fk.toList

/-- `_checkEntryMatchComplex`. -/
def cemComplex (m : Matcher3) (kw : Str) (req : Request)
    (typeMask : Nat) (sitekey : Option String) (specificOnly : Bool) :
    Option Filter :=
  match OMap.get m.complexFiltersByKeyword kw with
  | none => none
  | some fk => firstMatch req typeMask sitekey specificOnly fk.toList

/-- Part 003's `Matcher.prototype.checkEntryMatch`: the simple set is
consulted only when `specificOnly` is off and the mask has resource
bits; then the per-type or the complex path. -/
def checkEntryMatch3 (rxOk : Bool) (m : Matcher3) (kw : Str)
    (req : Request) (typeMask : Nat) (sitekey : Option String)
    (specificOnly : Bool) : Option Filter :=
  let rest :=
    if (typeMask &&& SPECIAL_TYPES) ≠ 0 &&
        (typeMask &&& (typeMask - 1)) = 0 then
      cemForType3 m kw req typeMask sitekey specificOnly
    else cemComplex m kw req typeMask sitekey specificOnly
  if !specificOnly && (typeMask &&& RESOURCE_TYPES) ≠ 0 then
    match cemSimple rxOk m kw req with
    | some f => some f
    | none => rest
  else rest

/-- Part 003's `Matcher.prototype.match` candidate loop. -/
def matchLoop3 (rxOk : Bool) (m : Matcher3) (req : Request)
    (typeMask : Nat) (sitekey : Option String) (specificOnly : Bool) :
    List Str → Option Filter
  | [] => none
  | c :: rest =>
    if isBadKeyword c then
      matchLoop3 rxOk m req typeMask sitekey specificOnly rest
    else
      match checkEntryMatch3 rxOk m c req typeMask sitekey specificOnly
      with
      | some f => some f
      | none => matchLoop3 rxOk m req typeMask sitekey specificOnly rest

/-- Part 003's `Matcher.prototype.match`. -/
def matchQ3 (m : Matcher3) (rxOk : Bool) (req : Request)
    (typeMask : Nat) (sitekey : Option String) (specificOnly : Bool) :
    Option Filter :=
  matchLoop3 rxOk m req typeMask sitekey specificOnly
    (urlCandidates req.lowerCaseHref)

end Matcher3


/-! ## Inverse of `add` (C8) -/

theorem getKw_append_left {core : List (Filter × Str)} {text : String}
    {kw : Str} (l : List (Filter × Str))
    (h : Matcher2.getKw core text = some kw) :
    Matcher2.getKw (core ++ l) text = some kw := by
  induction core with
  | nil => simp [Matcher2.getKw] at h
  | cons q rest ih =>
    rcases q with ⟨g, k⟩
    rw [Matcher2.getKw] at h
    rw [List.cons_append, Matcher2.getKw]
    by_cases hg : g.text = text
    · rw [if_pos hg] at h ⊢
      exact h
    · rw [if_neg hg] at h ⊢
      exact ih h

theorem getKw_append_right {core : List (Filter × Str)} {text : String}
    (l : List (Filter × Str)) (h : Matcher2.getKw core text = none) :
    Matcher2.getKw (core ++ l) text = Matcher2.getKw l text := by
  induction core with
  | nil => simp
  | cons q rest ih =>
    rcases q with ⟨g, k⟩
    rw [Matcher2.getKw] at h
    rw [List.cons_append, Matcher2.getKw]
    by_cases hg : g.text = text
    · rw [if_pos hg] at h
      exact absurd h (by simp)
    · rw [if_neg hg] at h
      rw [if_neg hg]
      exact ih h

theorem delText_append_cancel {core : List (Filter × Str)} {f : Filter}
    (kw : Str) (h : Matcher2.getKw core f.text = none) :
    Matcher2.delText (core ++ [(f, kw)]) f.text = core := by
  induction core with
  | nil => simp [Matcher2.delText]
  | cons q rest ih =>
    rcases q with ⟨g, k⟩
    rw [Matcher2.getKw] at h
    by_cases hg : g.text = f.text
    · rw [if_pos hg] at h
      exact absurd h (by simp)
    · rw [if_neg hg] at h
      rw [List.cons_append, Matcher2.delText, if_neg hg, ih h]

/-- Removing an absent filter is a no-op on the part-002 matcher. -/
theorem m2_remove_absent {m : Matcher2} {f : Filter}
    (h : m.has f = false) : m.remove f = m := by
  rw [Matcher2.remove]
  cases hk : Matcher2.getKw m.keywordByFilter f.text with
  | some kw =>
    rw [Matcher2.has, hk] at h
    simp at h
  | none => rfl

/-- Adding a fresh filter and removing it restores the part-002
matcher state exactly (reachability rules out stale zero counts). -/
theorem m2_add_remove {m : Matcher2} (f : Filter) (hr : Reach2 m) :
    (m.add f).remove f = m.remove f := by
  cases hk : Matcher2.getKw m.keywordByFilter f.text with
  | some kw =>
    rw [Matcher2.add, hk]
    simp
  | none =>
    have hab : m.remove f = m :=
      m2_remove_absent (by rw [Matcher2.has, hk]; rfl)
    rw [hab]
    rw [Matcher2.add, hk]
    simp only [Option.isSome_none, Bool.false_eq_true, if_false]
    rw [Matcher2.remove]
    have hgk : Matcher2.getKw
        (m.keywordByFilter ++
          [(f, findKeyword m.filterCountByKeyword f.pattern)]) f.text =
        some (findKeyword m.filterCountByKeyword f.pattern) := by
      rw [getKw_append_right _ hk, Matcher2.getKw, if_pos rfl]
    rw [hgk]
    dsimp only
    rw [delText_append_cancel _ hk, OMap.get_set_self]
    cases hg : OMap.get m.filterCountByKeyword
        (findKeyword m.filterCountByKeyword f.pattern) with
    | some c =>
      have hc := (reach2_invariant hr).2
        (findKeyword m.filterCountByKeyword f.pattern)
      rw [hg] at hc
      have hc1 : 1 ≤ c := by
        by_cases h0 : kwCount m.keywordByFilter
            (findKeyword m.filterCountByKeyword f.pattern) = 0
        · rw [if_pos h0] at hc
          exact absurd hc (by simp)
        · rw [if_neg h0] at hc
          injection hc with hc
          omega
      simp only [Option.getD_some]
      rw [if_pos (by omega)]
      have : c + 1 - 1 = c := by omega
      rw [this, OMap.set_set, OMap.set_get_self _ _ _ hg]
    | none =>
      simp only [Option.getD_none]
      rw [if_neg (by omega), OMap.del_set_fresh _ _ _ hg]

/-- With no duplicate texts, deleting a text removes its entry. -/
theorem getKw_delText_none {core : List (Filter × Str)} {text : String}
    (hu : TextsUnique core) :
    Matcher2.getKw (Matcher2.delText core text) text = none := by
  induction core with
  | nil => simp [Matcher2.delText, Matcher2.getKw]
  | cons q rest ih =>
    rcases q with ⟨g, k⟩
    rw [TextsUnique, List.map_cons, List.nodup_cons] at hu
    rw [Matcher2.delText]
    by_cases hg : g.text = text
    · rw [if_pos hg]
      rw [getKw_none_iff]
      intro p hp he
      exact hu.1 (by
        rw [List.mem_map]
        exact ⟨p, hp, by rw [he, hg]⟩)
    · rw [if_neg hg, Matcher2.getKw, if_neg hg]
      exact ih hu.2

/-- After `add f; remove f` the filter is gone. -/
theorem m2_add_remove_has {m : Matcher2} (f : Filter) (hr : Reach2 m) :
    ((m.add f).remove f).has f = false := by
  have hu : TextsUnique m.keywordByFilter := (reach2_invariant hr).1
  cases hk : Matcher2.getKw m.keywordByFilter f.text with
  | some kw =>
    rw [Matcher2.add, hk]
    simp only [Option.isSome_some, if_true]
    rw [Matcher2.remove, hk]
    dsimp only
    rw [Matcher2.has]
    dsimp only
    rw [getKw_delText_none hu]
    rfl
  | none =>
    rw [Matcher2.add, hk]
    simp only [Option.isSome_none, Bool.false_eq_true, if_false]
    rw [Matcher2.remove]
    dsimp only
    have hgk : Matcher2.getKw
        (m.keywordByFilter ++
          [(f, findKeyword m.filterCountByKeyword f.pattern)]) f.text =
        some (findKeyword m.filterCountByKeyword f.pattern) := by
      rw [getKw_append_right _ hk, Matcher2.getKw, if_pos rfl]
    rw [hgk]
    dsimp only
    rw [Matcher2.has]
    dsimp only
    rw [delText_append_cancel _ hk, hk]
    rfl


/-- `CombinedMatcher.add` then `remove` of the same filter equals a
plain `remove` (both leave the caches flushed). -/
theorem cm_add_remove {m : CombinedM} (f : Filter)
    (hb : Reach2 m.blocking) (hw : Reach2 m.whitelist) :
    (m.add f).remove f = m.remove f := by
  by_cases hwl : f.isWhitelist
  · simp only [CombinedM.add, CombinedM.remove, hwl, if_true]
    rw [m2_add_remove f hw]
  · simp only [CombinedM.add, CombinedM.remove, hwl,
      Bool.false_eq_true, if_false]
    rw [m2_add_remove f hb]

/-- `CombinedMatcher.remove` of an absent filter only flushes the
caches. -/
theorem cm_remove_absent {m : CombinedM} {f : Filter}
    (h : m.has f = false) :
    (m.remove f).blocking = m.blocking ∧
    (m.remove f).whitelist = m.whitelist := by
  rw [CombinedM.has] at h
  by_cases hwl : f.isWhitelist
  · rw [if_pos hwl] at h
    simp only [CombinedM.remove, hwl, if_true]
    exact ⟨trivial, m2_remove_absent h⟩
  · rw [if_neg hwl] at h
    simp only [CombinedM.remove, hwl, Bool.false_eq_true, if_false]
    exact ⟨m2_remove_absent h, trivial⟩

/-- `_matchInternal` depends only on the two component matchers. -/
theorem matchInternal_congr {m m' : CombinedM}
    (hb : m.blocking = m'.blocking) (hw : m.whitelist = m'.whitelist)
    (rxOk : Bool) (req : Request) (typeMask : Nat)
    (sitekey : Option String) (specificOnly : Bool) :
    m.matchInternal rxOk req typeMask sitekey specificOnly =
      m'.matchInternal rxOk req typeMask sitekey specificOnly := by
  rw [CombinedM.matchInternal, CombinedM.matchInternal, hb, hw]

/-- `_searchInternal` depends only on the two component matchers. -/
theorem searchInternal_congr {m m' : CombinedM}
    (hb : m.blocking = m'.blocking) (hw : m.whitelist = m'.whitelist)
    (rxOk : Bool) (req : Request) (typeMask : Nat)
    (sitekey : Option String) (specificOnly : Bool) (fType : String) :
    m.searchInternal rxOk req typeMask sitekey specificOnly fType =
      m'.searchInternal rxOk req typeMask sitekey specificOnly fType := by
  rw [CombinedM.searchInternal, CombinedM.searchInternal, hb, hw]

/-- With an empty cache, `match` returns `_matchInternal`. -/
theorem matchC_empty_cache {m : CombinedM} (h : m.matchCache = [])
    (rxOk : Bool) (req : Request) (typeMask : Nat)
    (sitekey : Option String) (specificOnly : Bool) :
    (m.matchC rxOk req typeMask sitekey specificOnly).1 =
      m.matchInternal rxOk req typeMask sitekey specificOnly := by
  rw [CombinedM.matchC, h]
  rfl

/-- With an empty cache, `search` returns `_searchInternal`. -/
theorem searchC_empty_cache {m : CombinedM} (h : m.searchCache = [])
    (rxOk : Bool) (req : Request) (typeMask : Nat)
    (sitekey : Option String) (specificOnly : Bool) (fType : String) :
    (m.searchC rxOk req typeMask sitekey specificOnly fType).1 =
      m.searchInternal rxOk req typeMask sitekey specificOnly fType := by
  rw [CombinedM.searchC, h]
  rfl

/-- The caches are empty after `remove`. -/
theorem cm_remove_caches (m : CombinedM) (f : Filter) :
    (m.remove f).matchCache = [] ∧ (m.remove f).searchCache = [] := by
  rw [CombinedM.remove]
  by_cases hwl : f.isWhitelist
  · rw [if_pos hwl]
    exact ⟨rfl, rfl⟩
  · rw [if_neg hwl]
    exact ⟨rfl, rfl⟩

/-- After `add f; remove f` the filter is gone from the combined
matcher. -/
theorem cm_add_remove_has {m : CombinedM} (f : Filter)
    (hb : Reach2 m.blocking) (hw : Reach2 m.whitelist) :
    ((m.add f).remove f).has f = false := by
  by_cases hwl : f.isWhitelist
  · simp only [CombinedM.add, CombinedM.remove, CombinedM.has, hwl,
      if_true]
    exact m2_add_remove_has f hw
  · simp only [CombinedM.add, CombinedM.remove, CombinedM.has, hwl,
      Bool.false_eq_true, if_false]
    exact m2_add_remove_has f hb


/-! ## Part-003 bucket algebra -/

theorem eraseText_sublist (l : List Filter) (text : String) :
    (eraseText l text).Sublist l := by
  induction l with
  | nil => simp [eraseText]
  | cons g rest ih =>
    rw [eraseText]
    split
    · exact List.sublist_cons_self ..
    · exact List.Sublist.cons₂ _ ih

theorem eraseText_of_not_mem {l : List Filter} {text : String}
    (h : ∀ g ∈ l, g.text ≠ text) : eraseText l text = l := by
  induction l with
  | nil => rfl
  | cons g rest ih =>
    rw [eraseText, if_neg (h g (List.mem_cons_self ..)),
      ih (fun g' hg' => h g' (List.mem_cons_of_mem _ hg'))]

theorem eraseText_append_not_mem {l : List Filter} {text : String}
    (l2 : List Filter) (h : ∀ g ∈ l, g.text ≠ text) :
    eraseText (l ++ l2) text = l ++ eraseText l2 text := by
  induction l with
  | nil => simp
  | cons g rest ih =>
    rw [List.cons_append, eraseText,
      if_neg (h g (List.mem_cons_self ..)), List.cons_append,
      ih (fun g' hg' => h g' (List.mem_cons_of_mem _ hg'))]

theorem mem_of_mem_eraseText {l : List Filter} {text : String}
    {g : Filter} (h : g ∈ eraseText l text) : g ∈ l :=
  (eraseText_sublist l text).mem h

theorem mem_eraseText_ne {l : List Filter} {text : String} {g : Filter}
    (hnd : (l.map Filter.text).Nodup) (h : g ∈ eraseText l text) :
    g.text ≠ text := by
  induction l with
  | nil => simp [eraseText] at h
  | cons g0 rest ih =>
    rw [List.map_cons, List.nodup_cons] at hnd
    rw [eraseText] at h
    by_cases h0 : g0.text = text
    · rw [if_pos h0] at h
      intro he
      exact hnd.1 (by
        rw [List.mem_map]
        exact ⟨g, h, by rw [he, h0]⟩)
    · rw [if_neg h0] at h
      rcases List.mem_cons.mp h with he | hm
      · rw [he]
        exact h0
      · exact ih hnd.2 hm

theorem eraseText_length (l : List Filter) (text : String) :
    l.length ≤ (eraseText l text).length + 1 := by
  induction l with
  | nil => simp [eraseText]
  | cons g rest ih =>
    rw [eraseText]
    split
    · simp
    · simp only [List.length_cons]
      omega

/-- Removing a filter straight after adding it restores the bucket
map, provided its text is fresh in the bucket and the bucket is not a
stale singleton set. -/
theorem removeFK3_addFK3 {f : Filter} {kw : Str}
    {m : List (Str × FK3)}
    (hfresh : ∀ fk, OMap.get m kw = some fk →
      ∀ g ∈ fk.toList, g.text ≠ f.text)
    (hlen : ∀ l, OMap.get m kw = some (FK3.many l) → l.length ≠ 1) :
    removeFK3 f kw (addFK3 f kw m) = m := by
  cases hb : OMap.get m kw with
  | none =>
    rw [addFK3, hb, removeFK3, OMap.get_set_self]
    dsimp only
    rw [if_pos rfl, OMap.del_set_fresh _ _ _ hb]
  | some fk =>
    cases fk with
    | one g =>
      have hgf : g.text ≠ f.text :=
        hfresh _ hb g (by simp [FK3.toList])
      rw [addFK3, hb]
      dsimp only
      rw [if_neg (fun he => hgf he.symm)]
      rw [removeFK3, OMap.get_set_self]
      dsimp only
      rw [eraseText, if_neg hgf, eraseText, if_pos rfl]
      dsimp only
      rw [OMap.set_set, OMap.set_get_self _ _ _ hb]
    | many l =>
      have hl : ∀ g ∈ l, g.text ≠ f.text := by
        intro g hg
        exact hfresh _ hb g (by simpa [FK3.toList] using hg)
      have hany : l.any (fun g => g.text = f.text) = false := by
        rw [List.any_eq_false]
        intro g hg
        simp only [decide_eq_true_eq]
        exact hl g hg
      rw [addFK3, hb]
      dsimp only
      rw [hany]
      simp only [Bool.false_eq_true, if_false]
      rw [removeFK3, OMap.get_set_self]
      dsimp only
      rw [eraseText_append_not_mem _ hl, eraseText, if_pos rfl]
      simp only [List.append_nil]
      cases l with
      | nil =>
        dsimp only
        rw [OMap.set_set, OMap.set_get_self _ _ _ hb]
      | cons x rest =>
        cases rest with
        | nil => exact absurd (hlen [x] hb) (by simp)
        | cons y r =>
          dsimp only
          rw [OMap.set_set, OMap.set_get_self _ _ _ hb]


theorem specialTypesList_nodup : specialTypesList.Nodup := by
  decide

theorem enumerateTypes_nodup (ct : Nat) : (enumerateTypes ct).Nodup :=
  specialTypesList_nodup.filter _

theorem get_addTypes_fold (f : Filter) (kw : Str) (ts : List Nat)
    (mt : List (Nat × List (Str × FK3))) (t : Nat) (hnd : ts.Nodup) :
    OMap.get (ts.foldl (fun acc t' =>
      OMap.set acc t' (addFK3 f kw ((OMap.get acc t').getD []))) mt) t =
    (if t ∈ ts then some (addFK3 f kw ((OMap.get mt t).getD []))
     else OMap.get mt t) := by
  induction ts generalizing mt with
  | nil => simp
  | cons t0 rest ih =>
    rw [List.nodup_cons] at hnd
    rw [List.foldl_cons, ih _ hnd.2]
    by_cases ht : t ∈ rest
    · rw [if_pos ht, if_pos (List.mem_cons_of_mem _ ht)]
      have hne : t ≠ t0 := fun he => hnd.1 (he ▸ ht)
      rw [OMap.get_set_other _ _ _ _ hne]
    · rw [if_neg ht]
      by_cases he : t = t0
      · subst he
        rw [OMap.get_set_self, if_pos (List.mem_cons_self ..)]
      · rw [OMap.get_set_other _ _ _ _ he, if_neg (by
          intro hm
          rcases List.mem_cons.mp hm with h1 | h2
          exacts [he h1, ht h2])]

theorem get_removeTypes_fold (f : Filter) (kw : Str) (ts : List Nat)
    (mt : List (Nat × List (Str × FK3))) (t : Nat) (hnd : ts.Nodup) :
    OMap.get (ts.foldl (fun acc t' =>
      match OMap.get acc t' with
      | none => acc
      | some mp => OMap.set acc t' (removeFK3 f kw mp)) mt) t =
    (OMap.get mt t).map
      (fun mp => if t ∈ ts then removeFK3 f kw mp else mp) := by
  induction ts generalizing mt with
  | nil =>
    rw [List.foldl_nil]
    cases hmt : OMap.get mt t <;> simp
  | cons t0 rest ih =>
    rw [List.nodup_cons] at hnd
    rw [List.foldl_cons]
    cases hm0 : OMap.get mt t0 with
    | none =>
      rw [ih _ hnd.2]
      by_cases he : t = t0
      · subst he
        rw [hm0]
        rfl
      · cases hmt : OMap.get mt t with
        | none => rfl
        | some mp =>
          simp only [Option.map_some']
          by_cases ht : t ∈ rest
          · rw [if_pos ht, if_pos (List.mem_cons_of_mem _ ht)]
          · rw [if_neg ht, if_neg (by
              intro hm
              rcases List.mem_cons.mp hm with h1 | h2
              exacts [he h1, ht h2])]
    | some mp0 =>
      rw [ih _ hnd.2]
      by_cases he : t = t0
      · subst he
        rw [OMap.get_set_self, hm0]
        simp only [Option.map_some']
        rw [if_neg (fun hm => hnd.1 hm), if_pos (List.mem_cons_self ..)]
      · rw [OMap.get_set_other _ _ _ _ he]
        cases hmt : OMap.get mt t with
        | none => rfl
        | some mp =>
          simp only [Option.map_some']
          by_cases ht : t ∈ rest
          · rw [if_pos ht, if_pos (List.mem_cons_of_mem _ ht)]
          · rw [if_neg ht, if_neg (by
              intro hm
              rcases List.mem_cons.mp hm with h1 | h2
              exacts [he h1, ht h2])]

theorem removeFK3_addFK3_nil (f : Filter) (kw : Str) :
    removeFK3 f kw (addFK3 f kw []) = [] := by
  have h0 : OMap.get ([] : List (Str × FK3)) kw = none := rfl
  rw [addFK3, h0]
  dsimp only
  rw [removeFK3, OMap.get_set_self]
  dsimp only
  rw [if_pos rfl, OMap.del_set_fresh _ _ _ h0]

/-- The type maps after `addTypes` then `removeTypes` of the same
fresh filter hold the same buckets as before (an emptied per-type map
may be left behind, so the comparison is through lookup). -/
theorem tlook_remove_addTypes {f : Filter} {kw : Str}
    {mt : List (Nat × List (Str × FK3))}
    (hfresh : ∀ t mp, OMap.get mt t = some mp →
      ∀ fk, OMap.get mp kw = some fk → ∀ g ∈ fk.toList,
        g.text ≠ f.text)
    (hlen : ∀ t mp, OMap.get mt t = some mp →
      ∀ l, OMap.get mp kw = some (FK3.many l) → l.length ≠ 1)
    (t : Nat) (kw' : Str) :
    (OMap.get (Matcher3.removeTypes f kw (Matcher3.addTypes f kw mt))
        t).bind (fun mp => OMap.get mp kw') =
      (OMap.get mt t).bind (fun mp => OMap.get mp kw') := by
  rw [Matcher3.removeTypes, Matcher3.addTypes]
  rw [get_removeTypes_fold _ _ _ _ _ (enumerateTypes_nodup _)]
  rw [get_addTypes_fold _ _ _ _ _ (enumerateTypes_nodup _)]
  by_cases ht : t ∈ enumerateTypes f.contentType
  · rw [if_pos ht]
    cases hmt : OMap.get mt t with
    | some mp =>
      simp only [Option.getD_some, Option.map_some']
      rw [if_pos ht, removeFK3_addFK3 (hfresh t mp hmt) (hlen t mp hmt)]
    | none =>
      simp only [Option.getD_none, Option.map_some']
      rw [if_pos ht, removeFK3_addFK3_nil]
      rfl
  · rw [if_neg ht]
    cases hmt : OMap.get mt t with
    | none => rfl
    | some mp =>
      simp only [Option.map_some']
      rw [if_neg ht]


theorem textsUnique_append {core : List (Filter × Str)} {f : Filter}
    (kw : Str) (hu : TextsUnique core)
    (hk : Matcher2.getKw core f.text = none) :
    TextsUnique (core ++ [(f, kw)]) := by
  rw [TextsUnique, List.map_append, List.nodup_append]
  refine ⟨hu, by simp, ?_⟩
  intro t ht
  simp only [List.map_cons, List.map_nil, List.mem_singleton]
  intro he
  rw [List.mem_map] at ht
  rcases ht with ⟨p, hp, hpt⟩
  rw [getKw_none_iff] at hk
  exact hk p hp (by rw [hpt, he])

theorem textsUnique_delText {core : List (Filter × Str)} (text : String)
    (hu : TextsUnique core) :
    TextsUnique (Matcher2.delText core text) :=
  hu.sublist ((delText_sublist ..).map _)

theorem mem_delText_of_ne {core : List (Filter × Str)} {g : Filter}
    {kw : Str} {text : String} (h : (g, kw) ∈ core)
    (hne : g.text ≠ text) : (g, kw) ∈ Matcher2.delText core text := by
  induction core with
  | nil => simp at h
  | cons q rest ih =>
    rcases q with ⟨g0, k0⟩
    rw [Matcher2.delText]
    by_cases h0 : g0.text = text
    · rw [if_pos h0]
      rcases List.mem_cons.mp h with he | hm
      · exact absurd (by rw [(Prod.mk.injEq ..).mp he |>.1, h0])
          hne
      · exact hm
    · rw [if_neg h0]
      rcases List.mem_cons.mp h with he | hm
      · rw [he]
        exact List.mem_cons_self ..
      · exact List.mem_cons_of_mem _ (ih hm)

theorem getKw_of_mem_unique {core : List (Filter × Str)}
    (hu : TextsUnique core) {g : Filter} {kw : Str}
    (h : (g, kw) ∈ core) :
    Matcher2.getKw core g.text = some kw := by
  induction core with
  | nil => simp at h
  | cons q rest ih =>
    rcases q with ⟨g0, k0⟩
    rw [TextsUnique, List.map_cons, List.nodup_cons] at hu
    rw [Matcher2.getKw]
    rcases List.mem_cons.mp h with he | hm
    · rw [(Prod.mk.injEq ..).mp he |>.1]
      rw [if_pos rfl]
      rw [(Prod.mk.injEq ..).mp he |>.2]
    · by_cases h0 : g0.text = g.text
      · exact absurd (by
          rw [List.mem_map]
          exact ⟨(g, kw), hm, h0.symm⟩) hu.1
      · rw [if_neg h0]
        exact ih hu.2 hm

/-- The shape of a part-003 bucket in a reachable state: a set bucket
has at least two members and no repeated text. -/
def Bucket3OK (fk : FK3) : Prop :=
  (∀ l, fk = FK3.many l → 2 ≤ l.length) ∧
  (fk.toList.map Filter.text).Nodup

/-- `addFilterByKeyword` preserves a per-member property and the
bucket shape invariant, provided the added filter's text is fresh. -/
theorem addFK3_preserves {mp : List (Str × FK3)} {f : Filter}
    {kw0 : Str} (P : Filter → Str → Prop)
    (hmp : ∀ kw fk, OMap.get mp kw = some fk →
      Bucket3OK fk ∧ ∀ g ∈ fk.toList, P g kw)
    (hfreshT : ∀ kw fk, OMap.get mp kw = some fk →
      ∀ g ∈ fk.toList, g.text ≠ f.text)
    (hPf : P f kw0) :
    ∀ kw fk, OMap.get (addFK3 f kw0 mp) kw = some fk →
      Bucket3OK fk ∧ ∀ g ∈ fk.toList, P g kw := by
  intro kw fk hk
  cases hb : OMap.get mp kw0 with
  | none =>
    rw [addFK3, hb] at hk
    dsimp only at hk
    by_cases he : kw = kw0
    · subst he
      rw [OMap.get_set_self] at hk
      injection hk with hk
      subst hk
      refine ⟨⟨(fun l h => nomatch h), by simp [FK3.toList]⟩, ?_⟩
      intro g hg
      simp only [FK3.toList, List.mem_singleton] at hg
      subst hg
      exact hPf
    · rw [OMap.get_set_other _ _ _ _ he] at hk
      exact hmp kw fk hk
  | some fk0 =>
    cases fk0 with
    | one g0 =>
      have hg0 : g0.text ≠ f.text :=
        hfreshT kw0 (FK3.one g0) hb g0 (by simp [FK3.toList])
      rw [addFK3, hb] at hk
      dsimp only at hk
      rw [if_neg (fun he => hg0 he.symm)] at hk
      by_cases he : kw = kw0
      · subst he
        rw [OMap.get_set_self] at hk
        injection hk with hk
        subst hk
        refine ⟨⟨?_, by simp [FK3.toList, hg0]⟩, ?_⟩
        · intro l h
          injection h with h
          rw [← h]
          simp
        · intro g hg
          simp only [FK3.toList, List.mem_cons, List.mem_singleton,
            List.not_mem_nil, or_false] at hg
          rcases hg with hg | hg
          · subst hg
            exact (hmp kw (FK3.one g) hb).2 g (by simp [FK3.toList])
          · subst hg
            exact hPf
      · rw [OMap.get_set_other _ _ _ _ he] at hk
        exact hmp kw fk hk
    | many l =>
      obtain ⟨hok0, hP0⟩ := hmp kw0 (FK3.many l) hb
      have hfl : ∀ g ∈ l, g.text ≠ f.text := by
        intro g hg
        exact hfreshT kw0 (FK3.many l) hb g (by
          simpa [FK3.toList] using hg)
      rw [addFK3, hb] at hk
      dsimp only at hk
      by_cases he : kw = kw0
      · subst he
        rw [OMap.get_set_self] at hk
        injection hk with hk
        subst hk
        by_cases han : l.any (fun g => g.text = f.text)
        · rw [if_pos han]
          exact ⟨hok0, hP0⟩
        · rw [if_neg han]
          refine ⟨⟨fun l' h => ?_, ?_⟩, ?_⟩
          · injection h with h
            rw [← h]
            have := hok0.1 l rfl
            simp only [List.length_append, List.length_cons,
              List.length_nil]
            omega
          · simp only [FK3.toList, List.map_append]
            rw [List.nodup_append]
            refine ⟨by simpa [FK3.toList] using hok0.2, by simp, ?_⟩
            intro t ht
            simp only [List.map_cons, List.map_nil, List.mem_singleton]
            intro hte
            rw [List.mem_map] at ht
            rcases ht with ⟨g, hg, hgt⟩
            exact hfl g hg (by rw [hgt, hte])
          · intro g hg
            simp only [FK3.toList, List.mem_append,
              List.mem_singleton] at hg
            rcases hg with hg | hg
            · exact hP0 g (by simpa [FK3.toList] using hg)
            · subst hg
              exact hPf
      · rw [OMap.get_set_other _ _ _ _ he] at hk
        exact hmp kw fk hk

/-- `removeFilterByKeyword` preserves bucket shapes and transports a
per-member property, given that any member carrying the removed text
sits in the touched bucket. -/
theorem removeFK3_preserves {mp : List (Str × FK3)} {f : Filter}
    {kw0 : Str} (P Q : Filter → Str → Prop)
    (hmp : ∀ kw fk, OMap.get mp kw = some fk →
      Bucket3OK fk ∧ ∀ g ∈ fk.toList, P g kw)
    (himp : ∀ g kw, P g kw → g.text ≠ f.text → Q g kw)
    (honly : ∀ g kw, P g kw → g.text = f.text → kw = kw0) :
    ∀ kw fk, OMap.get (removeFK3 f kw0 mp) kw = some fk →
      Bucket3OK fk ∧ ∀ g ∈ fk.toList, Q g kw := by
  intro kw fk hk
  cases hb : OMap.get mp kw0 with
  | none =>
    rw [removeFK3, hb] at hk
    obtain ⟨hok, hP⟩ := hmp kw fk hk
    refine ⟨hok, fun g hg => ?_⟩
    by_cases ht : g.text = f.text
    · have he := honly g kw (hP g hg) ht
      rw [he, hb] at hk
      cases hk
    · exact himp g kw (hP g hg) ht
  | some fk0 =>
    cases fk0 with
    | one g0 =>
      rw [removeFK3, hb] at hk
      dsimp only at hk
      by_cases hf0 : f.text = g0.text
      · rw [if_pos hf0] at hk
        by_cases he : kw = kw0
        · subst he
          rw [OMap.get_del_self] at hk
          cases hk
        · rw [OMap.get_del_other _ _ _ he] at hk
          obtain ⟨hok, hP⟩ := hmp kw fk hk
          refine ⟨hok, fun g hg => ?_⟩
          by_cases ht : g.text = f.text
          · exact absurd (honly g kw (hP g hg) ht) he
          · exact himp g kw (hP g hg) ht
      · rw [if_neg hf0] at hk
        obtain ⟨hok, hP⟩ := hmp kw fk hk
        refine ⟨hok, fun g hg => ?_⟩
        by_cases ht : g.text = f.text
        · have he := honly g kw (hP g hg) ht
          subst he
          rw [hb] at hk
          injection hk with hk
          subst hk
          simp only [FK3.toList, List.mem_singleton] at hg
          subst hg
          exact absurd ht.symm hf0
        · exact himp g kw (hP g hg) ht
    | many l =>
      obtain ⟨hok0, hP0⟩ := hmp kw0 (FK3.many l) hb
      have hlen2 : 2 ≤ l.length := hok0.1 l rfl
      have hnd : (l.map Filter.text).Nodup := by
        simpa [FK3.toList] using hok0.2
      rw [removeFK3, hb] at hk
      dsimp only at hk
      cases hcl : eraseText l f.text with
      | nil =>
        have hle := eraseText_length l f.text
        rw [hcl] at hle
        simp only [List.length_nil] at hle
        omega
      | cons x rest =>
        have hmem : ∀ g ∈ eraseText l f.text,
            g ∈ l ∧ g.text ≠ f.text := by
          intro g hg
          exact ⟨mem_of_mem_eraseText hg, mem_eraseText_ne hnd hg⟩
        cases rest with
        | nil =>
          rw [hcl] at hk
          by_cases he : kw = kw0
          · subst he
            rw [OMap.get_set_self] at hk
            injection hk with hk
            subst hk
            refine ⟨⟨(fun l' h => nomatch h), by simp [FK3.toList]⟩, ?_⟩
            intro g hg
            simp only [FK3.toList, List.mem_singleton] at hg
            subst hg
            have hx := hmem g (by rw [hcl]; exact List.mem_cons_self ..)
            exact himp g kw
              (hP0 g (by simpa [FK3.toList] using hx.1)) hx.2
          · rw [OMap.get_set_other _ _ _ _ he] at hk
            obtain ⟨hok, hP⟩ := hmp kw fk hk
            refine ⟨hok, fun g hg => ?_⟩
            by_cases ht : g.text = f.text
            · exact absurd (honly g kw (hP g hg) ht) he
            · exact himp g kw (hP g hg) ht
        | cons y r =>
          rw [hcl] at hk
          by_cases he : kw = kw0
          · subst he
            rw [OMap.get_set_self] at hk
            injection hk with hk
            subst hk
            refine ⟨⟨?_, ?_⟩, ?_⟩
            · intro l' h
              injection h with h
              rw [← h]
              simp
            · have hsub : (x :: y :: r).Sublist l := by
                rw [← hcl]
                exact eraseText_sublist ..
              simpa [FK3.toList] using (hsub.map Filter.text).nodup hnd
            · intro g hg
              rw [FK3.toList, ← hcl] at hg
              have hx := hmem g hg
              exact himp g kw
                (hP0 g (by simpa [FK3.toList] using hx.1)) hx.2
          · rw [OMap.get_set_other _ _ _ _ he] at hk
            obtain ⟨hok, hP⟩ := hmp kw fk hk
            refine ⟨hok, fun g hg => ?_⟩
            by_cases ht : g.text = f.text
            · exact absurd (honly g kw (hP g hg) ht) he
            · exact himp g kw (hP g hg) ht


/-- The representation invariant of part-003 matcher states: no
duplicate filter text in the core map; every bucket member is recorded
in the core map under the bucket's keyword; simple and complex buckets
hold only simple resp. non-simple filters; a per-type bucket member
has that type bit; and every set bucket is a proper set of at least
two distinct texts. -/
def Inv3 (m : Matcher3) : Prop :=
  TextsUnique m.keywordByFilter ∧
  (∀ kw fk, OMap.get m.simpleFiltersByKeyword kw = some fk →
    Bucket3OK fk ∧ ∀ g ∈ fk.toList,
      (g, kw) ∈ m.keywordByFilter ∧ isSimpleF g = true) ∧
  (∀ kw fk, OMap.get m.complexFiltersByKeyword kw = some fk →
    Bucket3OK fk ∧ ∀ g ∈ fk.toList,
      (g, kw) ∈ m.keywordByFilter ∧ isSimpleF g = false) ∧
  (∀ t mp, OMap.get m.filterMapsByType t = some mp →
    ∀ kw fk, OMap.get mp kw = some fk →
      Bucket3OK fk ∧ ∀ g ∈ fk.toList,
        (g, kw) ∈ m.keywordByFilter ∧ isSimpleF g = false ∧
        t ∈ enumerateTypes g.contentType)

/-- The part-003 matcher states reachable through the API.  The
source interns filters by text (`Filter.fromText` returns the same
object for the same text), so a filter passed to `remove` that shares
its text with a stored filter is that stored filter; the `remove`
constructor records this. -/
inductive Reach3 : Matcher3 → Prop where
  | empty : Reach3 Matcher3.empty
  | add {m : Matcher3} (f : Filter) : Reach3 m → Reach3 (m.add f)
  | remove {m : Matcher3} (f : Filter) : Reach3 m →
      (∀ g kw, (g, kw) ∈ m.keywordByFilter → g.text = f.text →
        g = f) →
      Reach3 (m.remove f)
  | clear {m : Matcher3} : Reach3 m → Reach3 m.clear

theorem inv3_empty : Inv3 Matcher3.empty := by
  refine ⟨by simp [TextsUnique, Matcher3.empty], ?_, ?_, ?_⟩
  · intro kw fk hk
    simp [Matcher3.empty, OMap.get] at hk
  · intro kw fk hk
    simp [Matcher3.empty, OMap.get] at hk
  · intro t mp hm
    simp [Matcher3.empty, OMap.get] at hm

/-- Every reachable part-003 state satisfies the representation
invariant. -/
theorem inv3_of_reach3 {m : Matcher3} (hr : Reach3 m) : Inv3 m := by
  induction hr with
  | empty => exact inv3_empty
  | @add mm f hr ih =>
    obtain ⟨hu, hS, hC, hT⟩ := ih
    rw [Matcher3.add]
    cases hk : Matcher2.getKw mm.keywordByFilter f.text with
    | some kw1 =>
      simp only [Option.isSome_some, if_true]
      exact ⟨hu, hS, hC, hT⟩
    | none =>
      simp only [Option.isSome_none, Bool.false_eq_true, if_false]
      have hfreshCore : ∀ p ∈ mm.keywordByFilter, p.1.text ≠ f.text :=
        (getKw_none_iff ..).mp hk
      by_cases hs : isSimpleF f
      · rw [if_pos hs]
        refine ⟨textsUnique_append _ hu hk, ?_, ?_, ?_⟩
        · exact addFK3_preserves
            (fun g kw => (g, kw) ∈ mm.keywordByFilter ++
              [(f, Matcher3.findKw mm f.pattern)] ∧ isSimpleF g = true)
            (fun kw fk hkf =>
              ⟨(hS kw fk hkf).1, fun g hg =>
                ⟨List.mem_append_left _ ((hS kw fk hkf).2 g hg).1,
                 ((hS kw fk hkf).2 g hg).2⟩⟩)
            (fun kw fk hkf g hg =>
              hfreshCore (g, kw) ((hS kw fk hkf).2 g hg).1)
            ⟨List.mem_append_right _ (List.mem_singleton.mpr rfl), hs⟩
        · intro kw fk hkf
          refine ⟨(hC kw fk hkf).1, fun g hg =>
            ⟨List.mem_append_left _ ((hC kw fk hkf).2 g hg).1,
             ((hC kw fk hkf).2 g hg).2⟩⟩
        · intro t mp hm kw fk hkf
          refine ⟨(hT t mp hm kw fk hkf).1, fun g hg =>
            ⟨List.mem_append_left _ ((hT t mp hm kw fk hkf).2 g hg).1,
             ((hT t mp hm kw fk hkf).2 g hg).2.1,
             ((hT t mp hm kw fk hkf).2 g hg).2.2⟩⟩
      · rw [if_neg hs]
        have hs' : isSimpleF f = false := by
          cases hq : isSimpleF f
          · rfl
          · exact absurd hq hs
        refine ⟨textsUnique_append _ hu hk, ?_, ?_, ?_⟩
        · intro kw fk hkf
          refine ⟨(hS kw fk hkf).1, fun g hg =>
            ⟨List.mem_append_left _ ((hS kw fk hkf).2 g hg).1,
             ((hS kw fk hkf).2 g hg).2⟩⟩
        · exact addFK3_preserves
            (fun g kw => (g, kw) ∈ mm.keywordByFilter ++
              [(f, Matcher3.findKw mm f.pattern)] ∧ isSimpleF g = false)
            (fun kw fk hkf =>
              ⟨(hC kw fk hkf).1, fun g hg =>
                ⟨List.mem_append_left _ ((hC kw fk hkf).2 g hg).1,
                 ((hC kw fk hkf).2 g hg).2⟩⟩)
            (fun kw fk hkf g hg =>
              hfreshCore (g, kw) ((hC kw fk hkf).2 g hg).1)
            ⟨List.mem_append_right _ (List.mem_singleton.mpr rfl), hs'⟩
        · intro t mp hm
          rw [Matcher3.addTypes,
            get_addTypes_fold _ _ _ _ _ (enumerateTypes_nodup _)] at hm
          by_cases ht : t ∈ enumerateTypes f.contentType
          · rw [if_pos ht] at hm
            injection hm with hm
            subst hm
            exact addFK3_preserves
              (fun g kw => (g, kw) ∈ mm.keywordByFilter ++
                [(f, Matcher3.findKw mm f.pattern)] ∧
                isSimpleF g = false ∧
                t ∈ enumerateTypes g.contentType)
              (by
                intro kw fk hkf
                cases hg0 : OMap.get mm.filterMapsByType t with
                | none =>
                  rw [hg0] at hkf
                  simp only [Option.getD_none] at hkf
                  cases hkf
                | some mp0 =>
                  rw [hg0] at hkf
                  simp only [Option.getD_some] at hkf
                  refine ⟨(hT t mp0 hg0 kw fk hkf).1, fun g hg =>
                    ⟨List.mem_append_left _
                      ((hT t mp0 hg0 kw fk hkf).2 g hg).1,
                     ((hT t mp0 hg0 kw fk hkf).2 g hg).2.1,
                     ((hT t mp0 hg0 kw fk hkf).2 g hg).2.2⟩⟩)
              (by
                intro kw fk hkf g hg
                cases hg0 : OMap.get mm.filterMapsByType t with
                | none =>
                  rw [hg0] at hkf
                  simp only [Option.getD_none] at hkf
                  cases hkf
                | some mp0 =>
                  rw [hg0] at hkf
                  simp only [Option.getD_some] at hkf
                  exact hfreshCore (g, kw)
                    ((hT t mp0 hg0 kw fk hkf).2 g hg).1)
              ⟨List.mem_append_right _ (List.mem_singleton.mpr rfl),
               hs', ht⟩
          · rw [if_neg ht] at hm
            intro kw fk hkf
            refine ⟨(hT t mp hm kw fk hkf).1, fun g hg =>
              ⟨List.mem_append_left _ ((hT t mp hm kw fk hkf).2 g hg).1,
               ((hT t mp hm kw fk hkf).2 g hg).2.1,
               ((hT t mp hm kw fk hkf).2 g hg).2.2⟩⟩
  | @remove mm f hr hcoh ih =>
    obtain ⟨hu, hS, hC, hT⟩ := ih
    rw [Matcher3.remove]
    cases hk : Matcher2.getKw mm.keywordByFilter f.text with
    | none => exact ⟨hu, hS, hC, hT⟩
    | some kw0 =>
      dsimp only
      have honlyC : ∀ (g : Filter) (kw : Str),
          (g, kw) ∈ mm.keywordByFilter → g.text = f.text → kw = kw0 := by
        intro g kw hm ht
        have := getKw_of_mem_unique hu hm
        rw [ht, hk] at this
        injection this with this
        exact this.symm
      have hmemDel : ∀ (g : Filter) (kw : Str),
          (g, kw) ∈ mm.keywordByFilter → g.text ≠ f.text →
          (g, kw) ∈ Matcher2.delText mm.keywordByFilter f.text :=
        fun g kw hm ht => mem_delText_of_ne hm ht
      by_cases hs : isSimpleF f
      · rw [if_pos hs]
        refine ⟨textsUnique_delText _ hu, ?_, ?_, ?_⟩
        · exact removeFK3_preserves
            (fun g kw => (g, kw) ∈ mm.keywordByFilter ∧
              isSimpleF g = true)
            (fun g kw => (g, kw) ∈
              Matcher2.delText mm.keywordByFilter f.text ∧
              isSimpleF g = true)
            hS
            (fun g kw hP ht => ⟨hmemDel g kw hP.1 ht, hP.2⟩)
            (fun g kw hP ht => honlyC g kw hP.1 ht)
        · intro kw fk hkf
          obtain ⟨hok, hP⟩ := hC kw fk hkf
          refine ⟨hok, fun g hg => ?_⟩
          by_cases ht : g.text = f.text
          · have hgf := hcoh g kw (hP g hg).1 ht
            subst hgf
            rw [(hP g hg).2] at hs
            exact absurd hs (by simp)
          · exact ⟨hmemDel g kw (hP g hg).1 ht, (hP g hg).2⟩
        · intro t mp hm kw fk hkf
          obtain ⟨hok, hP⟩ := hT t mp hm kw fk hkf
          refine ⟨hok, fun g hg => ?_⟩
          by_cases ht : g.text = f.text
          · have hgf := hcoh g kw (hP g hg).1 ht
            subst hgf
            rw [(hP g hg).2.1] at hs
            exact absurd hs (by simp)
          · exact ⟨hmemDel g kw (hP g hg).1 ht, (hP g hg).2.1,
              (hP g hg).2.2⟩
      · rw [if_neg hs]
        refine ⟨textsUnique_delText _ hu, ?_, ?_, ?_⟩
        · intro kw fk hkf
          obtain ⟨hok, hP⟩ := hS kw fk hkf
          refine ⟨hok, fun g hg => ?_⟩
          by_cases ht : g.text = f.text
          · have hgf := hcoh g kw (hP g hg).1 ht
            subst hgf
            exact absurd (hP g hg).2 hs
          · exact ⟨hmemDel g kw (hP g hg).1 ht, (hP g hg).2⟩
        · exact removeFK3_preserves
            (fun g kw => (g, kw) ∈ mm.keywordByFilter ∧
              isSimpleF g = false)
            (fun g kw => (g, kw) ∈
              Matcher2.delText mm.keywordByFilter f.text ∧
              isSimpleF g = false)
            hC
            (fun g kw hP ht => ⟨hmemDel g kw hP.1 ht, hP.2⟩)
            (fun g kw hP ht => honlyC g kw hP.1 ht)
        · intro t mp hm
          rw [Matcher3.removeTypes,
            get_removeTypes_fold _ _ _ _ _ (enumerateTypes_nodup _)]
            at hm
          rw [Option.map_eq_some'] at hm
          obtain ⟨mp0, hg0, hmp0⟩ := hm
          by_cases ht : t ∈ enumerateTypes f.contentType
          · rw [if_pos ht] at hmp0
            subst hmp0
            exact removeFK3_preserves
              (fun g kw => (g, kw) ∈ mm.keywordByFilter ∧
                isSimpleF g = false ∧
                t ∈ enumerateTypes g.contentType)
              (fun g kw => (g, kw) ∈
                Matcher2.delText mm.keywordByFilter f.text ∧
                isSimpleF g = false ∧
                t ∈ enumerateTypes g.contentType)
              (hT t mp0 hg0)
              (fun g kw hP hne =>
                ⟨hmemDel g kw hP.1 hne, hP.2.1, hP.2.2⟩)
              (fun g kw hP hte => honlyC g kw hP.1 hte)
          · rw [if_neg ht] at hmp0
            subst hmp0
            intro kw fk hkf
            obtain ⟨hok, hP⟩ := hT t mp0 hg0 kw fk hkf
            refine ⟨hok, fun g hg => ?_⟩
            by_cases hte : g.text = f.text
            · have hgf := hcoh g kw (hP g hg).1 hte
              subst hgf
              exact absurd (hP g hg).2.2 (by
                rw [show enumerateTypes g.contentType =
                  enumerateTypes g.contentType from rfl]
                exact ht)
            · exact ⟨hmemDel g kw (hP g hg).1 hte, (hP g hg).2.1,
                (hP g hg).2.2⟩
  | clear hr ih => exact inv3_empty


/-- Removing an absent filter is a no-op on the part-003 matcher. -/
theorem m3_remove_absent {m : Matcher3} {f : Filter}
    (h : m.has f = false) : m.remove f = m := by
  rw [Matcher3.remove]
  cases hk : Matcher2.getKw m.keywordByFilter f.text with
  | some kw =>
    rw [Matcher3.has, hk] at h
    simp at h
  | none => rfl

/-- `add f; remove f` on the part-003 matcher restores the core map
and the keyword buckets exactly, and the per-type buckets up to the
emptied per-type maps the source leaves behind. -/
theorem m3_add_remove {m : Matcher3} (f : Filter) (hr : Reach3 m) :
    ((m.add f).remove f).keywordByFilter =
      (m.remove f).keywordByFilter ∧
    ((m.add f).remove f).simpleFiltersByKeyword =
      (m.remove f).simpleFiltersByKeyword ∧
    ((m.add f).remove f).complexFiltersByKeyword =
      (m.remove f).complexFiltersByKeyword ∧
    ∀ t kw, ((m.add f).remove f).typeLookup t kw =
      (m.remove f).typeLookup t kw := by
  obtain ⟨hu, hS, hC, hT⟩ := inv3_of_reach3 hr
  cases hk : Matcher2.getKw m.keywordByFilter f.text with
  | some kw1 =>
    rw [Matcher3.add, hk]
    simp only [Option.isSome_some, if_true]
    exact ⟨trivial, trivial, trivial, fun t kw => trivial⟩
  | none =>
    have hrm : m.remove f = m := by
      rw [Matcher3.remove, hk]
    rw [hrm]
    rw [Matcher3.add, hk]
    simp only [Option.isSome_none, Bool.false_eq_true, if_false]
    have hfreshCore : ∀ p ∈ m.keywordByFilter, p.1.text ≠ f.text :=
      (getKw_none_iff ..).mp hk
    have hgk : Matcher2.getKw
        (m.keywordByFilter ++ [(f, Matcher3.findKw m f.pattern)])
        f.text = some (Matcher3.findKw m f.pattern) := by
      rw [getKw_append_right _ hk, Matcher2.getKw, if_pos rfl]
    by_cases hs : isSimpleF f
    · rw [if_pos hs]
      rw [Matcher3.remove]
      dsimp only
      rw [hgk]
      dsimp only
      rw [if_pos hs]
      refine ⟨delText_append_cancel _ hk, ?_, rfl, fun t kw => rfl⟩
      apply removeFK3_addFK3
      · intro fk hb g hg
        exact hfreshCore (g, Matcher3.findKw m f.pattern)
          ((hS (Matcher3.findKw m f.pattern) fk hb).2 g hg).1
      · intro l hb
        have := (hS (Matcher3.findKw m f.pattern)
          (FK3.many l) hb).1.1 l rfl
        omega
    · rw [if_neg hs]
      rw [Matcher3.remove]
      dsimp only
      rw [hgk]
      dsimp only
      rw [if_neg hs]
      refine ⟨delText_append_cancel _ hk, rfl, ?_, ?_⟩
      · apply removeFK3_addFK3
        · intro fk hb g hg
          exact hfreshCore (g, Matcher3.findKw m f.pattern)
            ((hC (Matcher3.findKw m f.pattern) fk hb).2 g hg).1
        · intro l hb
          have := (hC (Matcher3.findKw m f.pattern)
            (FK3.many l) hb).1.1 l rfl
          omega
      · intro t kw
        rw [Matcher3.typeLookup, Matcher3.typeLookup]
        dsimp only
        apply tlook_remove_addTypes
        · intro t' mp hm fk hb g hg
          exact hfreshCore (g, Matcher3.findKw m f.pattern)
            ((hT t' mp hm (Matcher3.findKw m f.pattern) fk hb).2
              g hg).1
        · intro t' mp hm l hb
          have := (hT t' mp hm (Matcher3.findKw m f.pattern)
            (FK3.many l) hb).1.1 l rfl
          omega

/-- After `add f; remove f` the filter is gone from the part-003
matcher. -/
theorem m3_add_remove_has {m : Matcher3} (f : Filter)
    (hr : Reach3 m) : ((m.add f).remove f).has f = false := by
  have hu : TextsUnique m.keywordByFilter := (inv3_of_reach3 hr).1
  cases hk : Matcher2.getKw m.keywordByFilter f.text with
  | some kw1 =>
    rw [Matcher3.add, hk]
    simp only [Option.isSome_some, if_true]
    rw [Matcher3.remove, hk]
    dsimp only
    by_cases hs : isSimpleF f
    · rw [if_pos hs, Matcher3.has]
      dsimp only
      rw [getKw_delText_none hu]
      rfl
    · rw [if_neg hs, Matcher3.has]
      dsimp only
      rw [getKw_delText_none hu]
      rfl
  | none =>
    rw [Matcher3.add, hk]
    simp only [Option.isSome_none, Bool.false_eq_true, if_false]
    have hgk : Matcher2.getKw
        (m.keywordByFilter ++ [(f, Matcher3.findKw m f.pattern)])
        f.text = some (Matcher3.findKw m f.pattern) := by
      rw [getKw_append_right _ hk, Matcher2.getKw, if_pos rfl]
    by_cases hs : isSimpleF f
    · rw [if_pos hs, Matcher3.remove]
      dsimp only
      rw [hgk]
      dsimp only
      rw [if_pos hs, Matcher3.has]
      dsimp only
      rw [delText_append_cancel _ hk, hk]
      rfl
    · rw [if_neg hs, Matcher3.remove]
      dsimp only
      rw [hgk]
      dsimp only
      rw [if_neg hs, Matcher3.has]
      dsimp only
      rw [delText_append_cancel _ hk, hk]
      rfl

/-- `checkEntryMatch` reads the matcher only through its keyword
buckets and the per-type lookup. -/
theorem checkEntryMatch3_congr {m m' : Matcher3}
    (hs : m.simpleFiltersByKeyword = m'.simpleFiltersByKeyword)
    (hc : m.complexFiltersByKeyword = m'.complexFiltersByKeyword)
    (ht : ∀ t kw, m.typeLookup t kw = m'.typeLookup t kw)
    (rxOk : Bool) (kw : Str) (req : Request) (typeMask : Nat)
    (sitekey : Option String) (specificOnly : Bool) :
    Matcher3.checkEntryMatch3 rxOk m kw req typeMask sitekey
      specificOnly =
    Matcher3.checkEntryMatch3 rxOk m' kw req typeMask sitekey
      specificOnly := by
  rw [Matcher3.checkEntryMatch3, Matcher3.checkEntryMatch3,
    Matcher3.cemSimple, Matcher3.cemSimple, hs,
    Matcher3.cemForType3, Matcher3.cemForType3, ht typeMask kw,
    Matcher3.cemComplex, Matcher3.cemComplex, hc]

theorem matchLoop3_congr {m m' : Matcher3}
    (hs : m.simpleFiltersByKeyword = m'.simpleFiltersByKeyword)
    (hc : m.complexFiltersByKeyword = m'.complexFiltersByKeyword)
    (ht : ∀ t kw, m.typeLookup t kw = m'.typeLookup t kw)
    (rxOk : Bool) (req : Request) (typeMask : Nat)
    (sitekey : Option String) (specificOnly : Bool)
    (cands : List Str) :
    Matcher3.matchLoop3 rxOk m req typeMask sitekey specificOnly
      cands =
    Matcher3.matchLoop3 rxOk m' req typeMask sitekey specificOnly
      cands := by
  induction cands with
  | nil => rfl
  | cons c rest ih =>
    rw [Matcher3.matchLoop3, Matcher3.matchLoop3,
      checkEntryMatch3_congr hs hc ht rxOk c req typeMask sitekey
        specificOnly, ih]

/-- `match` returns the same result on part-003 matchers that agree
on buckets and per-type lookups. -/
theorem matchQ3_congr {m m' : Matcher3}
    (hs : m.simpleFiltersByKeyword = m'.simpleFiltersByKeyword)
    (hc : m.complexFiltersByKeyword = m'.complexFiltersByKeyword)
    (ht : ∀ t kw, m.typeLookup t kw = m'.typeLookup t kw)
    (rxOk : Bool) (req : Request) (typeMask : Nat)
    (sitekey : Option String) (specificOnly : Bool) :
    m.matchQ3 rxOk req typeMask sitekey specificOnly =
      m'.matchQ3 rxOk req typeMask sitekey specificOnly := by
  rw [Matcher3.matchQ3, Matcher3.matchQ3,
    matchLoop3_congr hs hc ht]


/-- C8: inverse of `add` — after `add f; remove f`, `has f` is false
and subsequent queries behave as if `f` had never been added.  On the
part-002 matcher the resulting state equals the state after a plain
`remove f` (which is exactly `m` when `f` was absent).  On the
combined matcher the same holds and the result caches are flushed, so
no stale cached result survives, and with `f` absent `match` and
`search` return the uncached `_matchInternal`/`_searchInternal`
results of the original state.  On the part-003 matcher the core map
and keyword buckets are restored and `match` answers every query as
after a plain `remove f`. -/
theorem c8_add_remove_inverse :
    (∀ (m : Matcher2) (f : Filter), Reach2 m →
      ((m.add f).remove f = m.remove f ∧
       ((m.add f).remove f).has f = false ∧
       (m.has f = false → m.remove f = m))) ∧
    (∀ (cm : CombinedM) (f : Filter),
      Reach2 cm.blocking → Reach2 cm.whitelist →
      ((cm.add f).remove f = cm.remove f ∧
       ((cm.add f).remove f).has f = false ∧
       ((cm.add f).remove f).matchCache = [] ∧
       ((cm.add f).remove f).searchCache = [] ∧
       (cm.has f = false →
         (∀ rxOk req typeMask sitekey specificOnly,
           (((cm.add f).remove f).matchC rxOk req typeMask sitekey
               specificOnly).1 =
             cm.matchInternal rxOk req typeMask sitekey specificOnly) ∧
         (∀ rxOk req typeMask sitekey specificOnly fType,
           (((cm.add f).remove f).searchC rxOk req typeMask sitekey
               specificOnly fType).1 =
             cm.searchInternal rxOk req typeMask sitekey specificOnly
               fType)))) ∧
    (∀ (m : Matcher3) (f : Filter), Reach3 m →
      (((m.add f).remove f).has f = false ∧
       (m.has f = false → m.remove f = m) ∧
       (∀ rxOk req typeMask sitekey specificOnly,
         ((m.add f).remove f).matchQ3 rxOk req typeMask sitekey
             specificOnly =
           (m.remove f).matchQ3 rxOk req typeMask sitekey
             specificOnly))) := by
  refine ⟨?_, ?_, ?_⟩
  · intro m f hr
    exact ⟨m2_add_remove f hr, m2_add_remove_has f hr,
      fun h => m2_remove_absent h⟩
  · intro cm f hb hw
    have hcc := cm_add_remove f hb hw
    refine ⟨hcc, cm_add_remove_has f hb hw,
      (cm_remove_caches (cm.add f) f).1,
      (cm_remove_caches (cm.add f) f).2, ?_⟩
    intro h
    have hra := cm_remove_absent h
    constructor
    · intro rxOk req typeMask sitekey specificOnly
      rw [matchC_empty_cache ((cm_remove_caches (cm.add f) f).1), hcc]
      exact matchInternal_congr hra.1 hra.2 rxOk req typeMask sitekey
        specificOnly
    · intro rxOk req typeMask sitekey specificOnly fType
      rw [searchC_empty_cache ((cm_remove_caches (cm.add f) f).2), hcc]
      exact searchInternal_congr hra.1 hra.2 rxOk req typeMask sitekey
        specificOnly fType
  · intro m f hr
    refine ⟨m3_add_remove_has f hr, fun h => m3_remove_absent h, ?_⟩
    intro rxOk req typeMask sitekey specificOnly
    obtain ⟨h1, h2, h3, h4⟩ := m3_add_remove f hr
    exact matchQ3_congr h2 h3 h4 rxOk req typeMask sitekey specificOnly

/-- Witness for C8 at the empty matchers and the filter `cxA`. -/
theorem c8_add_remove_inverse_witness :
    ((Matcher2.empty.add cxA).remove cxA = Matcher2.empty.remove cxA ∧
     ((Matcher2.empty.add cxA).remove cxA).has cxA = false) ∧
    ((CombinedM.empty.add cxA).remove cxA).has cxA = false ∧
    ((Matcher3.empty.add cxA).remove cxA).has cxA = false := by
  have h := c8_add_remove_inverse
  exact ⟨⟨(h.1 Matcher2.empty cxA Reach2.empty).1,
          (h.1 Matcher2.empty cxA Reach2.empty).2.1⟩,
         (h.2.1 CombinedM.empty cxA Reach2.empty Reach2.empty).2.1,
         (h.2.2 Matcher3.empty cxA Reach3.empty).1⟩


/-! ## Soundness of the literal fast path (towards C6) -/

theorem firstIndexOf?_spec {needle hay : List Char} {idx : Nat}
    (h : firstIndexOf? needle hay = some idx) :
    ∃ pre suf, hay = (pre ++ needle) ++ suf ∧ pre.length = idx := by
  induction hay generalizing idx with
  | nil =>
    rw [firstIndexOf?] at h
    by_cases hp : needle.isPrefixOf []
    · rw [if_pos hp] at h
      injection h with h
      rcases List.isPrefixOf_iff_prefix.mp hp with ⟨t, ht⟩
      refine ⟨[], t, ?_, by rw [← h]; rfl⟩
      rw [List.nil_append]
      exact ht.symm
    · rw [if_neg hp] at h
      cases h
  | cons c rest ih =>
    rw [firstIndexOf?] at h
    by_cases hp : needle.isPrefixOf (c :: rest)
    · rw [if_pos hp] at h
      injection h with h
      rcases List.isPrefixOf_iff_prefix.mp hp with ⟨t, ht⟩
      refine ⟨[], t, ?_, by rw [← h]; rfl⟩
      rw [List.nil_append]
      exact ht.symm
    · rw [if_neg hp] at h
      cases hfi : firstIndexOf? needle rest with
      | none =>
        rw [hfi] at h
        cases h
      | some j =>
        rw [hfi] at h
        injection h with h
        rcases ih hfi with ⟨pre, suf, hdec, hlen⟩
        refine ⟨c :: pre, suf, by rw [hdec]; rfl, ?_⟩
        rw [← h, ← hlen]
        rfl

theorem matchFrom_literal {body : List Char}
    (hb : ∀ c ∈ body, c ≠ '*' ∧ c ≠ '^') (suf : List Char) (e : Bool) :
    matchFrom body (body ++ suf) e = (!e || suf.isEmpty) := by
  induction body with
  | nil => rw [List.nil_append, mf_nil]
  | cons c b ih =>
    rw [List.cons_append,
      mf_lit c b _ e (hb c (List.mem_cons_self ..)).1
        (hb c (List.mem_cons_self ..)).2]
    simp only [decide_True, Bool.true_and, decide_eq_true_eq]
    rw [ih (fun c' hc' => hb c' (List.mem_cons_of_mem _ hc'))]

theorem matchFrom_lit_caret {body : List Char}
    (hb : ∀ c ∈ body, c ≠ '*' ∧ c ≠ '^') (suf : List Char) :
    matchFrom (body ++ ['^']) (body ++ suf) false =
      (match suf.head? with
       | none => true
       | some c => isSep c) := by
  induction body with
  | nil =>
    rw [List.nil_append, List.nil_append, mf_caret]
    cases suf with
    | nil =>
      dsimp only
      rw [mf_nil]
      rfl
    | cons c l =>
      dsimp only
      rw [mf_nil]
      simp
  | cons c b ih =>
    rw [List.cons_append, List.cons_append,
      mf_lit c _ _ false (hb c (List.mem_cons_self ..)).1
        (hb c (List.mem_cons_self ..)).2]
    simp only [decide_True, Bool.true_and, decide_eq_true_eq]
    rw [ih (fun c' hc' => hb c' (List.mem_cons_of_mem _ hc'))]

theorem extPreOk_mono {pre : List Char} {next : Option Char}
    (h : extPreOk pre none = true) (hn : next ≠ some '/') :
    extPreOk pre next = true := by
  have hd1 : (decide (next ≠ some '/')) = true := by simpa using hn
  have hd2 : (decide ((none : Option Char) ≠ some '/')) = true := by
    decide
  rw [extPreOk] at h ⊢
  dsimp only at h ⊢
  rw [hd2] at h
  rw [hd1]
  exact h

theorem stripEnd_caret {t : List Char} (hg : t.getLast? = some '^') :
    stripEnd t = (false, t) := by
  rw [stripEnd, hg]
  rfl

theorem stripEnd_bar {t : List Char} (hg : t.getLast? = some '|') :
    stripEnd t = (true, t.dropLast) := by
  rw [stripEnd, hg]
  rfl

theorem stripEnd_nil_last {t : List Char} (hg : t.getLast? = none) :
    stripEnd t = (false, t) := by
  rw [stripEnd, hg]

theorem stripEnd_other {t : List Char} {c : Char}
    (hg : t.getLast? = some c) (hc : c ≠ '|') :
    stripEnd t = (false, t) := by
  rw [stripEnd, hg]
  split
  · rename_i heq
    injection heq with heq
    exact absurd heq hc
  · rfl

theorem stripEnd_matchFrom_lit {t body suf : List Char}
    (hb : ∀ c ∈ body, c ≠ '*' ∧ c ≠ '^')
    (hcase :
      (t.getLast? = some '^' ∧ body = t.dropLast ∧
        (match suf.head? with
         | none => true
         | some c => isSep c) = true) ∨
      (t.getLast? = some '|' ∧ body = t.dropLast ∧ suf = []) ∨
      ((t.getLast? ≠ some '^' ∧ t.getLast? ≠ some '|') ∧ body = t)) :
    matchFrom (stripEnd t).2 (body ++ suf) (stripEnd t).1 = true := by
  rcases hcase with ⟨hg, hbody, hsep⟩ | ⟨hg, hbody, hsuf⟩ | ⟨hg, hbody⟩
  · rw [stripEnd_caret hg]
    have ht : t = body ++ ['^'] := by
      rw [hbody]
      exact (List.dropLast_append_getLast? _ hg).symm
    dsimp only
    rw [ht, matchFrom_lit_caret hb suf]
    exact hsep
  · rw [stripEnd_bar hg]
    subst hsuf
    dsimp only
    rw [← hbody, matchFrom_literal hb []]
    rfl
  · cases hgl : t.getLast? with
    | none =>
      rw [stripEnd_nil_last hgl]
      dsimp only
      rw [← hbody, matchFrom_literal hb suf]
      rfl
    | some c =>
      have hc2 : c ≠ '|' := fun he => hg.2 (by rw [hgl, he])
      rw [stripEnd_other hgl hc2]
      dsimp only
      rw [← hbody, matchFrom_literal hb suf]
      rfl


theorem take_of_decomp {loc pre body suf : List Char} {idx : Nat}
    (hdec : loc = (pre ++ body) ++ suf) (hlen : pre.length = idx) :
    loc.take idx = pre := by
  subst hdec
  rw [← hlen, List.append_assoc, List.take_left]

theorem drop_of_decomp {loc pre body suf : List Char} {idx : Nat}
    (hdec : loc = (pre ++ body) ++ suf) (hlen : pre.length = idx) :
    loc.drop idx = body ++ suf := by
  subst hdec
  rw [← hlen, List.append_assoc, List.drop_left]

theorem drop2_of_decomp {loc pre body suf : List Char} {idx : Nat}
    (hdec : loc = (pre ++ body) ++ suf) (hlen : pre.length = idx) :
    loc.drop (idx + body.length) = suf := by
  subst hdec
  rw [show idx + body.length = (pre ++ body).length from by
    simp [hlen], List.drop_left]

theorem suf_nil_of_len {loc pre body suf : List Char} {idx : Nat}
    (hdec : loc = (pre ++ body) ++ suf) (hlen : pre.length = idx)
    (hend : idx + body.length = loc.length) : suf = [] := by
  subst hdec
  rw [List.length_append, List.length_append, ← hlen] at hend
  have : suf.length = 0 := by omega
  exact List.eq_nil_of_length_eq_zero this

theorem lit_all_decomp {l : List Char}
    (h : l.all (fun c => c ≠ '*' && c ≠ '^' && c ≠ '|') = true) :
    ∀ c ∈ l, c ≠ '*' ∧ c ≠ '^' := by
  intro c hc
  have h2 := List.all_eq_true.mp h c hc
  simp only [Bool.and_eq_true, decide_eq_true_eq, ne_eq, Bool.and_assoc]
    at h2
  exact ⟨h2.1, h2.2.1⟩

theorem front_match_anchor {u : Char} (t' : List Char) (hu : u ≠ '|') :
    (match ('|' :: u :: t' : List Char) with
     | '|' :: '|' :: t => t
     | '|' :: t => t
     | t => t) = u :: t' := by
  split
  · rename_i t heq
    injection heq with h1 h2
    injection h2 with h3 h4
    exact absurd h3 hu
  · rename_i t heq
    injection heq with h1 h2
    exact h2.symm
  · rename_i hno1 hno2
    exact absurd rfl (hno2 (u :: t'))

theorem front_match_plain {c0 : Char} (rest : List Char)
    (hc0 : c0 ≠ '|') :
    (match (c0 :: rest : List Char) with
     | '|' :: '|' :: t => t
     | '|' :: t => t
     | t => t) = c0 :: rest := by
  split
  · rename_i t heq
    injection heq with h1 h2
    exact absurd h1 hc0
  · rename_i t heq
    injection heq with h1 h2
    exact absurd h1 hc0
  · rfl

theorem isLiteralPattern_ext (t : List Char) :
    isLiteralPattern ('|' :: '|' :: t) =
      (match t.getLast? with
       | some '|' => t.dropLast
       | some '^' => t.dropLast
       | _ => t).all (fun c => c ≠ '*' && c ≠ '^' && c ≠ '|') := rfl

theorem isLiteralPattern_anchor {u : Char} (t' : List Char)
    (hu : u ≠ '|') :
    isLiteralPattern ('|' :: u :: t') =
      (match (u :: t').getLast? with
       | some '|' => (u :: t').dropLast
       | some '^' => (u :: t').dropLast
       | _ => u :: t').all (fun c => c ≠ '*' && c ≠ '^' && c ≠ '|') := by
  simp only [isLiteralPattern, front_match_anchor t' hu]

theorem isLiteralPattern_plain {c0 : Char} (rest : List Char)
    (hc0 : c0 ≠ '|') :
    isLiteralPattern (c0 :: rest) =
      (match (c0 :: rest).getLast? with
       | some '|' => (c0 :: rest).dropLast
       | some '^' => (c0 :: rest).dropLast
       | _ => c0 :: rest).all
        (fun c => c ≠ '*' && c ≠ '^' && c ≠ '|') := by
  simp only [isLiteralPattern, front_match_plain rest hc0]


/-- The literal fast path of `_matchesLocation` is sound: when it
reports a match, the derived regular expression also matches. -/
theorem litMatch_sound {p loc : List Char}
    (hlit : isLiteralPattern p = true) (h : litMatch p loc = true) :
    patMatch p loc = true := by
  rw [litMatch] at h
  rw [patMatch.eq_def]
  split
  · rename_i t
    simp only [List.head?_cons, List.drop_succ_cons, List.drop_zero,
      Option.some.injEq, decide_True, Bool.true_and, if_true] at h
    cases t with
    | nil =>
      have hfi0 : firstIndexOf? ([] : List Char) loc = some 0 := by
        cases loc <;> rfl
      simp [hfi0, extTestPre, extPreOk] at h
    | cons u t' =>
      rw [show ('|' :: '|' :: u :: t').getLast? = (u :: t').getLast?
          from by rw [List.getLast?_cons_cons, List.getLast?_cons_cons]]
        at h
      rw [isLiteralPattern_ext] at hlit
      cases hgl : (u :: t').getLast? with
      | none => simp at hgl
      | some c =>
        rw [hgl] at h hlit
        by_cases hcar : c = '^'
        · subst hcar
          simp only [Option.some.injEq, Char.reduceEq, decide_True,
            decide_False, eq_self_iff_true, Bool.true_or, Bool.not_true,
            Bool.false_and, Bool.or_false, if_true, if_false,
            reduceCtorEq] at h
          have hb := lit_all_decomp (l := (u :: t').dropLast)
            (by simpa using hlit)
          cases hfi : firstIndexOf? ((u :: t').dropLast) loc with
          | none =>
            rw [hfi] at h
            simp at h
          | some idx =>
            rw [hfi] at h
            dsimp only at h
            obtain ⟨pre, suf, hdec, hlen⟩ := firstIndexOf?_spec hfi
            rw [take_of_decomp hdec hlen, drop_of_decomp hdec hlen,
              drop2_of_decomp hdec hlen] at h
            simp only [Bool.and_eq_true, decide_eq_true_eq] at h
            obtain ⟨⟨hslash, hpre⟩, hsep⟩ := h
            refine (extScan_iff _ _ _).mpr
              ⟨pre, (u :: t').dropLast ++ suf, ?_, ?_, ?_⟩
            · rw [hdec, List.append_assoc]
            · exact extPreOk_mono hpre hslash
            · exact stripEnd_matchFrom_lit hb (Or.inl ⟨hgl, rfl, hsep⟩)
        · by_cases hbar : c = '|'
          · subst hbar
            simp only [Option.some.injEq, Char.reduceEq, decide_True,
              decide_False, eq_self_iff_true, Bool.false_or,
              Bool.not_false, Bool.true_and, Bool.and_true, if_true,
              if_false, reduceCtorEq] at h
            have hb := lit_all_decomp (l := (u :: t').dropLast)
              (by simpa using hlit)
            cases hfi : firstIndexOf? ((u :: t').dropLast) loc with
            | none =>
              rw [hfi] at h
              simp at h
            | some idx =>
              rw [hfi] at h
              dsimp only at h
              obtain ⟨pre, suf, hdec, hlen⟩ := firstIndexOf?_spec hfi
              rw [take_of_decomp hdec hlen, drop_of_decomp hdec hlen]
                at h
              simp only [Bool.and_eq_true, decide_eq_true_eq] at h
              obtain ⟨⟨hslash, hpre⟩, hend⟩ := h
              have hsuf : suf = [] := suf_nil_of_len hdec hlen hend
              refine (extScan_iff _ _ _).mpr
                ⟨pre, (u :: t').dropLast ++ suf, ?_, ?_, ?_⟩
              · rw [hdec, List.append_assoc]
              · exact extPreOk_mono hpre hslash
              · exact stripEnd_matchFrom_lit hb
                  (Or.inr (Or.inl ⟨hgl, rfl, hsuf⟩))
          · have hlit2 : (u :: t').all
                (fun c => c ≠ '*' && c ≠ '^' && c ≠ '|') = true := by
              split at hlit
              · rename_i heq
                injection heq with heq
                exact absurd heq hbar
              · rename_i heq
                injection heq with heq
                exact absurd heq hcar
              · exact hlit
            have hb := lit_all_decomp hlit2
            have e1 : (decide (some c = some '^')) = false := by
              simp [hcar]
            have e2 : (decide (some c = some '|')) = false := by
              simp [hbar]
            rw [e1, e2] at h
            simp only [Bool.false_or, Bool.not_false, Bool.false_and,
              Bool.and_false, Bool.or_false, Bool.false_eq_true,
              if_false] at h
            cases hfi : firstIndexOf? (u :: t') loc with
            | none =>
              rw [hfi] at h
              simp at h
            | some idx =>
              rw [hfi] at h
              dsimp only at h
              rw [if_neg (fun he => hcar (by injection he))] at h
              obtain ⟨pre, suf, hdec, hlen⟩ := firstIndexOf?_spec hfi
              rw [take_of_decomp hdec hlen, drop_of_decomp hdec hlen]
                at h
              simp only [Bool.false_eq_true, if_false, Bool.and_true,
                Bool.and_eq_true, decide_eq_true_eq] at h
              obtain ⟨hslash, hpre⟩ := h
              refine (extScan_iff _ _ _).mpr
                ⟨pre, (u :: t') ++ suf, ?_, ?_, ?_⟩
              · rw [hdec, List.append_assoc]
              · exact extPreOk_mono hpre hslash
              · exact stripEnd_matchFrom_lit hb
                  (Or.inr (Or.inr ⟨⟨fun he => hcar (by
                      rw [hgl] at he
                      injection he), fun he => hbar (by
                      rw [hgl] at he
                      injection he)⟩, rfl⟩))
  · rename_i t hno
    cases t with
    | nil =>
      simp only [List.head?_cons, List.drop_succ_cons, List.drop_zero,
        List.head?_nil, List.getLast?_singleton, Option.some.injEq,
        Char.reduceEq, decide_True, decide_False, reduceCtorEq,
        Bool.true_and, Bool.and_true, Bool.and_false, Bool.false_and,
        Bool.not_false, Bool.not_true, Bool.false_or, Bool.or_false,
        Bool.false_eq_true, if_true, if_false, ite_self,
        List.dropLast_nil, List.length_nil, Nat.add_zero,
        eq_self_iff_true] at h
      have hfi0 : firstIndexOf? ([] : List Char) loc = some 0 := by
        cases loc <;> rfl
      rw [hfi0] at h
      dsimp only at h
      simp only [decide_eq_true_eq, Bool.and_eq_true] at h
      rw [show stripEnd ([] : List Char) = (false, []) from rfl]
      dsimp only
      have hloc : loc = [] := by
        have := h.2
        simpa using List.eq_nil_of_length_eq_zero this.symm
      rw [hloc, mf_nil]
      rfl
    | cons u t' =>
      have hu : u ≠ '|' := by
        intro he
        subst he
        exact hno t' rfl
      simp only [List.head?_cons, List.drop_succ_cons, List.drop_zero,
        Option.some.injEq, hu, decide_True, decide_False, Bool.true_and,
        Bool.false_and, Bool.and_false, Bool.false_eq_true, if_true,
        if_false] at h
      rw [show ('|' :: u :: t').getLast? = (u :: t').getLast?
          from List.getLast?_cons_cons ..] at h
      rw [isLiteralPattern_anchor t' hu] at hlit
      cases hgl : (u :: t').getLast? with
      | none => simp at hgl
      | some c =>
        rw [hgl] at h hlit
        by_cases hcar : c = '^'
        · subst hcar
          simp only [Option.some.injEq, Char.reduceEq, decide_True,
            decide_False, eq_self_iff_true, Bool.true_or, Bool.not_true,
            Bool.false_and, Bool.or_false, if_true, if_false,
            reduceCtorEq] at h
          have hb := lit_all_decomp (l := (u :: t').dropLast)
            (by simpa using hlit)
          cases hfi : firstIndexOf? ((u :: t').dropLast) loc with
          | none =>
            rw [hfi] at h
            simp at h
          | some idx =>
            rw [hfi] at h
            dsimp only at h
            obtain ⟨pre, suf, hdec, hlen⟩ := firstIndexOf?_spec hfi
            rw [drop2_of_decomp hdec hlen] at h
            simp only [Bool.and_eq_true, decide_eq_true_eq] at h
            obtain ⟨hidx, hsep⟩ := h
            have hpre : pre = [] := by
              rw [hidx] at hlen
              exact List.eq_nil_of_length_eq_zero hlen
            subst hpre
            rw [List.nil_append] at hdec
            rw [hdec]
            exact stripEnd_matchFrom_lit hb (Or.inl ⟨hgl, rfl, hsep⟩)
        · by_cases hbar : c = '|'
          · subst hbar
            simp only [Option.some.injEq, Char.reduceEq, decide_True,
              decide_False, eq_self_iff_true, Bool.false_or,
              Bool.not_false, Bool.true_and, Bool.and_true, if_true,
              if_false, reduceCtorEq] at h
            have hb := lit_all_decomp (l := (u :: t').dropLast)
              (by simpa using hlit)
            cases hfi : firstIndexOf? ((u :: t').dropLast) loc with
            | none =>
              rw [hfi] at h
              simp at h
            | some idx =>
              rw [hfi] at h
              dsimp only at h
              simp only [Bool.and_eq_true, decide_eq_true_eq] at h
              obtain ⟨hidx, hend⟩ := h
              obtain ⟨pre, suf, hdec, hlen⟩ := firstIndexOf?_spec hfi
              have hsuf : suf = [] := suf_nil_of_len hdec hlen hend
              have hpre : pre = [] := by
                rw [hidx] at hlen
                exact List.eq_nil_of_length_eq_zero hlen
              subst hpre
              rw [List.nil_append] at hdec
              rw [hdec]
              exact stripEnd_matchFrom_lit hb
                (Or.inr (Or.inl ⟨hgl, rfl, hsuf⟩))
          · have hlit2 : (u :: t').all
                (fun c => c ≠ '*' && c ≠ '^' && c ≠ '|') = true := by
              split at hlit
              · rename_i heq
                injection heq with heq
                exact absurd heq hbar
              · rename_i heq
                injection heq with heq
                exact absurd heq hcar
              · exact hlit
            have hb := lit_all_decomp hlit2
            have e1 : (decide (some c = some '^')) = false := by
              simp [hcar]
            have e2 : (decide (some c = some '|')) = false := by
              simp [hbar]
            rw [e1, e2] at h
            simp only [Bool.false_or, Bool.not_false, Bool.false_and,
              Bool.and_false, Bool.or_false, Bool.false_eq_true,
              if_false] at h
            cases hfi : firstIndexOf? (u :: t') loc with
            | none =>
              rw [hfi] at h
              simp at h
            | some idx =>
              rw [hfi] at h
              dsimp only at h
              rw [if_neg (fun he => hcar (by injection he))] at h
              simp only [Bool.false_eq_true, if_false, Bool.and_true,
                Bool.and_eq_true, decide_eq_true_eq] at h
              obtain ⟨pre, suf, hdec, hlen⟩ := firstIndexOf?_spec hfi
              have hpre : pre = [] := by
                rw [h] at hlen
                exact List.eq_nil_of_length_eq_zero hlen
              subst hpre
              rw [List.nil_append] at hdec
              rw [hdec]
              exact stripEnd_matchFrom_lit hb
                (Or.inr (Or.inr ⟨⟨fun he => hcar (by
                    rw [hgl] at he
                    injection he), fun he => hbar (by
                    rw [hgl] at he
                    injection he)⟩, rfl⟩))
  · rename_i hno1 hno2
    cases hp : p with
    | nil =>
      subst hp
      rw [show stripEnd ([] : List Char) = (false, []) from rfl]
      dsimp only
      refine (scanFrom_iff _ _ _).mpr ⟨[], loc, rfl, ?_⟩
      rw [mf_nil]
      rfl
    | cons c0 rest =>
      subst hp
      have hc0 : c0 ≠ '|' := by
        intro he
        subst he
        exact hno2 rest rfl
      simp only [List.head?_cons, Option.some.injEq, hc0, decide_True,
        decide_False, Bool.true_and, Bool.false_and, Bool.and_false,
        Bool.false_eq_true, if_true, if_false] at h
      rw [isLiteralPattern_plain rest hc0] at hlit
      cases hgl : (c0 :: rest).getLast? with
      | none => simp at hgl
      | some c =>
        rw [hgl] at h hlit
        by_cases hcar : c = '^'
        · subst hcar
          simp only [Option.some.injEq, Char.reduceEq, decide_True,
            decide_False, eq_self_iff_true, Bool.true_or, Bool.not_true,
            Bool.false_and, Bool.or_false, if_true, if_false,
            reduceCtorEq] at h
          have hb := lit_all_decomp (l := (c0 :: rest).dropLast)
            (by simpa using hlit)
          cases hfi : firstIndexOf? ((c0 :: rest).dropLast) loc with
          | none =>
            rw [hfi] at h
            simp at h
          | some idx =>
            rw [hfi] at h
            dsimp only at h
            obtain ⟨pre, suf, hdec, hlen⟩ := firstIndexOf?_spec hfi
            rw [drop2_of_decomp hdec hlen] at h
            refine (scanFrom_iff _ _ _).mpr
              ⟨pre, (c0 :: rest).dropLast ++ suf, ?_, ?_⟩
            · rw [hdec, List.append_assoc]
            · exact stripEnd_matchFrom_lit hb (Or.inl ⟨hgl, rfl, h⟩)
        · by_cases hbar : c = '|'
          · subst hbar
            simp only [Option.some.injEq, Char.reduceEq, decide_True,
              decide_False, eq_self_iff_true, Bool.false_or,
              Bool.not_false, Bool.true_and, Bool.and_true, if_true,
              if_false, reduceCtorEq] at h
            have hb := lit_all_decomp (l := (c0 :: rest).dropLast)
              (by simpa using hlit)
            cases hfi : firstIndexOf? ((c0 :: rest).dropLast) loc with
            | none =>
              rw [hfi] at h
              simp at h
            | some idx =>
              rw [hfi] at h
              dsimp only at h
              simp only [decide_eq_true_eq] at h
              obtain ⟨pre, suf, hdec, hlen⟩ := firstIndexOf?_spec hfi
              have hsuf : suf = [] := suf_nil_of_len hdec hlen h
              refine (scanFrom_iff _ _ _).mpr
                ⟨pre, (c0 :: rest).dropLast ++ suf, ?_, ?_⟩
              · rw [hdec, List.append_assoc]
              · exact stripEnd_matchFrom_lit hb
                  (Or.inr (Or.inl ⟨hgl, rfl, hsuf⟩))
          · have hlit2 : (c0 :: rest).all
                (fun c => c ≠ '*' && c ≠ '^' && c ≠ '|') = true := by
              split at hlit
              · rename_i heq
                injection heq with heq
                exact absurd heq hbar
              · rename_i heq
                injection heq with heq
                exact absurd heq hcar
              · exact hlit
            have hb := lit_all_decomp hlit2
            have e1 : (decide (some c = some '^')) = false := by
              simp [hcar]
            have e2 : (decide (some c = some '|')) = false := by
              simp [hbar]
            rw [e1, e2] at h
            simp only [Bool.false_or, Bool.not_false, Bool.false_and,
              Bool.and_false, Bool.or_false, Bool.false_eq_true,
              if_false] at h
            cases hfi : firstIndexOf? (c0 :: rest) loc with
            | none =>
              rw [hfi] at h
              simp at h
            | some idx =>
              obtain ⟨pre, suf, hdec, hlen⟩ := firstIndexOf?_spec hfi
              refine (scanFrom_iff _ _ _).mpr
                ⟨pre, (c0 :: rest) ++ suf, ?_, ?_⟩
              · rw [hdec, List.append_assoc]
              · exact stripEnd_matchFrom_lit hb
                  (Or.inr (Or.inr ⟨⟨fun he => hcar (by
                      rw [hgl] at he
                      injection he), fun he => hbar (by
                      rw [hgl] at he
                      injection he)⟩, rfl⟩))


/-! ## Fast-reject transparency (C6) -/

theorem compilePatterns_some {rxOk : Bool} {l : List Filter}
    {cp : CompiledPatterns} (hc : compilePatterns rxOk l = some cp) :
    l.length ≤ 100 ∧ rxOk = true ∧
    cp = { caseSensitive :=
             (l.filter (fun f => f.matchCase)).map Filter.pattern
           caseInsensitive :=
             (l.filter (fun f => !f.matchCase)).map Filter.pattern } := by
  rw [compilePatterns] at hc
  by_cases h1 : 100 < l.length
  · rw [if_pos h1] at hc
    cases hc
  · rw [if_neg h1] at hc
    cases rxOk with
    | false => simp at hc
    | true =>
      simp only [Bool.not_true, Bool.false_eq_true, if_false] at hc
      injection hc with hc
      exact ⟨by omega, rfl, hc.symm⟩

theorem matches_location_true {f : Filter} {req : Request}
    {typeMask : Nat} {sitekey : Option String}
    (h : f.matches req typeMask sitekey = true) :
    f.matchesLocation req = true := by
  rw [Filter.matches] at h
  simp only [Bool.and_eq_true] at h
  exact h.1.2

/-- When the compiled alternation rejects a request, no filter of the
bucket matches its location (the literal fast path included). -/
theorem test_false_no_loc {rxOk : Bool} {l : List Filter}
    {cp : CompiledPatterns} (hc : compilePatterns rxOk l = some cp)
    {req : Request} (ht : cp.test req = false) :
    ∀ f ∈ l, f.matchesLocation req = false := by
  intro f hf
  obtain ⟨hlen, hrx, hcp⟩ := compilePatterns_some hc
  subst hcp
  rw [CompiledPatterns.test] at ht
  rw [Bool.or_eq_false_iff] at ht
  obtain ⟨hcs, hci⟩ := ht
  rw [List.any_eq_false] at hcs hci
  rw [Filter.matchesLocation]
  cases hmc : f.matchCase with
  | true =>
    have hpm : patMatch f.pattern req.href = false := by
      have := hcs f.pattern (by
        rw [List.mem_map]
        exact ⟨f, List.mem_filter.mpr ⟨hf, hmc⟩, rfl⟩)
      simpa using this
    rw [if_pos rfl]
    cases hlp : isLiteralPattern f.pattern with
    | false =>
      simp only [Bool.false_eq_true, if_false]
      exact hpm
    | true =>
      rw [if_pos rfl]
      cases hlm : litMatch f.pattern req.href with
      | false => rfl
      | true =>
        have := litMatch_sound hlp hlm
        rw [this] at hpm
        cases hpm
  | false =>
    have hpm : patMatch f.pattern req.lowerCaseHref = false := by
      have := hci f.pattern (by
        rw [List.mem_map]
        refine ⟨f, List.mem_filter.mpr ⟨hf, by rw [hmc]; rfl⟩, rfl⟩)
      simpa using this
    simp only [Bool.false_eq_true, if_false]
    cases hlp : isLiteralPattern f.pattern with
    | false =>
      simp only [Bool.false_eq_true, if_false]
      exact hpm
    | true =>
      rw [if_pos rfl]
      cases hlm : litMatch f.pattern req.lowerCaseHref with
      | false => rfl
      | true =>
        have := litMatch_sound hlp hlm
        rw [this] at hpm
        cases hpm

theorem mem_of_omap_set {κ ν : Type} [DecidableEq κ]
    {m : List (κ × ν)} {a : κ} {b : ν} {p : κ × ν}
    (h : p ∈ OMap.set m a b) : p = (a, b) ∨ p ∈ m := by
  induction m with
  | nil =>
    simp only [OMap.set, List.mem_singleton] at h
    exact Or.inl h
  | cons q t ih =>
    rcases q with ⟨k, v⟩
    rw [OMap.set] at h
    by_cases hk : k = a
    · rw [if_pos hk] at h
      rcases List.mem_cons.mp h with he | hm
      · subst hk
        exact Or.inl (by rw [he])
      · exact Or.inr (List.mem_cons_of_mem _ hm)
    · rw [if_neg hk] at h
      rcases List.mem_cons.mp h with he | hm
      · exact Or.inr (by rw [he]; exact List.mem_cons_self ..)
      · rcases ih hm with he | hm2
        · exact Or.inl he
        · exact Or.inr (List.mem_cons_of_mem _ hm2)

/-- All filters stored in a raw `FiltersByDomain` map lie in `L`. -/
def EntryMembersIn (m : List (Str × Entry Filter)) (L : List Filter) :
    Prop :=
  ∀ d e, OMap.get m d = some e → ∀ q ∈ entryPairs e, q.1 ∈ L

theorem addStep_members {m : List (Str × Entry Filter)} {text : Filter}
    {d : Str} {i : Bool} {L : List Filter} (hm : EntryMembersIn m L)
    (ht : text ∈ L) : EntryMembersIn (FBD.addStep m text d i) L := by
  intro d' e' hg q hq
  rw [FBD.addStep] at hg
  by_cases hskip : i = false ∧ d = []
  · rw [if_pos hskip] at hg
    exact hm d' e' hg q hq
  · rw [if_neg hskip] at hg
    cases hmd : OMap.get m d with
    | none =>
      rw [hmd] at hg
      by_cases hd : d' = d
      · subst hd
        rw [OMap.get_set_self] at hg
        injection hg with hg
        subst hg
        cases i with
        | true =>
          simp only [if_true] at hq
          simp only [entryPairs, List.mem_singleton] at hq
          subst hq
          exact ht
        | false =>
          simp only [Bool.false_eq_true, if_false] at hq
          simp only [entryPairs, List.mem_singleton] at hq
          subst hq
          exact ht
      · rw [OMap.get_set_other _ _ _ _ hd] at hg
        exact hm d' e' hg q hq
    | some e0 =>
      rw [hmd] at hg
      cases e0 with
      | single s =>
        dsimp only at hg
        by_cases hts : text ≠ s
        · rw [if_pos hts] at hg
          by_cases hd : d' = d
          · subst hd
            rw [OMap.get_set_self] at hg
            injection hg with hg
            subst hg
            simp only [entryPairs, List.mem_cons, List.mem_singleton,
              List.not_mem_nil, or_false] at hq
            rcases hq with hq | hq
            · subst hq
              exact hm d' (Entry.single s) hmd (s, true)
                (by simp [entryPairs])
            · subst hq
              exact ht
          · rw [OMap.get_set_other _ _ _ _ hd] at hg
            exact hm d' e' hg q hq
        · rw [if_neg hts] at hg
          exact hm d' e' hg q hq
      | fmap fm =>
        dsimp only at hg
        by_cases hd : d' = d
        · subst hd
          rw [OMap.get_set_self] at hg
          injection hg with hg
          subst hg
          simp only [entryPairs] at hq
          rcases mem_of_omap_set hq with he | hm2
          · rw [he]
            exact ht
          · exact hm d' (Entry.fmap fm) hmd q (by simp [entryPairs, hm2])
        · rw [OMap.get_set_other _ _ _ _ hd] at hg
          exact hm d' e' hg q hq

theorem addPairs_members {m : List (Str × Entry Filter)} {text : Filter}
    {L : List Filter} (ps : List (Str × Bool))
    (hm : EntryMembersIn m L) (ht : text ∈ L) :
    EntryMembersIn (FBD.addPairs m text ps) L := by
  induction ps generalizing m with
  | nil => exact hm
  | cons p rest ih =>
    rw [FBD.addPairs, List.foldl_cons]
    exact ih (addStep_members hm ht)

/-- Every filter in a bucket index built by `_checkEntryMatchByDomain`
comes from the bucket. -/
theorem buildFBD_members (fk : FK) :
    EntryMembersIn (buildFBD fk).map fk.toList := by
  rw [buildFBD]
  have hgen : ∀ (l : List Filter) (acc : FBD Filter),
      (∀ g ∈ l, g ∈ fk.toList) → EntryMembersIn acc.map fk.toList →
      EntryMembersIn
        (l.foldl (fun acc f => acc.add f f.domains) acc).map
        fk.toList := by
    intro l
    induction l with
    | nil => intro acc _ hacc; exact hacc
    | cons f rest ih =>
      intro acc hl hacc
      rw [List.foldl_cons]
      exact ih _ (fun g hg => hl g (List.mem_cons_of_mem _ hg))
        (addPairs_members _ hacc (hl f (List.mem_cons_self ..)))
  exact hgen fk.toList FBD.empty (fun g hg => hg)
    (by intro d e hg q hq; simp [FBD.empty, OMap.get] at hg)

theorem walkEntry_matches {req : Request} {typeMask : Nat}
    {sitekey : Option String} :
    ∀ (pairs : List (Filter × Bool)) (excluded : List Filter)
      {f : Filter},
      (walkEntry req typeMask sitekey pairs excluded).1 = some f →
      f ∈ pairs.map Prod.fst ∧ f.matches req typeMask sitekey = true := by
  intro pairs
  induction pairs with
  | nil =>
    intro excluded f h
    simp [walkEntry] at h
  | cons q rest ih =>
    intro excluded f h
    rcases q with ⟨g, inc⟩
    rw [walkEntry] at h
    by_cases hinc : inc = true
    · rw [hinc] at h
      simp only [Bool.not_true, Bool.false_eq_true, if_false] at h
      by_cases hex : excluded.contains g
      · rw [if_pos hex] at h
        rcases ih _ h with ⟨hm, hmm⟩
        exact ⟨List.mem_cons_of_mem _ hm, hmm⟩
      · rw [if_neg hex] at h
        by_cases hma : g.matches req typeMask sitekey
        · rw [if_pos hma] at h
          injection h with h
          subst h
          exact ⟨by simp, hma⟩
        · rw [if_neg hma] at h
          rcases ih _ h with ⟨hm, hmm⟩
          exact ⟨List.mem_cons_of_mem _ hm, hmm⟩
    · have hinc2 : inc = false := by
        cases inc
        · rfl
        · exact absurd rfl hinc
      rw [hinc2] at h
      simp only [Bool.not_false, if_true] at h
      rcases ih _ h with ⟨hm, hmm⟩
      exact ⟨List.mem_cons_of_mem _ hm, hmm⟩

theorem walkSuffixes_matches {fbd : FBD Filter} {req : Request}
    {typeMask : Nat} {sitekey : Option String} :
    ∀ (ss : List Str) (excluded : List Filter) {f : Filter},
      walkSuffixes fbd req typeMask sitekey ss excluded = some f →
      (∃ d e, fbd.get d = some e ∧ f ∈ (entryPairs e).map Prod.fst) ∧
        f.matches req typeMask sitekey = true := by
  intro ss
  induction ss with
  | nil =>
    intro excluded f h
    simp [walkSuffixes] at h
  | cons d rest ih =>
    intro excluded f h
    rw [walkSuffixes] at h
    cases hg : fbd.get d with
    | none =>
      rw [hg] at h
      exact ih _ h
    | some e =>
      rw [hg] at h
      dsimp only at h
      cases hw : walkEntry req typeMask sitekey (entryPairs e) excluded
        with
      | mk r exc2 =>
        rw [hw] at h
        cases r with
        | some g =>
          injection h with h
          subst h
          have := walkEntry_matches (entryPairs e) excluded
            (by rw [hw])
          exact ⟨⟨d, e, hg, this.1⟩, this.2⟩
        | none =>
          exact ih _ h

theorem walkEntryAll_matches {req : Request} {typeMask : Nat}
    {sitekey : Option String} :
    ∀ (pairs : List (Filter × Bool)) (excluded : List Filter)
      {f : Filter},
      f ∈ (walkEntryAll req typeMask sitekey pairs excluded).1 →
      f ∈ pairs.map Prod.fst ∧ f.matches req typeMask sitekey = true := by
  intro pairs
  induction pairs with
  | nil =>
    intro excluded f h
    simp [walkEntryAll] at h
  | cons q rest ih =>
    intro excluded f h
    rcases q with ⟨g, inc⟩
    rw [walkEntryAll] at h
    by_cases hinc : inc = true
    · rw [hinc] at h
      simp only [Bool.not_true, Bool.false_eq_true, if_false] at h
      by_cases hex : excluded.contains g
      · rw [if_pos hex] at h
        rcases ih _ h with ⟨hm, hmm⟩
        exact ⟨List.mem_cons_of_mem _ hm, hmm⟩
      · rw [if_neg hex] at h
        by_cases hma : g.matches req typeMask sitekey
        · rw [if_pos hma] at h
          dsimp only at h
          rcases List.mem_cons.mp h with he | hm
          · subst he
            exact ⟨by simp, hma⟩
          · rcases ih _ hm with ⟨hm2, hmm⟩
            exact ⟨List.mem_cons_of_mem _ hm2, hmm⟩
        · rw [if_neg hma] at h
          rcases ih _ h with ⟨hm, hmm⟩
          exact ⟨List.mem_cons_of_mem _ hm, hmm⟩
    · have hinc2 : inc = false := by
        cases inc
        · rfl
        · exact absurd rfl hinc
      rw [hinc2] at h
      simp only [Bool.not_false, if_true] at h
      rcases ih _ h with ⟨hm, hmm⟩
      exact ⟨List.mem_cons_of_mem _ hm, hmm⟩

theorem walkSuffixesAll_matches {fbd : FBD Filter} {req : Request}
    {typeMask : Nat} {sitekey : Option String} :
    ∀ (ss : List Str) (excluded : List Filter) {f : Filter},
      f ∈ walkSuffixesAll fbd req typeMask sitekey ss excluded →
      (∃ d e, fbd.get d = some e ∧ f ∈ (entryPairs e).map Prod.fst) ∧
        f.matches req typeMask sitekey = true := by
  intro ss
  induction ss with
  | nil =>
    intro excluded f h
    simp [walkSuffixesAll] at h
  | cons d rest ih =>
    intro excluded f h
    rw [walkSuffixesAll] at h
    cases hg : fbd.get d with
    | none =>
      rw [hg] at h
      exact ih _ h
    | some e =>
      rw [hg] at h
      dsimp only at h
      rcases List.mem_append.mp h with hm | hm
      · have := walkEntryAll_matches (entryPairs e) excluded hm
        exact ⟨⟨d, e, hg, this.1⟩, this.2⟩
      · exact ih _ hm


theorem preCheck_false {rxOk : Bool} {fk : FK} {req : Request}
    (h : preCheck rxOk fk req = false) :
    ∃ l cp, fk = FK.many l ∧ compilePatterns rxOk l = some cp ∧
      cp.test req = false := by
  cases fk with
  | one f =>
    rw [preCheck] at h
    cases h
  | many l =>
    rw [preCheck] at h
    by_cases hl : l.length ≤ 100
    · rw [if_pos hl] at h
      cases hc : compilePatterns rxOk l with
      | none =>
        rw [hc] at h
        cases h
      | some cp =>
        rw [hc] at h
        exact ⟨l, cp, rfl, hc, h⟩
    · rw [if_neg hl] at h
      cases h

/-- `_checkEntryMatchByDomain` with the `CompiledPatterns` pre-check
removed (first match). -/
def cemByDomainNoPre (core : List (Filter × Str)) (kw : Str)
    (req : Request) (typeMask : Nat) (sitekey : Option String)
    (specificOnly : Bool) : Option Filter :=
  match OMap.get (filtersByKeyword core) kw with
  | none => none
  | some fk =>
    walkSuffixes (buildFBD fk) req typeMask sitekey
      (domainSuffixes ((req.documentHostname).getD []) (!specificOnly)) []

/-- `_checkEntryMatchByDomain` with the pre-check removed
(collection). -/
def cemByDomainAllNoPre (core : List (Filter × Str)) (kw : Str)
    (req : Request) (typeMask : Nat) (sitekey : Option String)
    (specificOnly : Bool) : List Filter :=
  match OMap.get (filtersByKeyword core) kw with
  | none => []
  | some fk =>
    walkSuffixesAll (buildFBD fk) req typeMask sitekey
      (domainSuffixes ((req.documentHostname).getD []) (!specificOnly)) []

/-- `checkEntryMatch` with the pre-check removed (first match). -/
def checkEntryMatchNoPre (core : List (Filter × Str)) (kw : Str)
    (req : Request) (typeMask : Nat) (sitekey : Option String)
    (specificOnly : Bool) : Option Filter :=
  if (typeMask &&& SPECIAL_TYPES) ≠ 0 && (typeMask &&& (typeMask - 1)) = 0
  then cemForType core kw req typeMask sitekey specificOnly
  else cemByDomainNoPre core kw req typeMask sitekey specificOnly

/-- `checkEntryMatch` with the pre-check removed (collection). -/
def checkEntryMatchAllNoPre (core : List (Filter × Str)) (kw : Str)
    (req : Request) (typeMask : Nat) (sitekey : Option String)
    (specificOnly : Bool) : List Filter :=
  if (typeMask &&& SPECIAL_TYPES) ≠ 0 && (typeMask &&& (typeMask - 1)) = 0
  then cemForTypeAll core kw req typeMask sitekey specificOnly
  else cemByDomainAllNoPre core kw req typeMask sitekey specificOnly

/-- The `match` candidate loop with the pre-check removed. -/
def matchLoopNoPre (core : List (Filter × Str)) (req : Request)
    (typeMask : Nat) (sitekey : Option String) (specificOnly : Bool) :
    List Str → Option Filter
  | [] => none
  | c :: rest =>
    if isBadKeyword c then
      matchLoopNoPre core req typeMask sitekey specificOnly rest
    else
      match checkEntryMatchNoPre core c req typeMask sitekey specificOnly
      with
      | some f => some f
      | none => matchLoopNoPre core req typeMask sitekey specificOnly rest

/-- The search candidate loop with the pre-check removed. -/
def searchLoopNoPre (core : List (Filter × Str)) (req : Request)
    (typeMask : Nat) (sitekey : Option String) (specificOnly : Bool) :
    List Str → List Filter
  | [] => []
  | c :: rest =>
    if isBadKeyword c then
      searchLoopNoPre core req typeMask sitekey specificOnly rest
    else
      checkEntryMatchAllNoPre core c req typeMask sitekey specificOnly ++
        searchLoopNoPre core req typeMask sitekey specificOnly rest

/-- `match` with the pre-check removed. -/
def matchQNoPre (m : Matcher2) (req : Request) (typeMask : Nat)
    (sitekey : Option String) (specificOnly : Bool) : Option Filter :=
  matchLoopNoPre m.keywordByFilter req typeMask sitekey specificOnly
    (urlCandidates req.lowerCaseHref)

/-- A search with the pre-check removed. -/
def searchQNoPre (m : Matcher2) (req : Request) (typeMask : Nat)
    (sitekey : Option String) (specificOnly : Bool) : List Filter :=
  searchLoopNoPre m.keywordByFilter req typeMask sitekey specificOnly
    (urlCandidates req.lowerCaseHref)

/-- The pre-check is transparent for the first-match walk. -/
theorem cemByDomain_nopre (rxOk : Bool) (core : List (Filter × Str))
    (kw : Str) (req : Request) (typeMask : Nat)
    (sitekey : Option String) (specificOnly : Bool) :
    cemByDomain rxOk core kw req typeMask sitekey specificOnly =
      cemByDomainNoPre core kw req typeMask sitekey specificOnly := by
  rw [cemByDomain, cemByDomainNoPre]
  cases hfk : OMap.get (filtersByKeyword core) kw with
  | none => rfl
  | some fk =>
    dsimp only
    cases hpc : preCheck rxOk fk req with
    | true => rfl
    | false =>
      simp only [Bool.not_false, if_true]
      obtain ⟨l, cp, hl, hc, ht⟩ := preCheck_false hpc
      cases hws : walkSuffixes (buildFBD fk) req typeMask sitekey
          (domainSuffixes ((req.documentHostname).getD [])
            (!specificOnly)) [] with
      | none => rfl
      | some f =>
        obtain ⟨⟨d, e, hg, hmem⟩, hma⟩ := walkSuffixes_matches _ _ hws
        rw [List.mem_map] at hmem
        obtain ⟨q, hq, hqf⟩ := hmem
        have hfl : f ∈ fk.toList := by
          rw [← hqf]
          exact buildFBD_members fk d e hg q hq
        rw [hl] at hfl
        have hnl := test_false_no_loc hc ht f (by
          simpa [FK.toList] using hfl)
        rw [matches_location_true hma] at hnl
        cases hnl

/-- The pre-check is transparent for the collection walk. -/
theorem cemByDomainAll_nopre (rxOk : Bool) (core : List (Filter × Str))
    (kw : Str) (req : Request) (typeMask : Nat)
    (sitekey : Option String) (specificOnly : Bool) :
    cemByDomainAll rxOk core kw req typeMask sitekey specificOnly =
      cemByDomainAllNoPre core kw req typeMask sitekey specificOnly := by
  rw [cemByDomainAll, cemByDomainAllNoPre]
  cases hfk : OMap.get (filtersByKeyword core) kw with
  | none => rfl
  | some fk =>
    dsimp only
    cases hpc : preCheck rxOk fk req with
    | true => rfl
    | false =>
      simp only [Bool.not_false, if_true]
      obtain ⟨l, cp, hl, hc, ht⟩ := preCheck_false hpc
      cases hws : walkSuffixesAll (buildFBD fk) req typeMask sitekey
          (domainSuffixes ((req.documentHostname).getD [])
            (!specificOnly)) [] with
      | nil => rfl
      | cons f r =>
        have hmemws : f ∈ walkSuffixesAll (buildFBD fk) req typeMask
            sitekey (domainSuffixes ((req.documentHostname).getD [])
              (!specificOnly)) [] := by
          rw [hws]
          exact List.mem_cons_self ..
        obtain ⟨⟨d, e, hg, hmem⟩, hma⟩ :=
          walkSuffixesAll_matches _ _ hmemws
        rw [List.mem_map] at hmem
        obtain ⟨q, hq, hqf⟩ := hmem
        have hfl : f ∈ fk.toList := by
          rw [← hqf]
          exact buildFBD_members fk d e hg q hq
        rw [hl] at hfl
        have hnl := test_false_no_loc hc ht f (by
          simpa [FK.toList] using hfl)
        rw [matches_location_true hma] at hnl
        cases hnl

theorem checkEntryMatch_nopre (rxOk : Bool) (core : List (Filter × Str))
    (kw : Str) (req : Request) (typeMask : Nat)
    (sitekey : Option String) (specificOnly : Bool) :
    checkEntryMatch rxOk core kw req typeMask sitekey specificOnly =
      checkEntryMatchNoPre core kw req typeMask sitekey specificOnly := by
  rw [checkEntryMatch, checkEntryMatchNoPre]
  by_cases hcond : ((typeMask &&& SPECIAL_TYPES) ≠ 0 &&
      (typeMask &&& (typeMask - 1)) = 0) = true
  · rw [if_pos hcond, if_pos hcond]
  · rw [if_neg hcond, if_neg hcond]
    exact cemByDomain_nopre ..

theorem checkEntryMatchAll_nopre (rxOk : Bool)
    (core : List (Filter × Str)) (kw : Str) (req : Request)
    (typeMask : Nat) (sitekey : Option String) (specificOnly : Bool) :
    checkEntryMatchAll rxOk core kw req typeMask sitekey specificOnly =
      checkEntryMatchAllNoPre core kw req typeMask sitekey
        specificOnly := by
  rw [checkEntryMatchAll, checkEntryMatchAllNoPre]
  by_cases hcond : ((typeMask &&& SPECIAL_TYPES) ≠ 0 &&
      (typeMask &&& (typeMask - 1)) = 0) = true
  · rw [if_pos hcond, if_pos hcond]
  · rw [if_neg hcond, if_neg hcond]
    exact cemByDomainAll_nopre ..

theorem matchLoop_nopre (rxOk : Bool) (core : List (Filter × Str))
    (req : Request) (typeMask : Nat) (sitekey : Option String)
    (specificOnly : Bool) (cands : List Str) :
    matchLoop rxOk core req typeMask sitekey specificOnly cands =
      matchLoopNoPre core req typeMask sitekey specificOnly cands := by
  induction cands with
  | nil => rfl
  | cons c rest ih =>
    rw [matchLoop, matchLoopNoPre, checkEntryMatch_nopre, ih]

theorem searchLoop_nopre (rxOk : Bool) (core : List (Filter × Str))
    (req : Request) (typeMask : Nat) (sitekey : Option String)
    (specificOnly : Bool) (cands : List Str) :
    searchLoop rxOk core req typeMask sitekey specificOnly cands =
      searchLoopNoPre core req typeMask sitekey specificOnly cands := by
  induction cands with
  | nil => rfl
  | cons c rest ih =>
    rw [searchLoop, searchLoopNoPre, checkEntryMatchAll_nopre, ih]

/-- C6: `compilePatterns` refuses more than 100 filters and a failed
regular expression build; the fast reject is transparent — whenever
the compiled object exists and rejects a request, no filter of the
bucket matches the request's location, and `match` and `search` return
exactly the same results as the matcher with the pre-check removed,
for every state and query. -/
theorem c6_fast_reject_transparency :
    (∀ (rxOk : Bool) (filters : List Filter),
      100 < filters.length ∨ rxOk = false →
      compilePatterns rxOk filters = none) ∧
    (∀ (rxOk : Bool) (filters : List Filter) (cp : CompiledPatterns)
      (req : Request),
      compilePatterns rxOk filters = some cp → cp.test req = false →
      ∀ f ∈ filters, f.matchesLocation req = false) ∧
    (∀ (m : Matcher2) (rxOk : Bool) (req : Request) (typeMask : Nat)
      (sitekey : Option String) (specificOnly : Bool),
      m.matchQ rxOk req typeMask sitekey specificOnly =
        matchQNoPre m req typeMask sitekey specificOnly ∧
      m.searchQ rxOk req typeMask sitekey specificOnly =
        searchQNoPre m req typeMask sitekey specificOnly) := by
  refine ⟨?_, ?_, ?_⟩
  · intro rxOk filters hor
    rw [compilePatterns]
    rcases hor with hl | hr
    · rw [if_pos hl]
    · subst hr
      by_cases hl : 100 < filters.length
      · rw [if_pos hl]
      · rw [if_neg hl]
        rfl
  · intro rxOk filters cp req hc ht
    exact test_false_no_loc hc ht
  · intro m rxOk req typeMask sitekey specificOnly
    exact ⟨matchLoop_nopre .., searchLoop_nopre ..⟩

def c6req : Request :=
  { href := "http://x.com/page".toList, documentHostname := none,
    thirdParty := false }

/-- Witness for C6: an oversized bucket and a failed build compile to
`null`; on a concrete bucket whose compiled patterns reject a request,
no filter matches its location; `match` agrees with the pre-check-free
matcher on a concrete state and query. -/
theorem c6_fast_reject_transparency_witness :
    compilePatterns false [cxA] = none ∧
    compilePatterns true (List.replicate 101 cxA) = none ∧
    (∀ f ∈ [cxA], f.matchesLocation c6req = false) ∧
    (Matcher2.empty.add cxA).matchQ true c6req SCRIPT_TYPE none false =
      matchQNoPre (Matcher2.empty.add cxA) c6req SCRIPT_TYPE none
        false := by
  refine ⟨c6_fast_reject_transparency.1 false [cxA] (Or.inr rfl),
    c6_fast_reject_transparency.1 true (List.replicate 101 cxA)
      (Or.inl (by decide)), ?_, ?_⟩
  · exact c6_fast_reject_transparency.2.1 true [cxA]
      { caseSensitive := []
        caseInsensitive := ["/ads/aa".toList] } c6req (by decide)
      (by decide)
  · exact (c6_fast_reject_transparency.2.2 (Matcher2.empty.add cxA)
      true c6req SCRIPT_TYPE none false).1


/-! ## Specific-only soundness (C3) -/

/-- A filter fit for the specific-only guarantee: a generic filter has
its include entries only at the blank domain (filter-text parsing
produces a blank include entry exactly when all domain options are
exclusions). -/
def SpecOK (f : Filter) : Prop :=
  f.isGeneric = true →
    match f.domains with
    | none => True
    | some doms => ∀ p ∈ doms, p.2 = true → p.1 = []

theorem firstMatch_specific {req : Request} {typeMask : Nat}
    {sitekey : Option String} :
    ∀ (l : List Filter) {f : Filter},
      firstMatch req typeMask sitekey true l = some f →
      f.isGeneric = false := by
  intro l
  induction l with
  | nil =>
    intro f h
    simp [firstMatch] at h
  | cons g rest ih =>
    intro f h
    rw [firstMatch] at h
    cases hg : g.isGeneric with
    | true =>
      rw [hg] at h
      simp only [Bool.and_true, if_true] at h
      exact ih h
    | false =>
      rw [hg] at h
      simp only [Bool.and_false, Bool.false_eq_true, if_false] at h
      by_cases hm : g.matches req typeMask sitekey
      · rw [if_pos hm] at h
        injection h with h
        rw [← h]
        exact hg
      · rw [if_neg hm] at h
        exact ih h

theorem holdsM_addStep_true {m : List (Str × Entry Filter)}
    {t : Filter} {d : Str} {i : Bool} {d' : Str} {t' : Filter}
    (h : FBD.holdsM (FBD.addStep m t d i) d' t' = some true) :
    (t' = t ∧ d' = d ∧ i = true) ∨ FBD.holdsM m d' t' = some true := by
  rw [FBD.addStep] at h
  by_cases hskip : i = false ∧ d = []
  · rw [if_pos hskip] at h
    exact Or.inr h
  · rw [if_neg hskip] at h
    cases hmd : OMap.get m d with
    | none =>
      rw [hmd] at h
      by_cases hd : d' = d
      · subst hd
        rw [FBD.holdsM, OMap.get_set_self] at h
        simp only [Option.some_bind] at h
        cases i with
        | true =>
          simp only [if_true] at h
          rw [FBD.entryHolds] at h
          by_cases ht : t' = t
          · exact Or.inl ⟨ht, rfl, rfl⟩
          · rw [if_neg ht] at h
            cases h
        | false =>
          simp only [Bool.false_eq_true, if_false] at h
          rw [FBD.entryHolds] at h
          by_cases ht : t = t'
          · rw [OMap.get, if_pos ht] at h
            cases h
          · rw [OMap.get, if_neg ht] at h
            cases h
      · rw [FBD.holdsM, OMap.get_set_other _ _ _ _ hd] at h
        exact Or.inr h
    | some e0 =>
      rw [hmd] at h
      cases e0 with
      | single s =>
        dsimp only at h
        by_cases hts : t ≠ s
        · rw [if_pos hts] at h
          by_cases hd : d' = d
          · subst hd
            rw [FBD.holdsM, OMap.get_set_self] at h
            simp only [Option.some_bind] at h
            rw [FBD.entryHolds, OMap.get] at h
            by_cases hst : s = t'
            · refine Or.inr ?_
              rw [FBD.holdsM, hmd]
              simp only [Option.some_bind]
              rw [FBD.entryHolds, if_pos hst.symm]
            · rw [if_neg hst, OMap.get] at h
              by_cases htt : t = t'
              · rw [if_pos htt] at h
                injection h with h
                exact Or.inl ⟨htt.symm, rfl, h⟩
              · rw [if_neg htt, OMap.get] at h
                cases h
          · rw [FBD.holdsM, OMap.get_set_other _ _ _ _ hd] at h
            exact Or.inr h
        · rw [if_neg hts] at h
          exact Or.inr h
      | fmap fm =>
        dsimp only at h
        by_cases hd : d' = d
        · subst hd
          rw [FBD.holdsM, OMap.get_set_self] at h
          simp only [Option.some_bind] at h
          rw [FBD.entryHolds] at h
          by_cases htt : t' = t
          · subst htt
            rw [OMap.get_set_self] at h
            injection h with h
            exact Or.inl ⟨rfl, rfl, h⟩
          · rw [OMap.get_set_other _ _ _ _ htt] at h
            refine Or.inr ?_
            rw [FBD.holdsM, hmd]
            simp only [Option.some_bind]
            rw [FBD.entryHolds]
            exact h
        · rw [FBD.holdsM, OMap.get_set_other _ _ _ _ hd] at h
          exact Or.inr h


theorem holdsM_addPairs_true {m : List (Str × Entry Filter)}
    {t : Filter} (ps : List (Str × Bool)) {d : Str} {t' : Filter}
    (h : FBD.holdsM (FBD.addPairs m t ps) d t' = some true) :
    (t' = t ∧ (d, true) ∈ ps) ∨ FBD.holdsM m d t' = some true := by
  induction ps generalizing m with
  | nil => exact Or.inr h
  | cons p rest ih =>
    rw [FBD.addPairs, List.foldl_cons] at h
    rcases ih (h := h) with ⟨ht, hd⟩ | hs
    · exact Or.inl ⟨ht, List.mem_cons_of_mem _ hd⟩
    · rcases holdsM_addStep_true hs with ⟨ht, hd, hi⟩ | hs'
      · refine Or.inl ⟨ht, ?_⟩
        rw [hd, ← hi]
        exact List.mem_cons_self ..
      · exact Or.inr hs'

theorem holdsM_addSeqM_true_aux :
    ∀ (l : List (Filter × Option (List (Str × Bool))))
      (m : List (Str × Entry Filter)) {d : Str} {t' : Filter},
      FBD.holdsM (FBD.addSeqM m l) d t' = some true →
      (∃ p ∈ l, p.1 = t' ∧ (d, true) ∈ FBD.domainsOrDefault p.2) ∨
      FBD.holdsM m d t' = some true := by
  intro l
  induction l with
  | nil =>
    intro m d t' h
    exact Or.inr h
  | cons p rest ih =>
    intro m d t' h
    rw [FBD.addSeqM, List.foldl_cons] at h
    rcases ih (FBD.addPairs m p.1 (FBD.domainsOrDefault p.2)) h with
      ⟨q, hq, hq2⟩ | hs
    · exact Or.inl ⟨q, List.mem_cons_of_mem _ hq, hq2⟩
    · rcases holdsM_addPairs_true _ hs with ⟨ht, hd⟩ | hs'
      · exact Or.inl ⟨p, List.mem_cons_self .., ht.symm, hd⟩
      · exact Or.inr hs'

theorem holdsM_addSeqM_true
    {l : List (Filter × Option (List (Str × Bool)))} {d : Str}
    {t' : Filter}
    (h : FBD.holdsM (FBD.addSeqM [] l) d t' = some true) :
    ∃ p ∈ l, p.1 = t' ∧ (d, true) ∈ FBD.domainsOrDefault p.2 := by
  rcases holdsM_addSeqM_true_aux l [] h with hp | hs
  · exact hp
  · rw [FBD.holdsM] at hs
    simp [OMap.get] at hs

theorem buildFBD_eq (fk : FK) :
    (buildFBD fk).map =
      FBD.addSeqM [] (fk.toList.map (fun f => (f, f.domains))) := by
  rw [buildFBD, show (FBD.addSeqM [] (fk.toList.map
      (fun f => (f, f.domains))) : List (Str × Entry Filter)) =
      (FBD.addSeq FBD.empty (fk.toList.map (fun f => (f, f.domains)))).map
    from (FBD.addSeq_map ..).symm]
  rw [FBD.addSeq, List.foldl_map]

theorem entryHolds_of_get {e : Entry Filter} {f : Filter}
    (h : OMap.get (entryPairs e) f = some true) :
    FBD.entryHolds e f = some true := by
  cases e with
  | single s =>
    simp only [entryPairs] at h
    rw [OMap.get] at h
    by_cases hs : s = f
    · rw [FBD.entryHolds, if_pos hs.symm]
    · rw [if_neg hs, OMap.get] at h
      cases h
  | fmap fm =>
    simp only [entryPairs] at h
    rw [FBD.entryHolds]
    exact h

theorem walkEntry_not_excluded {req : Request} {typeMask : Nat}
    {sitekey : Option String} :
    ∀ (pairs : List (Filter × Bool)) (excluded : List Filter)
      {f : Filter},
      (walkEntry req typeMask sitekey pairs excluded).1 = some f →
      excluded.contains f = false := by
  intro pairs
  induction pairs with
  | nil =>
    intro excluded f h
    simp [walkEntry] at h
  | cons q rest ih =>
    intro excluded f h
    rcases q with ⟨g, inc⟩
    rw [walkEntry] at h
    cases inc with
    | false =>
      simp only [Bool.not_false, if_true] at h
      have := ih _ h
      rw [List.contains_cons] at this
      rcases Bool.or_eq_false_iff.mp this with ⟨h1, h2⟩
      exact h2
    | true =>
      simp only [Bool.not_true, Bool.false_eq_true, if_false] at h
      by_cases hex : excluded.contains g
      · rw [if_pos hex] at h
        exact ih _ h
      · rw [if_neg hex] at h
        by_cases hm : g.matches req typeMask sitekey
        · rw [if_pos hm] at h
          injection h with h
          subst h
          cases hq : excluded.contains g with
          | false => rfl
          | true => exact absurd hq hex
        · rw [if_neg hm] at h
          exact ih _ h

theorem walkEntry_first_true {req : Request} {typeMask : Nat}
    {sitekey : Option String} :
    ∀ (pairs : List (Filter × Bool)) (excluded : List Filter)
      {f : Filter},
      (walkEntry req typeMask sitekey pairs excluded).1 = some f →
      OMap.get pairs f = some true := by
  intro pairs
  induction pairs with
  | nil =>
    intro excluded f h
    simp [walkEntry] at h
  | cons q rest ih =>
    intro excluded f h
    rcases q with ⟨g, inc⟩
    rw [walkEntry] at h
    cases inc with
    | false =>
      simp only [Bool.not_false, if_true] at h
      have hne := walkEntry_not_excluded _ _ h
      rw [List.contains_cons] at hne
      rcases Bool.or_eq_false_iff.mp hne with ⟨h1, h2⟩
      have hgf : ¬ g = f := by
        intro he
        rw [he] at h1
        simp at h1
      rw [OMap.get, if_neg hgf]
      exact ih _ h
    | true =>
      simp only [Bool.not_true, Bool.false_eq_true, if_false] at h
      by_cases hgf : g = f
      · rw [OMap.get, if_pos hgf]
      · rw [OMap.get, if_neg hgf]
        by_cases hex : excluded.contains g
        · rw [if_pos hex] at h
          exact ih _ h
        · rw [if_neg hex] at h
          by_cases hm : g.matches req typeMask sitekey
          · rw [if_pos hm] at h
            injection h with h
            exact absurd h hgf
          · rw [if_neg hm] at h
            exact ih _ h

theorem walkSuffixes_ret {fbd : FBD Filter} {req : Request}
    {typeMask : Nat} {sitekey : Option String} :
    ∀ (ss : List Str) (excluded : List Filter) {f : Filter},
      walkSuffixes fbd req typeMask sitekey ss excluded = some f →
      ∃ d, d ∈ ss ∧ ∃ e exc, fbd.get d = some e ∧
        (walkEntry req typeMask sitekey (entryPairs e) exc).1 =
          some f := by
  intro ss
  induction ss with
  | nil =>
    intro excluded f h
    simp [walkSuffixes] at h
  | cons d rest ih =>
    intro excluded f h
    rw [walkSuffixes] at h
    cases hg : fbd.get d with
    | none =>
      rw [hg] at h
      rcases ih _ h with ⟨d', hd', rest1⟩
      exact ⟨d', List.mem_cons_of_mem _ hd', rest1⟩
    | some e =>
      rw [hg] at h
      dsimp only at h
      cases hw : walkEntry req typeMask sitekey (entryPairs e) excluded
        with
      | mk r exc2 =>
        rw [hw] at h
        cases r with
        | some g =>
          injection h with h
          subst h
          exact ⟨d, List.mem_cons_self .., e, excluded, hg,
            by rw [hw]⟩
        | none =>
          rcases ih _ h with ⟨d', hd', rest1⟩
          exact ⟨d', List.mem_cons_of_mem _ hd', rest1⟩

theorem suffixChainF_ne_nil :
    ∀ (n : Nat) (d : Str), ∀ s ∈ suffixChainF n d, s ≠ [] := by
  intro n
  induction n with
  | zero =>
    intro d s hs
    simp [suffixChainF] at hs
  | succ n ih =>
    intro d s hs
    cases d with
    | nil => simp [suffixChainF] at hs
    | cons c t =>
      rw [suffixChainF] at hs
      rcases List.mem_cons.mp hs with he | hm
      · rw [he]
        simp
      · exact ih _ s hm

theorem suffixChain_ne_nil (d : Str) : ∀ s ∈ suffixChain d, s ≠ [] :=
  suffixChainF_ne_nil _ d

theorem addFK_members {m : List (Str × FK)} {f : Filter} {kw0 : Str}
    (P : Filter → Prop)
    (hm : ∀ kw fk, OMap.get m kw = some fk → ∀ g ∈ fk.toList, P g)
    (hf : P f) :
    ∀ kw fk, OMap.get (addFK f kw0 m) kw = some fk →
      ∀ g ∈ fk.toList, P g := by
  intro kw fk hk g hg
  cases hb : OMap.get m kw0 with
  | none =>
    rw [addFK, hb] at hk
    by_cases he : kw = kw0
    · subst he
      rw [OMap.get_set_self] at hk
      injection hk with hk
      subst hk
      simp only [FK.toList, List.mem_singleton] at hg
      subst hg
      exact hf
    · rw [OMap.get_set_other _ _ _ _ he] at hk
      exact hm kw fk hk g hg
  | some fk0 =>
    cases fk0 with
    | one g0 =>
      rw [addFK, hb] at hk
      dsimp only at hk
      by_cases he : kw = kw0
      · subst he
        rw [OMap.get_set_self] at hk
        injection hk with hk
        subst hk
        simp only [FK.toList, List.mem_cons, List.mem_singleton,
          List.not_mem_nil, or_false] at hg
        rcases hg with hg | hg
        · subst hg
          exact hm kw (FK.one g) hb g (by simp [FK.toList])
        · subst hg
          exact hf
      · rw [OMap.get_set_other _ _ _ _ he] at hk
        exact hm kw fk hk g hg
    | many l =>
      rw [addFK, hb] at hk
      dsimp only at hk
      by_cases he : kw = kw0
      · subst he
        rw [OMap.get_set_self] at hk
        injection hk with hk
        subst hk
        simp only [FK.toList, List.mem_append, List.mem_singleton]
          at hg
        rcases hg with hg | hg
        · exact hm kw (FK.many l) hb g (by simp [FK.toList, hg])
        · subst hg
          exact hf
      · rw [OMap.get_set_other _ _ _ _ he] at hk
        exact hm kw fk hk g hg

theorem filtersByKeyword_members (core : List (Filter × Str))
    (P : Filter → Prop) (hcore : ∀ p ∈ core, P p.1) :
    ∀ kw fk, OMap.get (filtersByKeyword core) kw = some fk →
      ∀ g ∈ fk.toList, P g := by
  rw [filtersByKeyword]
  have hgen : ∀ (l : List (Filter × Str)) (acc : List (Str × FK)),
      (∀ p ∈ l, P p.1) →
      (∀ kw fk, OMap.get acc kw = some fk → ∀ g ∈ fk.toList, P g) →
      ∀ kw fk, OMap.get (l.foldl (fun acc p => addFK p.1 p.2 acc) acc)
          kw = some fk → ∀ g ∈ fk.toList, P g := by
    intro l
    induction l with
    | nil =>
      intro acc _ hacc
      exact hacc
    | cons p rest ih =>
      intro acc hl hacc
      rw [List.foldl_cons]
      exact ih _ (fun q hq => hl q (List.mem_cons_of_mem _ hq))
        (addFK_members P hacc (hl p (List.mem_cons_self ..)))
  exact hgen core [] hcore (by
    intro kw fk hk
    simp [OMap.get] at hk)


theorem cemForType_specific {core : List (Filter × Str)} {kw : Str}
    {req : Request} {typeMask : Nat} {sitekey : Option String}
    {f : Filter}
    (h : cemForType core kw req typeMask sitekey true = some f) :
    f.isGeneric = false := by
  rw [cemForType] at h
  cases hfk : OMap.get (filtersByKeyword core) kw with
  | none =>
    rw [hfk] at h
    cases h
  | some fk =>
    rw [hfk] at h
    exact firstMatch_specific _ h

theorem cemByDomain_specific {rxOk : Bool} {core : List (Filter × Str)}
    {kw : Str} {req : Request} {typeMask : Nat}
    {sitekey : Option String} {f : Filter}
    (hok : ∀ p ∈ core, SpecOK p.1)
    (h : cemByDomain rxOk core kw req typeMask sitekey true = some f) :
    f.isGeneric = false := by
  rw [cemByDomain] at h
  cases hfk : OMap.get (filtersByKeyword core) kw with
  | none =>
    rw [hfk] at h
    cases h
  | some fk =>
    rw [hfk] at h
    dsimp only at h
    cases hpc : preCheck rxOk fk req with
    | false =>
      rw [hpc] at h
      simp at h
    | true =>
      rw [hpc] at h
      simp only [Bool.not_true, Bool.false_eq_true, if_false,
        domainSuffixes, List.append_nil] at h
      obtain ⟨d, hd, e, exc, hg, hwe⟩ := walkSuffixes_ret _ _ h
      have hdne : d ≠ [] := suffixChain_ne_nil _ d hd
      have hhold : FBD.holdsM (buildFBD fk).map d f = some true := by
        rw [FBD.holdsM, show OMap.get (buildFBD fk).map d = some e
          from hg]
        simp only [Option.some_bind]
        exact entryHolds_of_get (walkEntry_first_true _ _ hwe)
      rw [buildFBD_eq] at hhold
      obtain ⟨p, hp, hpf, hdt⟩ := holdsM_addSeqM_true hhold
      rw [List.mem_map] at hp
      obtain ⟨g, hgm, hgp⟩ := hp
      have hgf : g = f := by
        rw [← hgp] at hpf
        exact hpf
      subst hgf
      have hPg : SpecOK g :=
        filtersByKeyword_members core SpecOK hok kw fk hfk g hgm
      cases hgen : g.isGeneric with
      | false => rfl
      | true =>
        have hs := hPg hgen
        rw [← hgp] at hdt
        cases hdom : g.domains with
        | none =>
          rw [hdom] at hdt
          simp only [FBD.domainsOrDefault, Option.getD_none,
            List.mem_singleton, Prod.mk.injEq] at hdt
          exact absurd hdt.1 hdne
        | some doms =>
          rw [hdom] at hs hdt
          simp only [FBD.domainsOrDefault, Option.getD_some] at hdt
          exact absurd (hs (d, true) hdt rfl) hdne

theorem checkEntryMatch_specific {rxOk : Bool}
    {core : List (Filter × Str)} {kw : Str} {req : Request}
    {typeMask : Nat} {sitekey : Option String} {f : Filter}
    (hok : ∀ p ∈ core, SpecOK p.1)
    (h : checkEntryMatch rxOk core kw req typeMask sitekey true =
      some f) :
    f.isGeneric = false := by
  rw [checkEntryMatch] at h
  by_cases hcond : ((typeMask &&& SPECIAL_TYPES) ≠ 0 &&
      (typeMask &&& (typeMask - 1)) = 0) = true
  · rw [if_pos hcond] at h
    exact cemForType_specific h
  · rw [if_neg hcond] at h
    exact cemByDomain_specific hok h

theorem matchLoop_specific {rxOk : Bool} {core : List (Filter × Str)}
    {req : Request} {typeMask : Nat} {sitekey : Option String}
    (hok : ∀ p ∈ core, SpecOK p.1) :
    ∀ (cands : List Str) {f : Filter},
      matchLoop rxOk core req typeMask sitekey true cands = some f →
      f.isGeneric = false := by
  intro cands
  induction cands with
  | nil =>
    intro f h
    simp [matchLoop] at h
  | cons c rest ih =>
    intro f h
    rw [matchLoop] at h
    by_cases hbad : isBadKeyword c = true
    · rw [if_pos hbad] at h
      exact ih h
    · rw [if_neg hbad] at h
      cases hce : checkEntryMatch rxOk core c req typeMask sitekey true
        with
      | some g =>
        rw [hce] at h
        injection h with h
        subst h
        exact checkEntryMatch_specific hok hce
      | none =>
        rw [hce] at h
        exact ih h

theorem cemForType3_specific {m : Matcher3} {kw : Str} {req : Request}
    {typeMask : Nat} {sitekey : Option String} {f : Filter}
    (h : Matcher3.cemForType3 m kw req typeMask sitekey true = some f) :
    f.isGeneric = false := by
  rw [Matcher3.cemForType3] at h
  cases hfk : Matcher3.typeLookup m typeMask kw with
  | none =>
    rw [hfk] at h
    cases h
  | some fk =>
    rw [hfk] at h
    exact firstMatch_specific _ h

theorem cemComplex_specific {m : Matcher3} {kw : Str} {req : Request}
    {typeMask : Nat} {sitekey : Option String} {f : Filter}
    (h : Matcher3.cemComplex m kw req typeMask sitekey true = some f) :
    f.isGeneric = false := by
  rw [Matcher3.cemComplex] at h
  cases hfk : OMap.get m.complexFiltersByKeyword kw with
  | none =>
    rw [hfk] at h
    cases h
  | some fk =>
    rw [hfk] at h
    exact firstMatch_specific _ h

theorem checkEntryMatch3_specific {rxOk : Bool} {m : Matcher3}
    {kw : Str} {req : Request} {typeMask : Nat}
    {sitekey : Option String} {f : Filter}
    (h : Matcher3.checkEntryMatch3 rxOk m kw req typeMask sitekey true =
      some f) :
    f.isGeneric = false := by
  rw [Matcher3.checkEntryMatch3] at h
  simp only [Bool.not_true, Bool.false_and, Bool.false_eq_true,
    if_false] at h
  by_cases hcond : ((typeMask &&& SPECIAL_TYPES) ≠ 0 &&
      (typeMask &&& (typeMask - 1)) = 0) = true
  · rw [if_pos hcond] at h
    exact cemForType3_specific h
  · rw [if_neg hcond] at h
    exact cemComplex_specific h

theorem matchLoop3_specific {rxOk : Bool} {m : Matcher3}
    {req : Request} {typeMask : Nat} {sitekey : Option String} :
    ∀ (cands : List Str) {f : Filter},
      Matcher3.matchLoop3 rxOk m req typeMask sitekey true cands =
        some f →
      f.isGeneric = false := by
  intro cands
  induction cands with
  | nil =>
    intro f h
    simp [Matcher3.matchLoop3] at h
  | cons c rest ih =>
    intro f h
    rw [Matcher3.matchLoop3] at h
    by_cases hbad : isBadKeyword c = true
    · rw [if_pos hbad] at h
      exact ih h
    · rw [if_neg hbad] at h
      cases hce : Matcher3.checkEntryMatch3 rxOk m c req typeMask
        sitekey true with
      | some g =>
        rw [hce] at h
        injection h with h
        subst h
        exact checkEntryMatch3_specific hce
      | none =>
        rw [hce] at h
        exact ih h

/-- C3 (amended): with `specificOnly = true` the part-002 matcher never
returns a generic filter, provided each held filter is well-formed for
specificity (a generic filter's include entries sit at the blank
domain, as filter-text parsing guarantees); the part-003 matcher never
does, unconditionally; and the combined matcher never does when the
result comes from the blocking side (the whitelist scan drops
`specificOnly`, which the recorded counterexample exploits). -/
theorem c3_specific_only :
    (∀ (m : Matcher2) (rxOk : Bool) (req : Request) (typeMask : Nat)
      (sitekey : Option String) (f : Filter),
      (∀ p ∈ m.keywordByFilter, SpecOK p.1) →
      m.matchQ rxOk req typeMask sitekey true = some f →
      f.isGeneric = false) ∧
    (∀ (m : Matcher3) (rxOk : Bool) (req : Request) (typeMask : Nat)
      (sitekey : Option String) (f : Filter),
      m.matchQ3 rxOk req typeMask sitekey true = some f →
      f.isGeneric = false) ∧
    (∀ (cm : CombinedM) (rxOk : Bool) (req : Request) (typeMask : Nat)
      (sitekey : Option String) (f : Filter),
      (∀ p ∈ cm.blocking.keywordByFilter, SpecOK p.1) →
      cm.whitelist.matchQ rxOk req typeMask sitekey false = none →
      cm.matchInternal rxOk req typeMask sitekey true = some f →
      f.isGeneric = false) := by
  refine ⟨?_, ?_, ?_⟩
  · intro m rxOk req typeMask sitekey f hok h
    rw [Matcher2.matchQ] at h
    exact matchLoop_specific hok _ h
  · intro m rxOk req typeMask sitekey f h
    rw [Matcher3.matchQ3] at h
    exact matchLoop3_specific _ h
  · intro cm rxOk req typeMask sitekey f hok hwl h
    rw [CombinedM.matchInternal] at h
    rw [hwl] at h
    simp only [ite_self] at h
    by_cases hnw : (typeMask &&& NON_WHITELISTING_MASK) ≠ 0
    · rw [if_pos hnw] at h
      rw [Matcher2.matchQ] at h
      exact matchLoop_specific hok _ h
    · rw [if_neg hnw] at h
      cases h


instance (f : Filter) : Decidable (SpecOK f) :=
  decidable_of_iff
    (f.isGeneric = true →
      ∀ p ∈ (f.domains).getD [], p.2 = true → p.1 = [])
    (by
      unfold SpecOK
      cases f.domains with
      | none => simp
      | some doms => simp)

/-- Concrete application of the specific-only theorem: a
domain-specific blocking filter is returned with `specificOnly = true`
by all three matchers, and it is indeed not generic. -/
theorem c3_specific_only_witness :
    ((∀ p ∈ (Matcher2.empty.add cxBlockSpec).keywordByFilter,
        SpecOK p.1) ∧
      (Matcher2.empty.add cxBlockSpec).matchQ true cxReq SCRIPT_TYPE
        none true = some cxBlockSpec ∧
      cxBlockSpec.isGeneric = false) ∧
    ((Matcher3.empty.add cxBlockSpec).matchQ3 true cxReq SCRIPT_TYPE
        none true = some cxBlockSpec ∧
      cxBlockSpec.isGeneric = false) ∧
    ((∀ p ∈ (CombinedM.empty.add cxBlockSpec).blocking.keywordByFilter,
        SpecOK p.1) ∧
      (CombinedM.empty.add cxBlockSpec).whitelist.matchQ true cxReq
        SCRIPT_TYPE none false = none ∧
      (CombinedM.empty.add cxBlockSpec).matchInternal true cxReq
        SCRIPT_TYPE none true = some cxBlockSpec ∧
      cxBlockSpec.isGeneric = false) :=
  ⟨⟨by decide, by decide,
    c3_specific_only.1 (Matcher2.empty.add cxBlockSpec) true cxReq
      SCRIPT_TYPE none cxBlockSpec (by decide) (by decide)⟩,
   ⟨by decide,
    c3_specific_only.2.1 (Matcher3.empty.add cxBlockSpec) true cxReq
      SCRIPT_TYPE none cxBlockSpec (by decide)⟩,
   ⟨by decide, by decide, by decide,
    c3_specific_only.2.2 (CombinedM.empty.add cxBlockSpec) true cxReq
      SCRIPT_TYPE none cxBlockSpec (by decide) (by decide)
      (by decide)⟩⟩

end ABP
